import Mathlib

/-!
# HPC_Lab: tile scheduler and ray tracer

A shallow embedding of the tile-based master/worker renderer (`main.cpp`) and of the
geometric kernel and shading code (`exercise2/raytracer.cpp`), followed by the
properties established about them.

Conventions of the embedding:

* C++ `int` values are Lean `Int` (or `Nat` where the value indexes a container), the
  worker seed is computed modulo `2^32` as the `unsigned int` arithmetic does;
* C++ `double` values are elements of a linearly ordered field `K`; theorems are stated
  over `ℝ` with `Real.sqrt`, the definitions stay executable over `ℚ`;
* loops whose termination depends on the data take a fuel argument and return `none`
  when it runs out.
-/

namespace HPCLab

/-! ## Tiles (`main.cpp`, lines 66-80) -/

/-- The `Tile` record of `main.cpp`: identifier, top-left pixel and size. -/
structure Tile where
  id : Int
  x0 : Int
  y0 : Int
  w : Int
  h : Int
deriving DecidableEq, Repr

/-- Inner loop `for (int x = ...; x < image_size; x += TILE_SIZE)` of the tile
generation, started at column `x` with running identifier `id`; returns the tiles pushed
(in push order) and the identifier after the loop. -/
def tileRow (image_size TILE_SIZE y : Int) : Nat → Int → Int → Option (List Tile × Int)
  | 0, x, id => if x < image_size then none else some ([], id)
  | fuel + 1, x, id =>
    if x < image_size then
      match tileRow image_size TILE_SIZE y fuel (x + TILE_SIZE) (id + 1) with
      | none => none
      | some (rest, id') =>
        some (⟨id, x, y, min TILE_SIZE (image_size - x), min TILE_SIZE (image_size - y)⟩ :: rest,
          id')
    else some ([], id)

/-- Outer loop `for (int y = ...; y < image_size; y += TILE_SIZE)`, started at row `y`
with running identifier `id`. -/
def tileRows (image_size TILE_SIZE : Int) (rowFuel : Nat) : Nat → Int → Int → Option (List Tile)
  | 0, y, _ => if y < image_size then none else some []
  | fuel + 1, y, id =>
    if y < image_size then
      match tileRow image_size TILE_SIZE y rowFuel 0 id with
      | none => none
      | some (row, id') =>
        match tileRows image_size TILE_SIZE rowFuel fuel (y + TILE_SIZE) id' with
        | none => none
        | some rest => some (row ++ rest)
    else some []

/-- The vector `tiles` built by `main` (both loops start at 0, `id` starts at 0). -/
def generateTiles (fuel : Nat) (image_size TILE_SIZE : Int) : Option (List Tile) :=
  tileRows image_size TILE_SIZE fuel fuel 0 0

/-- Pixel `(x, y)` lies in the rectangle `[x0, x0+w) x [y0, y0+h)` of the tile. -/
def Tile.covers (t : Tile) (x y : Int) : Bool :=
  decide (t.x0 ≤ x ∧ x < t.x0 + t.w ∧ t.y0 ≤ y ∧ y < t.y0 + t.h)

/-- The tile's rectangle lies inside the `N x N` raster. -/
def Tile.inside (t : Tile) (N : Int) : Prop :=
  0 ≤ t.x0 ∧ 0 ≤ t.y0 ∧ 0 ≤ t.w ∧ 0 ≤ t.h ∧ t.x0 + t.w ≤ N ∧ t.y0 + t.h ≤ N


/-! ## Coordinator protocol (`main.cpp`, lines 86-135) and worker loop (lines 148-187) -/

/-- A message from the master to a worker: tag 1 carries the five integers of a tile,
tag 2 is the empty "done" message. -/
inductive Msg where
  | work (tile : Tile)
  | done
deriving DecidableEq, Repr

/-- The tile carried by a message, if any. -/
def Msg.tile? : Msg → Option Tile
  | Msg.work t => some t
  | Msg.done => none

/-- State of the master's protocol variables together with the workers' side:
`sends` is the trace of the master's `MPI_Send` calls (destination rank, message), oldest
first; `recvs` is the trace of results received (source rank, the tile the worker
rendered, whose `id`, `w`, `h` form the header); `holding` lists the workers that have
been given a tile and have not yet had their result received. -/
structure Coord where
  next_tile : Nat
  tiles_received : Nat
  sends : List (Nat × Msg)
  recvs : List (Nat × Tile)
  holding : List (Nat × Tile)
deriving DecidableEq, Repr

/-- State before the initial dispatch. -/
def Coord.init : Coord := ⟨0, 0, [], [], []⟩

/-- The branch `if (next_tile < num_tiles) { send tiles[next_tile]; ++next_tile; } else
{ send done; }` used both in the initial dispatch (lines 89-95) and after a result has
been received (lines 128-134). -/
def dispatch (tiles : List Tile) (s : Coord) (worker : Nat) : Coord :=
  if h : s.next_tile < tiles.length then
    { s with
      next_tile := s.next_tile + 1
      sends := s.sends ++ [(worker, Msg.work (tiles[s.next_tile]))]
      holding := s.holding ++ [(worker, tiles[s.next_tile])] }
  else
    { s with sends := s.sends ++ [(worker, Msg.done)] }

/-- Initial dispatch: `for (int worker = 1; worker < size; ++worker)`. -/
def initialDispatch (tiles : List Tile) (size : Nat) : Coord :=
  (List.range' 1 (size - 1)).foldl (dispatch tiles) Coord.init

/-- One iteration of the receive loop once the wildcard receive has delivered the result
of worker `src` for tile `t`: count it and send `src` its next message. -/
def receive (tiles : List Tile) (s : Coord) (src : Nat) (t : Tile) : Coord :=
  dispatch tiles
    { s with
      tiles_received := s.tiles_received + 1
      recvs := s.recvs ++ [(src, t)]
      holding := s.holding.erase (src, t) } src

/-- One iteration of `while (tiles_received < num_tiles)` in which the result of worker
`src` arrives; `none` when the loop has ended or `src` holds no tile. As a relation
between states, `recvStep tiles s src = some s'` for some `src` is the step relation of
the loop: any worker holding a tile may report next. -/
def recvStep (tiles : List Tile) (s : Coord) (src : Nat) : Option Coord :=
  if s.tiles_received < tiles.length then
    match s.holding.find? (fun p => p.1 == src) with
    | some p => some (receive tiles s src p.2)
    | none => none
  else none

/-- The receive loop driven by an arrival order (the source rank of each iteration). -/
def runLoop (tiles : List Tile) : Coord → List Nat → Option Coord
  | s, [] => some s
  | s, src :: rest =>
    match recvStep tiles s src with
    | some s' => runLoop tiles s' rest
    | none => none

/-- The master's protocol for `size` processes: initial dispatch, then the receive loop
along the arrival order. -/
def masterRun (tiles : List Tile) (size : Nat) (order : List Nat) : Option Coord :=
  runLoop tiles (initialDispatch tiles size) order

/-- The tiles sent over the whole run, in sending order. -/
def Coord.sentTiles (s : Coord) : List Tile := s.sends.filterMap (fun p => p.2.tile?)

/-- The tile identifiers of the received headers, in arrival order. -/
def Coord.recvIds (s : Coord) : List Int := s.recvs.map (fun p => p.2.id)

/-- The pairs (rank, tile) of the work messages sent so far, in sending order: which
worker was assigned which tile. -/
def Coord.assignments (s : Coord) : List (Nat × Tile) :=
  s.sends.filterMap (fun p => p.2.tile?.map (fun t => (p.1, t)))

/-- Identifiers are list positions (what the generation loop produces). -/
def IdsArePositions (tiles : List Tile) : Prop :=
  ∀ (i : Nat) (h : i < tiles.length), (tiles[i]).id = (i : Int)

/-- Protocol invariant after `k` workers have been served by the initial dispatch
(`k = size - 1` during the receive loop). -/
structure CoordInv (tiles : List Tile) (k : Nat) (s : Coord) : Prop where
  next_le : s.next_tile ≤ tiles.length
  sent_eq : s.sentTiles = tiles.take s.next_tile
  outstanding : (s.recvs ++ s.holding).map (fun p => p.2) |>.Perm (tiles.take s.next_tile)
  received_eq : s.tiles_received = s.recvs.length
  all_busy : s.next_tile < tiles.length → s.holding.length = k
  some_busy : s.holding.length ≤ k
  assigned : (s.recvs ++ s.holding).Perm s.assignments

/-- The four tiles of a 3 x 3 image with tile edge 2 (see `generateTiles_three_two`). -/
def exampleTiles : List Tile :=
  [⟨0, 0, 0, 2, 2⟩, ⟨1, 2, 0, 1, 2⟩, ⟨2, 0, 2, 2, 1⟩, ⟨3, 2, 2, 1, 1⟩]

/-! ## Placement of a received tile (`main.cpp`, lines 114-121) -/

/-- Read access `buf[i]` with an `int` index; `none` outside the buffer. -/
def getI (buf : List Nat) (i : Int) : Option Nat :=
  if 0 ≤ i then buf[i.toNat]? else none

/-- The call `std::memcpy(&dst[dOff], &src[sOff], n)`: bytes `dOff .. dOff+n-1` of `dst`
become bytes `sOff .. sOff+n-1` of `src`, all others are kept; `none` when one of the two
ranges leaves its buffer. -/
def memcpy (dst : List Nat) (dOff : Int) (src : List Nat) (sOff n : Int) : Option (List Nat) :=
  if 0 ≤ dOff ∧ 0 ≤ sOff ∧ 0 ≤ n ∧ dOff + n ≤ dst.length ∧ sOff + n ≤ src.length then
    some ((List.range dst.length).map (fun (i : Nat) =>
      if dOff ≤ (i : Int) ∧ (i : Int) < dOff + n then src.getD (sOff + ((i : Int) - dOff)).toNat 0
      else dst.getD i 0))
  else none

/-- Body of the placement loop for one `row` of tile `t`. -/
def placeRow (image_size : Int) (t : Tile) (buf : List Nat) (full_buf : List Nat) (row : Nat) :
    Option (List Nat) :=
  memcpy full_buf (((t.y0 + row) * image_size + t.x0) * 3) buf (row * t.w * 3) (t.w * 3)

/-- The loop `for (int row = 0; row < t.h; ++row)` that copies the payload `buf` of tile
`t` into `full_buf`. -/
def placeTile (image_size : Int) (full_buf : List Nat) (t : Tile) (buf : List Nat) :
    Option (List Nat) :=
  (List.range t.h.toNat).foldlM (placeRow image_size t buf) full_buf

/-! ## Worker result and final framebuffer (`main.cpp`, lines 98-135 and 155-180) -/

/-- 8-bit RGB colour (`utils.hpp`); each channel is a value below 256. -/
structure Color where
  r : Nat
  g : Nat
  b : Nat
deriving DecidableEq, Repr

/-- The worker's seed `static_cast<unsigned int>(tile_id * 10007u) ^
static_cast<unsigned int>(rank + 12345)` in 32-bit unsigned arithmetic. -/
def workerSeed (tile_id : Int) (rank : Nat) : Nat :=
  ((tile_id * 10007) % 4294967296).toNat ^^^ (((rank : Int) + 12345) % 4294967296).toNat

/-- Conversion of the rendered colours to the byte payload (worker, lines 168-175):
`buf[3*i+0..2] = out[i].r, .g, .b` for `i < w*h`; `none` when `out` is too short. -/
def tileBytes (w h : Int) (out : List Color) : Option (List Nat) :=
  if 0 ≤ w * h ∧ w * h ≤ out.length then
    some ((out.take (w * h).toNat).flatMap (fun c => [c.r, c.g, c.b]))
  else none

/-- The payload worker `rank` returns for tile `t`: `renderTile(x0, y0, w, h, seed, out)`
with the worker's seed, converted to bytes. The renderer is a parameter: its result is
a function of the tile rectangle and the seed (the snow samples are drawn from a
generator seeded with `seed + 12345`). -/
def workerResult (renderTile : Int → Int → Int → Int → Nat → List Color) (rank : Nat)
    (t : Tile) : Option (List Nat) :=
  tileBytes t.w t.h (renderTile t.x0 t.y0 t.w t.h (workerSeed t.id rank))

/-- The master's handling of one received result (lines 104-121): the header carries the
identifier of the tile the worker rendered, the payload is the worker's result, and the
placement uses `tiles[tile_id]`. -/
def placeReceived (renderTile : Int → Int → Int → Int → Nat → List Color) (image_size : Int)
    (tiles : List Tile) (full_buf : List Nat) (r : Nat × Tile) : Option (List Nat) :=
  match workerResult renderTile r.1 r.2 with
  | none => none
  | some buf =>
    if 0 ≤ r.2.id then
      match tiles[r.2.id.toNat]? with
      | some t => placeTile image_size full_buf t buf
      | none => none
    else none

/-- The framebuffer when the loop has handled the results `s.recvs` in arrival order,
starting from the zero-initialised `full_buf(image_size * image_size * 3)`. -/
def finalBuffer (renderTile : Int → Int → Int → Int → Nat → List Color) (image_size : Int)
    (tiles : List Tile) (s : Coord) : Option (List Nat) :=
  s.recvs.foldlM (placeReceived renderTile image_size tiles)
    (List.replicate (image_size * image_size * 3).toNat 0)

/-- Byte index `i` of the framebuffer belongs to the rectangle of tile `t`. -/
def InRect (N : Int) (t : Tile) (i : Int) : Prop :=
  ∃ row col c : Int, 0 ≤ row ∧ row < t.h ∧ 0 ≤ col ∧ col < t.w ∧ 0 ≤ c ∧ c < 3 ∧
    i = ((t.y0 + row) * N + t.x0 + col) * 3 + c

/-- The rectangle of tile `t` in the framebuffer `fb` holds the payload `buf`. -/
def RectHolds (N : Int) (fb : List Nat) (t : Tile) (buf : List Nat) : Prop :=
  ∀ row col c : Int, 0 ≤ row → row < t.h → 0 ≤ col → col < t.w → 0 ≤ c → c < 3 →
    ∃ v, getI buf ((row * t.w + col) * 3 + c) = some v ∧
      getI fb (((t.y0 + row) * N + t.x0 + col) * 3 + c) = some v

/-! ## Vectors, colours and primitives (`utils.hpp`, `scene.hpp`) -/

/-- The `Vec3` of `utils.hpp` over a field `K` standing for `double`. -/
structure Vec3 (K : Type) where
  x : K
  y : K
  z : K
deriving DecidableEq, Repr

namespace Vec3

variable {K : Type} [LinearOrderedField K]

instance : Add (Vec3 K) := ⟨fun a b => ⟨a.x + b.x, a.y + b.y, a.z + b.z⟩⟩

instance : Sub (Vec3 K) := ⟨fun a b => ⟨a.x - b.x, a.y - b.y, a.z - b.z⟩⟩

instance : Neg (Vec3 K) := ⟨fun a => ⟨-a.x, -a.y, -a.z⟩⟩

instance : HMul (Vec3 K) K (Vec3 K) := ⟨fun a b => ⟨a.x * b, a.y * b, a.z * b⟩⟩

instance : HDiv (Vec3 K) K (Vec3 K) := ⟨fun a b => ⟨a.x / b, a.y / b, a.z / b⟩⟩

/-- Dot product. -/
def dot (a b : Vec3 K) : K := a.x * b.x + a.y * b.y + a.z * b.z

/-- Cross product. -/
def cross (a b : Vec3 K) : Vec3 K :=
  ⟨a.y * b.z - a.z * b.y, a.z * b.x - a.x * b.z, a.x * b.y - a.y * b.x⟩

/-- `normalize`: division by the Euclidean length; the square root is a parameter. -/
def normalize (sqrt : K → K) (a : Vec3 K) : Vec3 K := a / sqrt (a.dot a)

end Vec3

/-- `Sphere` of `scene.hpp`. -/
structure Sphere (K : Type) where
  center : Vec3 K
  radius : K
  color : Color

/-- `Plane` of `utils.hpp` (the constructor's normalisation has been applied). -/
structure Plane (K : Type) where
  point : Vec3 K
  normal : Vec3 K
  color : Color

/-- `Scene` of `scene.hpp`. -/
structure Scene (K : Type) where
  spheres : List (Sphere K)
  planes : List (Plane K)

section Geometry

variable {K : Type} [LinearOrderedField K]

/-- `RayTracer::intersect_sphere`: the returned `bool` and the output parameter `t`
become an `Option`. -/
def intersect_sphere (sqrt : K → K) (ray_orig ray_dir : Vec3 K) (sphere : Sphere K) : Option K :=
  let oc := ray_orig - sphere.center
  let a := ray_dir.dot ray_dir
  let b := 2 * oc.dot ray_dir
  let c := oc.dot oc - sphere.radius * sphere.radius
  let discriminant := b * b - 4 * a * c
  if discriminant < 0 then none
  else
    let sqrt_disc := sqrt discriminant
    let t0 := (-b - sqrt_disc) / (2 * a)
    let t1 := (-b + sqrt_disc) / (2 * a)
    if t0 > 1e-4 then some t0
    else if t1 > 1e-4 then some t1
    else none

/-- `RayTracer::intersect_plane`. -/
def intersect_plane (ray_orig ray_dir : Vec3 K) (plane : Plane K) : Option K :=
  let denom := plane.normal.dot ray_dir
  if |denom| > 1e-6 then
    let t_temp := (plane.point - ray_orig).dot plane.normal / denom
    if t_temp ≥ 1e-4 then some t_temp else none
  else none

end Geometry


/-! ## Nearest-hit scan and shading (`raytracer.cpp`, lines 286-296 and 331-429) -/

section Shading

variable {K : Type} [LinearOrderedField K] [FloorRing K]

/-- `std::numeric_limits<double>::max()`, the largest finite double
`(2 - 2^-52) * 2^1023`. -/
def DBL_MAX : K := 2 ^ 1024 - 2 ^ 971

/-- State of the nearest-hit scan: `closest_t` and the two pointers `hit_sphere`,
`hit_plane`; a pointer into a scene list is the element's position together with the
element. -/
structure Hit (K : Type) where
  closest_t : K
  hit_sphere : Option (Nat × Sphere K)
  hit_plane : Option (Nat × Plane K)

/-- The loop over `scene->spheres` of the nearest-hit scan, from list position `i`. -/
def scanSpheres (sqrt : K → K) (ray_orig ray_dir : Vec3 K) :
    List (Sphere K) → Nat → Hit K → Hit K
  | [], _, h => h
  | sphere :: rest, i, h =>
    match intersect_sphere sqrt ray_orig ray_dir sphere with
    | some t =>
      if t < h.closest_t then scanSpheres sqrt ray_orig ray_dir rest (i + 1) ⟨t, some (i, sphere), none⟩
      else scanSpheres sqrt ray_orig ray_dir rest (i + 1) h
    | none => scanSpheres sqrt ray_orig ray_dir rest (i + 1) h

/-- The loop over `scene->planes` of the nearest-hit scan, from list position `i`. -/
def scanPlanes (ray_orig ray_dir : Vec3 K) : List (Plane K) → Nat → Hit K → Hit K
  | [], _, h => h
  | plane :: rest, i, h =>
    match intersect_plane ray_orig ray_dir plane with
    | some t =>
      if t < h.closest_t then scanPlanes ray_orig ray_dir rest (i + 1) ⟨t, none, some (i, plane)⟩
      else scanPlanes ray_orig ray_dir rest (i + 1) h
    | none => scanPlanes ray_orig ray_dir rest (i + 1) h

/-- The nearest-hit scan: all spheres first, then all planes, starting from
`closest_t = DBL_MAX` and two null pointers. -/
def nearestHit (sqrt : K → K) (scene : Scene K) (ray_orig ray_dir : Vec3 K) : Hit K :=
  scanPlanes ray_orig ray_dir scene.planes 0
    (scanSpheres sqrt ray_orig ray_dir scene.spheres 0 ⟨DBL_MAX, none, none⟩)

/-- Floor plane detection: the first plane with `normal.y > 0.99` and
`|point.y| < 1e-3`, searched from list position `i`. -/
def findFloor : List (Plane K) → Nat → Option (Nat × Plane K)
  | [], _ => none
  | plane :: rest, i =>
    if plane.normal.y > 0.99 ∧ |plane.point.y| < 1e-3 then some (i, plane)
    else findFloor rest (i + 1)

/-- Conversion `int(v)` of a double: truncation toward zero. -/
def truncInt (v : K) : Int := if 0 ≤ v then ⌊v⌋ else ⌈v⌉

/-- Conversion of an integer to `unsigned char`: reduction modulo 256. -/
def toUChar (n : Int) : Nat := (n % 256).toNat

/-- `Vec3(-1, -1, -1).normalize()`. -/
def sunlight_dir (sqrt : K → K) : Vec3 K := Vec3.normalize sqrt ⟨-1, -1, -1⟩

/-- The ambient term. -/
def ambient : K := 0.3

/-- The test `intersect(...) && t_shadow > 1e-4` on the result of an intersection. -/
def shadowHit (r : Option K) : Bool :=
  match r with
  | some t_shadow => decide (t_shadow > 1e-4)
  | none => false

/-- The test `floor_plane && hit_plane == floor_plane` on two pointers into
`scene->planes`. -/
def isFloor (floor_plane : Option (Nat × Plane K)) (j : Nat) : Bool :=
  match floor_plane with
  | some (fi, _) => decide (fi = j)
  | none => false

/-- Shadow loop over the spheres with its `break`: some sphere other than the one at
position `skip` is hit by the shadow ray at a `t_shadow > 1e-4`. -/
def shadowBySpheres (sqrt : K → K) (shadow_origin shadow_dir : Vec3 K) (skip : Option Nat) :
    List (Sphere K) → Nat → Bool
  | [], _ => false
  | s :: rest, i =>
    if skip ≠ some i ∧ shadowHit (intersect_sphere sqrt shadow_origin shadow_dir s) = true then
      true
    else shadowBySpheres sqrt shadow_origin shadow_dir skip rest (i + 1)

/-- One channel `std::min(255, int(c * brightness))` stored into an `unsigned char`. -/
def shadeChannel (c : Nat) (brightness : K) : Nat :=
  toUChar (min 255 (truncInt ((c : K) * brightness)))

/-- The three channels of the diffuse/ambient formula. -/
def shade (base : Color) (brightness : K) : Color :=
  ⟨shadeChannel base.r brightness, shadeChannel base.g brightness,
    shadeChannel base.b brightness⟩

/-- The sky gradient (lines 422-429): `t = 0.5 * (ray_dir.y + 1)`, each channel is
`(1 - t) * bottom + t * top` converted to `unsigned char`. -/
def skyColor (ray_dir : Vec3 K) : Color :=
  let t : K := 0.5 * (ray_dir.y + 1.0)
  ⟨toUChar (truncInt ((1 - t) * ((255 : Nat) : K) + t * ((135 : Nat) : K))),
    toUChar (truncInt ((1 - t) * ((255 : Nat) : K) + t * ((206 : Nat) : K))),
    toUChar (truncInt ((1 - t) * ((255 : Nat) : K) + t * ((235 : Nat) : K)))⟩

/-- The floor's colour (lines 406-413): white, scaled by 0.6 per channel in shadow. -/
def floorColor (in_shadow : Bool) : Color :=
  if in_shadow then
    ⟨toUChar (truncInt (((255 : Nat) : K) * 0.6)), toUChar (truncInt (((255 : Nat) : K) * 0.6)),
      toUChar (truncInt (((255 : Nat) : K) * 0.6))⟩
  else ⟨255, 255, 255⟩

/-- The colour of a pixel before the snow overlay together with `closest_t`
(lines 331-429), for the ray `ray_orig + t * ray_dir`. -/
def basePixel (sqrt : K → K) (scene : Scene K) (ray_orig ray_dir : Vec3 K) : Color × K :=
  let floor_plane := findFloor scene.planes 0
  let hit := nearestHit sqrt scene ray_orig ray_dir
  let closest_t := hit.closest_t
  let shadow_dir := -sunlight_dir sqrt
  match hit.hit_sphere with
  | some (i, hit_sphere) =>
    let hit_point := ray_orig + ray_dir * closest_t
    let normal := Vec3.normalize sqrt (hit_point - hit_sphere.center)
    let shadow_origin := hit_point + normal * (1e-4 : K)
    let in_shadow :=
      shadowBySpheres sqrt shadow_origin shadow_dir (some i) scene.spheres 0 ||
        (match floor_plane with
          | some (_, fp) => shadowHit (intersect_plane shadow_origin shadow_dir fp)
          | none => false)
    let diffuse : K := if in_shadow then 0 else max 0 (normal.dot (-sunlight_dir sqrt))
    let brightness : K := ambient + (1 - ambient) * diffuse
    (shade hit_sphere.color brightness, closest_t)
  | none =>
    match hit.hit_plane with
    | some (j, hit_plane) =>
      let hit_point := ray_orig + ray_dir * closest_t
      let normal := hit_plane.normal
      let shadow_origin := hit_point + normal * (1e-4 : K)
      let in_shadow := shadowBySpheres sqrt shadow_origin shadow_dir none scene.spheres 0
      if isFloor floor_plane j = true then
        (floorColor (K := K) in_shadow, closest_t)
      else
        let diffuse : K := if in_shadow then 0 else max 0 (normal.dot (-sunlight_dir sqrt))
        let brightness : K := ambient + (1 - ambient) * diffuse
        (shade hit_plane.color brightness, closest_t)
    | none => (skyColor ray_dir, closest_t)

end Shading

section GeometrySpec

variable {K : Type} [LinearOrderedField K]

/-- Coefficient `a = d.d` of the ray/sphere quadratic. -/
def quadA (ray_dir : Vec3 K) : K := ray_dir.dot ray_dir

/-- Coefficient `b = 2 (o - c).d` of the ray/sphere quadratic. -/
def quadB (ray_orig ray_dir : Vec3 K) (sphere : Sphere K) : K :=
  2 * (ray_orig - sphere.center).dot ray_dir

/-- Coefficient `c = |o - c|^2 - r^2` of the ray/sphere quadratic. -/
def quadC (ray_orig : Vec3 K) (sphere : Sphere K) : K :=
  (ray_orig - sphere.center).dot (ray_orig - sphere.center) - sphere.radius * sphere.radius

/-- The discriminant `b^2 - 4ac`. -/
def quadDisc (ray_orig ray_dir : Vec3 K) (sphere : Sphere K) : K :=
  quadB ray_orig ray_dir sphere * quadB ray_orig ray_dir sphere -
    4 * quadA ray_dir * quadC ray_orig sphere

end GeometrySpec

/-! ## Snow overlay, camera rays and the render loops (`raytracer.cpp`, lines 64-454) -/

section Render

variable {K : Type} [LinearOrderedField K] [FloorRing K]

/-- Body of the snowflake loop for one sample (lines 435-448): `true` when the sample is
not skipped by the `continue` and its squared distance to the ray is below
`snowflake_radius * snowflake_radius`. -/
def snowHit (ray_orig ray_dir : Vec3 K) (closest_t : K) (flake_pos : Vec3 K) : Bool :=
  let to_flake := flake_pos - ray_orig
  let proj := to_flake.dot ray_dir
  if proj < 0 ∨ proj > 8.0 ∨ proj > closest_t then false
  else
    let closest_point_on_ray := ray_orig + ray_dir * proj
    let dx := closest_point_on_ray.x - flake_pos.x
    let dy := closest_point_on_ray.y - flake_pos.y
    let dz := closest_point_on_ray.z - flake_pos.z
    let dist_sq := dx * dx + dy * dy + dz * dz
    decide (dist_sq < 0.008 * 0.008)

/-- The snowflake loop with its `break` (lines 434-449). -/
def snowOverlay (ray_orig ray_dir : Vec3 K) (closest_t : K) (pixel_color : Color) :
    List (Vec3 K) → Color
  | [] => pixel_color
  | flake_pos :: rest =>
    if snowHit ray_orig ray_dir closest_t flake_pos = true then ⟨255, 255, 255⟩
    else snowOverlay ray_orig ray_dir closest_t pixel_color rest

/-- `camera_pos`. -/
def camera_pos : Vec3 K := ⟨0, 2, 5⟩

/-- `camera_dir = (camera_lookat - camera_pos).normalize()`. -/
def camera_dir (sqrt : K → K) : Vec3 K :=
  Vec3.normalize sqrt ((⟨0, 1, 0⟩ : Vec3 K) - camera_pos)

/-- `right = camera_dir.cross(up).normalize()`. -/
def camera_right (sqrt : K → K) : Vec3 K :=
  Vec3.normalize sqrt ((camera_dir sqrt).cross ⟨0, 1, 0⟩)

/-- `cam_up = right.cross(camera_dir).normalize()`. -/
def cam_up (sqrt : K → K) : Vec3 K :=
  Vec3.normalize sqrt ((camera_right sqrt).cross (camera_dir sqrt))

/-- `scale = tan((fov * 0.5) * M_PI / 180.0)` with `fov = 60.0`; the tangent function
and the constant `M_PI` are parameters. -/
def fovScale (tan : K → K) (pi : K) : K := tan ((60.0 * 0.5) * pi / 180.0)

/-- Ray generation for the image pixel `(x, y)` (lines 323-328). -/
def rayDir (sqrt tan : K → K) (pi : K) (width height x y : Int) : Vec3 K :=
  let aspect_ratio : K := (width : K) / (height : K)
  let scale : K := fovScale tan pi
  let ndc_x : K := ((x : K) + 0.5) / (width : K)
  let ndc_y : K := ((y : K) + 0.5) / (height : K)
  let px : K := (2 * ndc_x - 1) * aspect_ratio * scale
  let py : K := (1 - 2 * ndc_y) * scale
  Vec3.normalize sqrt (camera_dir sqrt + camera_right sqrt * px + cam_up sqrt * py)

/-- The body of the pixel loops (lines 323-449): ray generation, base colour, snow
overlay. -/
def pixelColor (sqrt tan : K → K) (pi : K) (width height : Int) (scene : Scene K)
    (snowflakes : List (Vec3 K)) (x y : Int) : Color :=
  let ray_dir := rayDir sqrt tan pi width height x y
  let ray_orig : Vec3 K := camera_pos
  let base := basePixel sqrt scene ray_orig ray_dir
  snowOverlay ray_orig ray_dir base.2 base.1 snowflakes

/-- The value a `std::mt19937` is seeded with, as a 32-bit quantity: `seed + 12345`. -/
def rngSeed (seed : Int) : Nat := ((seed + 12345) % 4294967296).toNat

/-- `out.resize(n)`: keep the first `n` entries, pad with `Color()`. -/
def resize (out : List Color) (n : Nat) : List Color :=
  out.take n ++ List.replicate (n - out.length) ⟨0, 0, 0⟩

/-- The inner loop `for (int tx = 0; tx < w; ++tx)` of `renderTile`, storing into
`out[ty * w + tx]`. -/
def renderTileRow (sqrt tan : K → K) (pi : K) (width height : Int) (scene : Scene K)
    (snowflakes : List (Vec3 K)) (x0 y0 w : Int) (out : List Color) (ty : Nat) : List Color :=
  (List.range w.toNat).foldl
    (fun (o : List Color) (tx : Nat) => o.set (((ty : Int) * w + (tx : Int)).toNat)
      (pixelColor sqrt tan pi width height scene snowflakes (x0 + tx) (y0 + ty))) out

/-- `RayTracer::renderTile` (lines 268-454). The scene pointer is an `Option`; `snow`
maps the 32-bit value the generator is seeded with to the samples it produces (the
standard library's generator and distributions are not part of the program). `none` is
the failure of `out.resize` on a negative size. -/
def renderTile (sqrt tan : K → K) (pi : K) (width height : Int) (scene : Option (Scene K))
    (snow : Nat → List (Vec3 K)) (x0 y0 w h : Int) (seed : Nat) (out : List Color) :
    Option (List Color) :=
  match scene with
  | none => some out
  | some sc =>
    if w * h < 0 then none
    else
      some ((List.range h.toNat).foldl
        (renderTileRow sqrt tan pi width height sc (snow (rngSeed seed)) x0 y0 w)
        (resize out (w * h).toNat))

/-- The inner loop `for (int x = 0; x < width; ++x)` of `render`, storing into
`out_pixels[(y - start_row) * width + x]` for `y = start_row + k`. -/
def renderRow (sqrt tan : K → K) (pi : K) (width height : Int) (scene : Scene K)
    (snowflakes : List (Vec3 K)) (start_row : Int) (out : List Color) (k : Nat) : List Color :=
  (List.range width.toNat).foldl
    (fun (o : List Color) (x : Nat) =>
      o.set ((((start_row + (k : Int)) - start_row) * width + (x : Int)).toNat)
        (pixelColor sqrt tan pi width height scene snowflakes x (start_row + k))) out

/-- `RayTracer::render` (lines 64-266) for the band of rows of `rank` among `size`
ranks. `none` is a division by zero or the failure of `resize` on a negative size. -/
def render (sqrt tan : K → K) (pi : K) (width height : Int) (scene : Option (Scene K))
    (snow : Nat → List (Vec3 K)) (rank size : Int) (out_pixels : List Color) :
    Option (List Color) :=
  match scene with
  | none => some out_pixels
  | some sc =>
    if size = 0 then none
    else
      let rows_per_rank := Int.tdiv height size
      let start_row := rank * rows_per_rank
      let end_row := if rank = size - 1 then height else start_row + rows_per_rank
      if (end_row - start_row) * width < 0 then none
      else
        some ((List.range (end_row - start_row).toNat).foldl
          (renderRow sqrt tan pi width height sc (snow (rngSeed rank)) start_row)
          (resize out_pixels ((end_row - start_row) * width).toNat))

/-- The unit normal of sphere `s` at the point `o + d * t`. -/
def hitNormal (sqrt : K → K) (o d : Vec3 K) (t : K) (s : Sphere K) : Vec3 K :=
  Vec3.normalize sqrt (o + d * t - s.center)

/-- The origin of the shadow ray: the hit point offset by `1e-4` along the normal. -/
def shadowOrigin (hit_point normal : Vec3 K) : Vec3 K := hit_point + normal * (1e-4 : K)

/-- The shadow test of a sphere hit in the words of the specification: the shadow ray
from `shadow_origin` along `shadow_dir` hits a sphere other than the one at position `i`,
or hits the designated floor plane beyond the epsilon `1e-4`. -/
def SphereShadowed (sqrt : K → K) (scene : Scene K) (i : Nat) (shadow_origin shadow_dir : Vec3 K) :
    Prop :=
  (∃ k s, scene.spheres[k]? = some s ∧ k ≠ i ∧
      (intersect_sphere sqrt shadow_origin shadow_dir s).isSome = true) ∨
    (∃ j fp t, findFloor scene.planes 0 = some (j, fp) ∧
      intersect_plane shadow_origin shadow_dir fp = some t ∧ t > 1e-4)

end Render

/-! ## Stop messages (`main.cpp`, lines 89-94 and 127-132) -/

/-- The messages the master has sent to worker `w`, oldest first. -/
def Coord.msgsTo (s : Coord) (w : Nat) : List Msg :=
  (s.sends.filter (fun p => p.1 == w)).map (fun p => p.2)

/-- Invariant about the "done" messages for `n` tiles and workers `1..k`; `pending` is a
worker that is about to be sent its next message (it has just reported, or it is the
next one of the initial dispatch). -/
structure StopInv (n k : Nat) (s : Coord) (pending : Option Nat) : Prop where
  nodup : (s.holding.map Prod.fst).Nodup
  range : ∀ w ∈ s.holding.map Prod.fst, 1 ≤ w ∧ w ≤ k
  busy : ∀ w ∈ s.holding.map Prod.fst, Msg.done ∉ s.msgsTo w
  idle : ∀ w, w ∉ s.holding.map Prod.fst → 1 ≤ w → w ≤ k → pending ≠ some w →
    ∃ init, s.msgsTo w = init ++ [Msg.done] ∧ Msg.done ∉ init
  beyond : ∀ w, n < w → w ≤ k → pending ≠ some w → s.msgsTo w = [Msg.done]
  fresh : ∀ w, (w = 0 ∨ k < w) → s.msgsTo w = []
  pend : ∀ w, pending = some w →
    1 ≤ w ∧ w ≤ k ∧ w ∉ s.holding.map Prod.fst ∧ Msg.done ∉ s.msgsTo w ∧
      (n < w → s.msgsTo w = [] ∧ ¬ s.next_tile < n)

/-! ## Row bands of the whole-image path (`raytracer.cpp`, lines 70-72) and the gather
layout (`exercise5/original_implementation/main.cpp`, lines 67-77) -/

/-- `int rows_per_rank = height / size;` (division truncating toward zero). -/
def rows_per_rank (height size : Int) : Int := Int.tdiv height size

/-- `int start_row = rank * rows_per_rank;` -/
def start_row (height rank size : Int) : Int := rank * rows_per_rank height size

/-- `int end_row = (rank == size - 1) ? height : start_row + rows_per_rank;` -/
def end_row (height rank size : Int) : Int :=
  if rank = size - 1 then height else start_row height rank size + rows_per_rank height size

/-- The value a 32-bit `int` holds after an arithmetic operation whose exact result is
`x`: reduction into `[-2^31, 2^31)` (two's complement wrap-around, which is what the
compiled program computes; the language leaves signed overflow undefined). -/
def wrapInt (x : Int) : Int := (x + 2147483648) % 4294967296 - 2147483648

/-- One iteration of `for (int i = 0; i < size; ++i)` in `main`: the two assignments
`recvcounts[i] = rows * image_size * 3` and
`displs[i] = (i == 0) ? 0 : displs[i-1] + recvcounts[i-1]` on the state
`(recvcounts, displs)`, every `int` operation reduced by `wrapInt`; `none` when an index
leaves its vector. -/
def gatherStep (image_size size rows_per_rank : Int) (st : List Int × List Int) (i : Nat) :
    Option (List Int × List Int) :=
  let rows : Int :=
    if (i : Int) = wrapInt (size - 1) then
      wrapInt (image_size - wrapInt (rows_per_rank * wrapInt (size - 1)))
    else rows_per_rank
  if i < st.1.length ∧ i < st.2.length then
    let recvcounts := st.1.set i (wrapInt (wrapInt (rows * image_size) * 3))
    if i = 0 then some (recvcounts, st.2.set i 0)
    else
      match st.2[i - 1]?, recvcounts[i - 1]? with
      | some d, some c => some (recvcounts, st.2.set i (wrapInt (d + c)))
      | _, _ => none
  else none

/-- The vectors `recvcounts` and `displs` handed to `MPI_Gatherv` (lines 67-77): both
are created with `size` zero entries and filled by the loop. `none` stands for the
division by zero and for a negative vector size. -/
def gatherLayout (image_size size : Int) : Option (List Int × List Int) :=
  if size ≤ 0 then none
  else
    let rows_per_rank := Int.tdiv image_size size
    (List.range size.toNat).foldlM (gatherStep image_size size rows_per_rank)
      (List.replicate size.toNat 0, List.replicate size.toNat 0)

/-! ## The worker's renderer (`main.cpp`, lines 162-164) -/

section WorkerRender

variable {K : Type} [LinearOrderedField K] [FloorRing K]

/-- The worker's call `raytracer.renderTile(x0, y0, w, h, seed, out)` on its fresh, empty
vector `out` (lines 162-164), for the ray tracer of the `image_size x image_size` image
with `scene` set; the result is the vector `out` after the call (left empty when the
call fails). -/
def workerRender (sqrt tan : K → K) (pi : K) (image_size : Int) (scene : Scene K)
    (snow : Nat → List (Vec3 K)) (x0 y0 w h : Int) (seed : Nat) : List Color :=
  match renderTile sqrt tan pi image_size image_size (some scene) snow x0 y0 w h seed [] with
  | some out => out
  | none => []

/-- A sample generator for the examples: seeded with 44622 it yields one flake, at
distance 1 from the camera on the ray of pixel `(0, 32)` of the 64 x 64 image; seeded
with any other value it yields no flake. -/
def exampleSnow (sqrt tan : K → K) (pi : K) (s : Nat) : List (Vec3 K) :=
  if s = 44622 then [camera_pos + rayDir sqrt tan pi 64 64 0 32 * (1 : K)] else []

end WorkerRender

/-- The four tiles of a 64 x 64 image with tile edge 32 (see `generateTiles_sixtyfour`). -/
def tiles64 : List Tile :=
  [⟨0, 0, 0, 32, 32⟩, ⟨1, 32, 0, 32, 32⟩, ⟨2, 0, 32, 32, 32⟩, ⟨3, 32, 32, 32, 32⟩]

/-! ## Tile generation: auxiliary facts -/

theorem tileRow_spec (N T y : Int) (hT : 0 < T) :
    ∀ (fuel : Nat) (x id : Int), 0 ≤ x → (N - x).toNat ≤ fuel →
      ∃ row id', tileRow N T y fuel x id = some (row, id') ∧
        (∀ t ∈ row, t.y0 = y ∧ t.h = min T (N - y) ∧ x ≤ t.x0 ∧ 0 < t.w ∧ t.x0 + t.w ≤ N) ∧
        (∀ px, x ≤ px → px < N →
          row.countP (fun t => decide (t.x0 ≤ px ∧ px < t.x0 + t.w)) = 1) := by
  intro fuel
  induction fuel with
  | zero =>
    intro x id hx hf
    have hxN : ¬ x < N := by omega
    refine ⟨[], id, by simp [tileRow, hxN], by simp, ?_⟩
    intro px h1 h2
    omega
  | succ f ih =>
    intro x id hx hf
    by_cases hxN : x < N
    · obtain ⟨rest, id', hrest, hmem, hcnt⟩ := ih (x + T) (id + 1) (by omega) (by omega)
      refine ⟨⟨id, x, y, min T (N - x), min T (N - y)⟩ :: rest, id',
        by simp [tileRow, hxN, hrest], ?_, ?_⟩
      · intro t ht
        rcases List.mem_cons.mp ht with rfl | ht
        · simp only
          refine ⟨trivial, trivial, le_refl _, ?_, ?_⟩ <;> omega
        · obtain ⟨a, b, c, d, e⟩ := hmem t ht
          exact ⟨a, b, by omega, d, e⟩
      · intro px h1 h2
        rw [List.countP_cons]
        by_cases hpx : px < x + T
        · have hzero : rest.countP (fun t => decide (t.x0 ≤ px ∧ px < t.x0 + t.w)) = 0 := by
            rw [List.countP_eq_zero]
            intro t ht
            have := (hmem t ht).2.2.1
            simp only [decide_eq_true_eq, not_and, not_lt]
            intro h
            omega
          rw [hzero]
          have : (x ≤ px ∧ px < x + min T (N - x)) := by
            constructor <;> omega
          simp [this]
        · have hone := hcnt px (by omega) h2
          rw [hone]
          have : ¬ (x ≤ px ∧ px < x + min T (N - x)) := by
            intro h
            omega
          simp [this]
    · refine ⟨[], id, by simp [tileRow, hxN], by simp, ?_⟩
      intro px h1 h2
      omega

theorem tileRows_spec (N T : Int) (hT : 0 < T) (rowFuel : Nat) (hrow : N.toNat ≤ rowFuel) :
    ∀ (fuel : Nat) (y id : Int), 0 ≤ y → (N - y).toNat ≤ fuel →
      ∃ tiles, tileRows N T rowFuel fuel y id = some tiles ∧
        (∀ t ∈ tiles, y ≤ t.y0 ∧ 0 < t.h ∧ t.y0 + t.h ≤ N ∧ 0 ≤ t.x0 ∧ 0 < t.w ∧
          t.x0 + t.w ≤ N) ∧
        (∀ px py, 0 ≤ px → px < N → y ≤ py → py < N →
          tiles.countP (fun t => t.covers px py) = 1) := by
  intro fuel
  induction fuel with
  | zero =>
    intro y id hy hf
    have hyN : ¬ y < N := by omega
    refine ⟨[], by simp [tileRows, hyN], by simp, ?_⟩
    intro px py _ _ h1 h2
    omega
  | succ f ih =>
    intro y id hy hf
    by_cases hyN : y < N
    · obtain ⟨row, id', hr, hrmem, hrcnt⟩ :=
        tileRow_spec N T y hT rowFuel 0 id (le_refl _) (by simpa using hrow)
      obtain ⟨rest, hrest, hmem, hcnt⟩ := ih (y + T) id' (by omega) (by omega)
      refine ⟨row ++ rest, by simp [tileRows, hyN, hr, hrest], ?_, ?_⟩
      · intro t ht
        rcases List.mem_append.mp ht with ht | ht
        · obtain ⟨a, b, c, d, e⟩ := hrmem t ht
          refine ⟨by omega, by omega, by omega, c, d, e⟩
        · obtain ⟨a, b, c, d, e⟩ := hmem t ht
          exact ⟨by omega, b, c, d, e⟩
      · intro px py hx0 hxN hy1 hy2
        rw [List.countP_append]
        by_cases hpy : py < y + T
        · have hzero : rest.countP (fun t => t.covers px py) = 0 := by
            rw [List.countP_eq_zero]
            intro t ht
            have := (hmem t ht).1
            simp only [Tile.covers, decide_eq_true_eq, not_and, not_lt]
            intro _ _ _
            omega
          have hsame : row.countP (fun t => t.covers px py) =
              row.countP (fun t => decide (t.x0 ≤ px ∧ px < t.x0 + t.w)) := by
            apply List.countP_congr
            intro t ht
            obtain ⟨a, b, _⟩ := hrmem t ht
            simp only [Tile.covers, decide_eq_true_eq]
            constructor
            · intro h
              exact ⟨h.1, h.2.1⟩
            · intro h
              refine ⟨h.1, h.2, ?_, ?_⟩ <;> omega
          rw [hzero, hsame, hrcnt px hx0 hxN]
        · have hone := hcnt px py hx0 hxN (by omega) hy2
          have hzero : row.countP (fun t => t.covers px py) = 0 := by
            rw [List.countP_eq_zero]
            intro t ht
            obtain ⟨a, b, _⟩ := hrmem t ht
            simp only [Tile.covers, decide_eq_true_eq, not_and, not_lt]
            intro _ _ _
            omega
          rw [hzero, hone]
    · refine ⟨[], by simp [tileRows, hyN], by simp, ?_⟩
      intro px py _ _ h1 h2
      omega


theorem tileRow_ids (N T y : Int) :
    ∀ (fuel : Nat) (x id : Int) (row : List Tile) (id' : Int),
      tileRow N T y fuel x id = some (row, id') →
      id' = id + row.length ∧ ∀ (i : Nat) (h : i < row.length), (row[i]).id = id + i := by
  intro fuel
  induction fuel with
  | zero =>
    intro x id row id' h
    unfold tileRow at h
    split at h
    · exact absurd h (by simp)
    · simp only [Option.some.injEq, Prod.mk.injEq] at h
      obtain ⟨rfl, rfl⟩ := h
      exact ⟨by simp, fun i h => absurd h (by simp)⟩
  | succ f ih =>
    intro x id row id' h
    unfold tileRow at h
    split at h
    · split at h
      · exact absurd h (by simp)
      · rename_i rest id1 hrest
        simp only [Option.some.injEq, Prod.mk.injEq] at h
        obtain ⟨rfl, rfl⟩ := h
        obtain ⟨h1, h2⟩ := ih _ _ _ _ hrest
        refine ⟨by rw [h1, List.length_cons]; push_cast; ring, ?_⟩
        intro i hi
        cases i with
        | zero => simp
        | succ j =>
          simp only [List.getElem_cons_succ]
          rw [h2 j (by simpa using hi)]
          push_cast
          ring
    · simp only [Option.some.injEq, Prod.mk.injEq] at h
      obtain ⟨rfl, rfl⟩ := h
      exact ⟨by simp, fun i h => absurd h (by simp)⟩

theorem tileRows_ids (N T : Int) (rowFuel : Nat) :
    ∀ (fuel : Nat) (y id : Int) (tiles : List Tile),
      tileRows N T rowFuel fuel y id = some tiles →
      ∀ (i : Nat) (h : i < tiles.length), (tiles[i]).id = id + i := by
  intro fuel
  induction fuel with
  | zero =>
    intro y id tiles h
    unfold tileRows at h
    split at h
    · exact absurd h (by simp)
    · simp only [Option.some.injEq] at h
      subst h
      exact fun i h => absurd h (by simp)
  | succ f ih =>
    intro y id tiles h
    unfold tileRows at h
    split at h
    · split at h
      · exact absurd h (by simp)
      · rename_i row id1 hrow
        split at h
        · exact absurd h (by simp)
        · rename_i rest hrest
          simp only [Option.some.injEq] at h
          subst h
          obtain ⟨h1, h2⟩ := tileRow_ids N T y _ _ _ _ _ hrow
          have h3 := ih _ _ _ hrest
          intro i hi
          by_cases hlt : i < row.length
          · rw [List.getElem_append_left hlt]
            exact h2 i hlt
          · rw [List.getElem_append_right (by omega)]
            rw [h3, h1]
            have : ((i - row.length : Nat) : Int) = (i : Int) - row.length := by omega
            rw [this]
            ring
    · simp only [Option.some.injEq] at h
      subst h
      exact fun i h => absurd h (by simp)

theorem generateTiles_ids (fuel : Nat) (N T : Int) (tiles : List Tile)
    (h : generateTiles fuel N T = some tiles) : IdsArePositions tiles := by
  intro i hi
  have := tileRows_ids N T fuel fuel 0 0 tiles h i hi
  simpa using this

/-- The four tiles of a 3 x 3 image with tile edge 2, as the loops push them. -/
theorem generateTiles_three_two : generateTiles 3 3 2 = some exampleTiles := by decide

/-! ## Placement: auxiliary facts -/

theorem getI_lt {buf : List Nat} {i : Int} (h0 : 0 ≤ i) (h1 : i < buf.length) :
    ∃ v, getI buf i = some v := by
  have h : i.toNat < buf.length := by omega
  exact ⟨buf[i.toNat], by simp [getI, h0, List.getElem?_eq_getElem h]⟩

theorem getI_none {buf : List Nat} {i : Int} (h : i < 0 ∨ (buf.length : Int) ≤ i) :
    getI buf i = none := by
  unfold getI
  split
  · rw [List.getElem?_eq_none]
    omega
  · rfl

theorem memcpy_spec (dst : List Nat) (dOff : Int) (src : List Nat) (sOff n : Int)
    (h0 : 0 ≤ dOff) (h1 : 0 ≤ sOff) (h2 : 0 ≤ n) (h3 : dOff + n ≤ dst.length)
    (h4 : sOff + n ≤ src.length) :
    ∃ r, memcpy dst dOff src sOff n = some r ∧ r.length = dst.length ∧
      ∀ i : Int, getI r i =
        if dOff ≤ i ∧ i < dOff + n then getI src (sOff + (i - dOff)) else getI dst i := by
  refine ⟨_, by rw [memcpy, if_pos ⟨h0, h1, h2, h3, h4⟩], by simp, ?_⟩
  intro i
  by_cases hi : 0 ≤ i ∧ i < dst.length
  · obtain ⟨hi0, hi1⟩ := hi
    have hlt : i.toNat < dst.length := by omega
    have hcast : ((i.toNat : Nat) : Int) = i := Int.toNat_of_nonneg hi0
    simp only [getI, hi0, if_true, List.getElem?_map, List.getElem?_range hlt, Option.map_some',
      hcast]
    split
    · rename_i hin
      have hs : (sOff + (i - dOff)).toNat < src.length := by omega
      have hs0 : 0 ≤ sOff + (i - dOff) := by omega
      simp [hs0, List.getD_eq_getElem?_getD, List.getElem?_eq_getElem hs]
    · simp [List.getD_eq_getElem?_getD, List.getElem?_eq_getElem hlt]
  · have hnone : ∀ l : List Nat, l.length = dst.length → getI l i = none := by
      intro l hl
      apply getI_none
      rw [hl]
      omega
    rw [hnone _ (by simp), hnone dst rfl]
    have : ¬ (dOff ≤ i ∧ i < dOff + n) := by
      intro h
      omega
    rw [if_neg this]

theorem placeRows_spec (N : Int) (full_buf : List Nat) (t : Tile) (buf : List Nat)
    (hin : t.inside N) (hbuf : (buf.length : Int) = t.w * t.h * 3)
    (hfull : (full_buf.length : Int) = N * N * 3) :
    ∀ k : Nat, (k : Int) ≤ t.h →
      ∃ fb, (List.range k).foldlM (placeRow N t buf) full_buf = some fb ∧
        fb.length = full_buf.length ∧
        (∀ (row : Nat) (j : Int), row < k → 0 ≤ j → j < t.w * 3 →
          getI fb (((t.y0 + row) * N + t.x0) * 3 + j) = getI buf (row * t.w * 3 + j)) ∧
        (∀ i : Int,
          (∀ row : Nat, row < k →
            ¬ (((t.y0 + row) * N + t.x0) * 3 ≤ i ∧ i < ((t.y0 + row) * N + t.x0) * 3 + t.w * 3)) →
          getI fb i = getI full_buf i) := by
  obtain ⟨hx0, hy0, hw, hh, hxw, hyh⟩ := hin
  have hN : 0 ≤ N := by omega
  intro k
  induction k with
  | zero =>
    intro _
    exact ⟨full_buf, rfl, rfl, fun row j h => absurd h (by simp), fun i _ => rfl⟩
  | succ k ih =>
    intro hk
    push_cast at hk
    obtain ⟨fb, hfb, hlen, hrows, hrest⟩ := ih (by omega)
    have hyk : 0 ≤ t.y0 + k := by omega
    have hykN : t.y0 + k + 1 ≤ N := by omega
    have e0 : 0 ≤ (t.y0 + k) * N := mul_nonneg hyk hN
    have e1 : (t.y0 + k) * N + N ≤ N * N := by nlinarith
    have e2 : (k : Int) * t.w + t.w ≤ t.w * t.h := by nlinarith
    have e3 : 0 ≤ (k : Int) * t.w := mul_nonneg (by omega) hw
    obtain ⟨r, hr, hrlen, hrget⟩ := memcpy_spec fb (((t.y0 + k) * N + t.x0) * 3) buf
      (k * t.w * 3) (t.w * 3) (by omega) (by omega) (by omega)
      (by rw [hlen, hfull]; omega) (by rw [hbuf]; omega)
    refine ⟨r, ?_, by rw [hrlen, hlen], ?_, ?_⟩
    · rw [List.range_succ, List.foldlM_append, hfb]
      simpa [placeRow] using hr
    · intro row j hrow hj0 hj1
      rw [hrget]
      by_cases hrk : row = k
      · subst hrk
        rw [if_pos (by constructor <;> omega)]
        congr 1
        ring
      · have hlt : row < k := by omega
        have hle : (row : Int) + 1 ≤ k := by omega
        have e4 : (t.y0 + row) * N + N ≤ (t.y0 + k) * N := by nlinarith
        rw [if_neg (by intro h; omega)]
        exact hrows row j hlt hj0 hj1
    · intro i hi
      rw [hrget, if_neg (hi k (Nat.lt_succ_self k))]
      exact hrest i (fun row hrow => hi row (Nat.lt_succ_of_lt hrow))

theorem placeTile_spec (N : Int) (full_buf : List Nat) (t : Tile) (buf : List Nat)
    (hin : t.inside N) (hbuf : (buf.length : Int) = t.w * t.h * 3)
    (hfull : (full_buf.length : Int) = N * N * 3) :
    ∃ fb, placeTile N full_buf t buf = some fb ∧ fb.length = full_buf.length ∧
      (∀ row col c : Int, 0 ≤ row → row < t.h → 0 ≤ col → col < t.w → 0 ≤ c → c < 3 →
        0 ≤ ((t.y0 + row) * N + t.x0 + col) * 3 + c ∧
        ((t.y0 + row) * N + t.x0 + col) * 3 + c < 3 * N * N ∧
        ∃ v, getI buf ((row * t.w + col) * 3 + c) = some v ∧
          getI fb (((t.y0 + row) * N + t.x0 + col) * 3 + c) = some v) ∧
      (∀ i : Int,
        (¬ ∃ row col c : Int, 0 ≤ row ∧ row < t.h ∧ 0 ≤ col ∧ col < t.w ∧ 0 ≤ c ∧ c < 3 ∧
          i = ((t.y0 + row) * N + t.x0 + col) * 3 + c) →
        getI fb i = getI full_buf i) := by
  obtain ⟨fb, hfb, hlen, hrows, hrest⟩ :=
    placeRows_spec N full_buf t buf hin hbuf hfull t.h.toNat (by have := hin.2.2.2.1; omega)
  obtain ⟨hx0, hy0, hw, hh, hxw, hyh⟩ := hin
  have hN : 0 ≤ N := by omega
  refine ⟨fb, hfb, hlen, ?_, ?_⟩
  · intro row col c hr0 hr1 hc0 hc1 hc hc3
    have e0 : 0 ≤ (t.y0 + row) * N := mul_nonneg (by omega) hN
    have e1 : (t.y0 + row) * N + N ≤ N * N := by nlinarith
    have e2 : row * t.w + t.w ≤ t.w * t.h := by nlinarith
    have e3 : 0 ≤ row * t.w := mul_nonneg hr0 hw
    refine ⟨by omega, by nlinarith, ?_⟩
    obtain ⟨v, hv⟩ := @getI_lt buf ((row * t.w + col) * 3 + c) (by omega)
      (by rw [hbuf]; omega)
    refine ⟨v, hv, ?_⟩
    have h := hrows row.toNat (col * 3 + c) (by omega) (by omega) (by omega)
    rw [Int.toNat_of_nonneg hr0] at h
    have i1 : ((t.y0 + row) * N + t.x0 + col) * 3 + c =
        ((t.y0 + row) * N + t.x0) * 3 + (col * 3 + c) := by ring
    have i2 : (row * t.w + col) * 3 + c = row * t.w * 3 + (col * 3 + c) := by ring
    rw [i1, h, ← i2]
    exact hv
  · intro i hi
    apply hrest
    intro row hrow hrange
    apply hi
    refine ⟨row, (i - ((t.y0 + row) * N + t.x0) * 3) / 3,
      (i - ((t.y0 + row) * N + t.x0) * 3) % 3, by omega, by omega, ?_, ?_, ?_, ?_, ?_⟩
    all_goals generalize (t.y0 + (row : Int)) * N + t.x0 = R at hrange ⊢
    all_goals omega

/-! ## Coordinator protocol: invariant -/

theorem take_succ_getElem {α : Type} (l : List α) (i : Nat) (h : i < l.length) :
    l.take (i + 1) = l.take i ++ [l[i]] := by
  rw [List.take_succ, List.getElem?_eq_getElem h]
  rfl

theorem cons_erase_perm {α : Type} [BEq α] [LawfulBEq α] {a : α} {l : List α} (h : a ∈ l) :
    ([a] ++ l.erase a).Perm l := by
  obtain ⟨l₁, l₂, _, h₂, h₃⟩ := List.exists_erase_eq h
  rw [h₃, h₂, List.singleton_append]
  exact List.perm_middle.symm

theorem sentTiles_work (s : Coord) (w : Nat) (t : Tile) :
    Coord.sentTiles { s with sends := s.sends ++ [(w, Msg.work t)] } = s.sentTiles ++ [t] := by
  simp [Coord.sentTiles, List.filterMap_append, Msg.tile?]

theorem sentTiles_done (s : Coord) (w : Nat) :
    Coord.sentTiles { s with sends := s.sends ++ [(w, Msg.done)] } = s.sentTiles := by
  simp [Coord.sentTiles, List.filterMap_append, Msg.tile?]

theorem dispatch_inv (tiles : List Tile) (k : Nat) (s : Coord) (w : Nat)
    (inv : CoordInv tiles k s) : CoordInv tiles (k + 1) (dispatch tiles s w) := by
  unfold dispatch
  split
  · rename_i h
    refine ⟨?_, ?_, ?_, ?_, ?_, ?_, ?_⟩
    · show s.next_tile + 1 ≤ tiles.length
      omega
    · show Coord.sentTiles _ = tiles.take (s.next_tile + 1)
      rw [take_succ_getElem tiles s.next_tile h, ← inv.sent_eq]
      simp [Coord.sentTiles, List.filterMap_append, Msg.tile?]
    · show List.Perm (List.map (fun p => p.2) (s.recvs ++ (s.holding ++ [(w, tiles[s.next_tile])])))
        (tiles.take (s.next_tile + 1))
      rw [take_succ_getElem tiles s.next_tile h, ← List.append_assoc, List.map_append]
      exact List.Perm.append_right _ inv.outstanding
    · exact inv.received_eq
    · intro _
      show (s.holding ++ [(w, tiles[s.next_tile])]).length = k + 1
      simp [inv.all_busy h]
    · show (s.holding ++ [(w, tiles[s.next_tile])]).length ≤ k + 1
      simp [inv.some_busy]
    · show List.Perm (s.recvs ++ (s.holding ++ [(w, tiles[s.next_tile])]))
        (Coord.assignments { s with sends := s.sends ++ [(w, Msg.work (tiles[s.next_tile]))] })
      have : Coord.assignments { s with sends := s.sends ++ [(w, Msg.work (tiles[s.next_tile]))] }
          = s.assignments ++ [(w, tiles[s.next_tile])] := by
        simp [Coord.assignments, List.filterMap_append, Msg.tile?]
      rw [this, ← List.append_assoc]
      exact List.Perm.append_right _ inv.assigned
  · rename_i h
    refine ⟨inv.next_le, ?_, inv.outstanding, inv.received_eq, ?_, ?_, ?_⟩
    · show Coord.sentTiles _ = tiles.take s.next_tile
      rw [← inv.sent_eq]
      simp [Coord.sentTiles, List.filterMap_append, Msg.tile?]
    · intro h'
      exact absurd h' h
    · exact Nat.le_succ_of_le inv.some_busy
    · have : Coord.assignments { s with sends := s.sends ++ [(w, Msg.done)] } = s.assignments := by
        simp [Coord.assignments, List.filterMap_append, Msg.tile?]
      show List.Perm (s.recvs ++ s.holding) _
      rw [this]
      exact inv.assigned

theorem init_inv (tiles : List Tile) : CoordInv tiles 0 Coord.init := by
  refine ⟨Nat.zero_le _, ?_, ?_, rfl, fun _ => rfl, le_refl _, ?_⟩
  · simp [Coord.init, Coord.sentTiles]
  · simp [Coord.init]
  · simp [Coord.init, Coord.assignments]

theorem dispatch_recvs (tiles : List Tile) (s : Coord) (w : Nat) :
    (dispatch tiles s w).recvs = s.recvs ∧
      (dispatch tiles s w).tiles_received = s.tiles_received := by
  unfold dispatch
  split <;> exact ⟨rfl, rfl⟩

theorem foldl_dispatch_inv (tiles : List Tile) (a : Nat) :
    ∀ (k : Nat), CoordInv tiles k ((List.range' a k).foldl (dispatch tiles) Coord.init) ∧
      ((List.range' a k).foldl (dispatch tiles) Coord.init).recvs = [] := by
  intro k
  induction k with
  | zero => exact ⟨init_inv tiles, rfl⟩
  | succ k ih =>
    rw [List.range'_concat, List.foldl_append]
    refine ⟨dispatch_inv tiles k _ _ ih.1, ?_⟩
    simp only [List.foldl_cons, List.foldl_nil]
    rw [(dispatch_recvs tiles _ _).1]
    exact ih.2

theorem initialDispatch_inv (tiles : List Tile) (size : Nat) :
    CoordInv tiles (size - 1) (initialDispatch tiles size) ∧
      (initialDispatch tiles size).recvs = [] :=
  foldl_dispatch_inv tiles 1 (size - 1)

theorem receive_inv (tiles : List Tile) (k : Nat) (s : Coord) (src : Nat) (t : Tile)
    (inv : CoordInv tiles k s) (hmem : (src, t) ∈ s.holding) :
    CoordInv tiles k (receive tiles s src t) := by
  have hlen : 0 < s.holding.length := List.length_pos_of_mem hmem
  have hk : 1 ≤ k := le_trans hlen inv.some_busy
  have h1 : CoordInv tiles (k - 1)
      { s with
        tiles_received := s.tiles_received + 1
        recvs := s.recvs ++ [(src, t)]
        holding := s.holding.erase (src, t) } := by
    have hperm : (s.recvs ++ [(src, t)] ++ s.holding.erase (src, t)).Perm
        (s.recvs ++ s.holding) := by
      rw [List.append_assoc]
      exact List.Perm.append_left _ (cons_erase_perm hmem)
    refine ⟨inv.next_le, inv.sent_eq, ?_, ?_, ?_, ?_, hperm.trans inv.assigned⟩
    · show List.Perm (List.map (fun p => p.2) (s.recvs ++ [(src, t)] ++ s.holding.erase (src, t)))
        (tiles.take s.next_tile)
      exact List.Perm.trans (List.Perm.map _ hperm) inv.outstanding
    · show s.tiles_received + 1 = (s.recvs ++ [(src, t)]).length
      simp [inv.received_eq]
    · intro h
      show (s.holding.erase (src, t)).length = k - 1
      rw [List.length_erase_of_mem hmem, inv.all_busy h]
    · show (s.holding.erase (src, t)).length ≤ k - 1
      rw [List.length_erase_of_mem hmem]
      exact Nat.sub_le_sub_right inv.some_busy 1
  have h2 := dispatch_inv tiles (k - 1) _ src h1
  rw [Nat.sub_add_cancel hk] at h2
  exact h2

theorem recvStep_some (tiles : List Tile) (s s' : Coord) (src : Nat)
    (h : recvStep tiles s src = some s') :
    s.tiles_received < tiles.length ∧ ∃ t, (src, t) ∈ s.holding ∧ s' = receive tiles s src t := by
  unfold recvStep at h
  split at h
  · rename_i hlt
    split at h
    · rename_i p hp
      have hm := List.mem_of_find?_eq_some hp
      have hp1 := List.find?_some hp
      simp only [beq_iff_eq] at hp1
      refine ⟨hlt, p.2, ?_, ?_⟩
      · rw [← hp1]
        exact hm
      · exact (Option.some.inj h).symm
    · exact absurd h (by simp)
  · exact absurd h (by simp)

theorem receive_received (tiles : List Tile) (s : Coord) (src : Nat) (t : Tile) :
    (receive tiles s src t).tiles_received = s.tiles_received + 1 := by
  unfold receive
  rw [(dispatch_recvs tiles _ _).2]

theorem runLoop_inv (tiles : List Tile) (k : Nat) :
    ∀ (order : List Nat) (s s' : Coord), CoordInv tiles k s →
      runLoop tiles s order = some s' →
      CoordInv tiles k s' ∧ s'.tiles_received = s.tiles_received + order.length := by
  intro order
  induction order with
  | nil =>
    intro s s' inv h
    simp only [runLoop, Option.some.injEq] at h
    subst h
    exact ⟨inv, rfl⟩
  | cons src rest ih =>
    intro s s' inv h
    simp only [runLoop] at h
    split at h
    · rename_i s1 h1
      obtain ⟨_, t, hmem, rfl⟩ := recvStep_some tiles s s1 src h1
      obtain ⟨a, b⟩ := ih _ s' (receive_inv tiles k s src t inv hmem) h
      refine ⟨a, ?_⟩
      rw [b, receive_received, List.length_cons]
      omega
    · exact absurd h (by simp)

theorem inv_lengths (tiles : List Tile) (k : Nat) (s : Coord) (inv : CoordInv tiles k s) :
    s.tiles_received + s.holding.length = s.next_tile := by
  have h := inv.outstanding.length_eq
  rw [List.length_map, List.length_append, List.length_take, ← inv.received_eq] at h
  have := inv.next_le
  omega

theorem recvStep_progress (tiles : List Tile) (k : Nat) (s : Coord) (inv : CoordInv tiles k s)
    (hk : 1 ≤ k) (hlt : s.tiles_received < tiles.length) :
    ∃ src s', recvStep tiles s src = some s' := by
  have hlen := inv_lengths tiles k s inv
  have hpos : 0 < s.holding.length := by
    by_cases h : s.next_tile < tiles.length
    · rw [inv.all_busy h]
      exact hk
    · have := inv.next_le
      omega
  obtain ⟨p, hp⟩ := List.exists_mem_of_length_pos hpos
  have hfind : (s.holding.find? (fun q => q.1 == p.1)).isSome := by
    rw [List.find?_isSome]
    exact ⟨p, hp, by simp⟩
  obtain ⟨q, hq⟩ := Option.isSome_iff_exists.mp hfind
  exact ⟨p.1, receive tiles s p.1 q.2, by simp [recvStep, hlt, hq]⟩

theorem runLoop_append (tiles : List Tile) :
    ∀ (a b : List Nat) (s : Coord),
      runLoop tiles s (a ++ b) = (runLoop tiles s a).bind (fun s' => runLoop tiles s' b) := by
  intro a
  induction a with
  | nil => intro b s; rfl
  | cons x xs ih =>
    intro b s
    simp only [List.cons_append, runLoop]
    split
    · exact ih b _
    · rfl

theorem runLoop_complete (tiles : List Tile) (k : Nat) (hk : 1 ≤ k) :
    ∀ (m : Nat) (s : Coord), CoordInv tiles k s → tiles.length - s.tiles_received ≤ m →
      ∃ rest s', runLoop tiles s rest = some s' ∧ s'.tiles_received = tiles.length := by
  intro m
  induction m with
  | zero =>
    intro s inv hm
    have h1 := inv_lengths tiles k s inv
    have h2 := inv.next_le
    exact ⟨[], s, rfl, by omega⟩
  | succ m ih =>
    intro s inv hm
    by_cases hlt : s.tiles_received < tiles.length
    · obtain ⟨src, s1, hs1⟩ := recvStep_progress tiles k s inv hk hlt
      obtain ⟨_, t, hmem, rfl⟩ := recvStep_some tiles s s1 src hs1
      have inv1 := receive_inv tiles k s src t inv hmem
      have hr := receive_received tiles s src t
      obtain ⟨rest, s', hrun, hfin⟩ := ih _ inv1 (by omega)
      exact ⟨src :: rest, s', by simp [runLoop, hs1, hrun], hfin⟩
    · have h1 := inv_lengths tiles k s inv
      have h2 := inv.next_le
      exact ⟨[], s, rfl, by omega⟩

theorem ids_take (tiles : List Tile) (hid : IdsArePositions tiles) (m : Nat)
    (hm : m ≤ tiles.length) :
    (tiles.take m).map (fun t => t.id) = (List.range m).map Int.ofNat := by
  apply List.ext_getElem
  · simp [hm]
  · intro i h1 h2
    simp only [List.getElem_map, List.getElem_take, List.getElem_range]
    exact hid i _

/-! ## Final framebuffer: auxiliary facts -/

theorem flatMap_rgb_length (l : List Color) :
    (l.flatMap (fun c => [c.r, c.g, c.b])).length = 3 * l.length := by
  induction l with
  | nil => rfl
  | cons a l ih =>
    rw [List.flatMap_cons, List.length_append, ih, List.length_cons]
    simp only [List.length_cons, List.length_nil]
    omega

theorem workerResult_some (renderTile : Int → Int → Int → Int → Nat → List Color)
    (hren : ∀ x0 y0 w h seed, 0 ≤ w → 0 ≤ h →
      ((renderTile x0 y0 w h seed).length : Int) = w * h)
    (rank : Nat) (t : Tile) (hw : 0 ≤ t.w) (hh : 0 ≤ t.h) :
    ∃ buf, workerResult renderTile rank t = some buf ∧ (buf.length : Int) = t.w * t.h * 3 := by
  have hlen := hren t.x0 t.y0 t.w t.h (workerSeed t.id rank) hw hh
  have hwh : 0 ≤ t.w * t.h := mul_nonneg hw hh
  refine ⟨_, by rw [workerResult, tileBytes, if_pos ⟨hwh, le_of_eq hlen.symm⟩], ?_⟩
  rw [flatMap_rgb_length, List.length_take]
  have : (t.w * t.h).toNat ≤ (renderTile t.x0 t.y0 t.w t.h (workerSeed t.id rank)).length := by
    omega
  rw [Nat.min_eq_left this]
  push_cast
  rw [Int.toNat_of_nonneg hwh]
  ring

theorem lookup_by_id (tiles : List Tile) (hid : IdsArePositions tiles) (t : Tile)
    (ht : t ∈ tiles) : 0 ≤ t.id ∧ tiles[t.id.toNat]? = some t := by
  obtain ⟨j, hj, rfl⟩ := List.getElem_of_mem ht
  have h := hid j hj
  rw [h]
  refine ⟨Int.ofNat_nonneg j, ?_⟩
  simp [List.getElem?_eq_getElem hj]

theorem inRect_pixel (N : Int) (t : Tile) (hin : t.inside N) (i : Int) (h : InRect N t i) :
    t.covers ((i / 3) % N) ((i / 3) / N) = true := by
  obtain ⟨row, col, c, hr0, hr1, hc0, hc1, hc, hc3, rfl⟩ := h
  obtain ⟨hx0, hy0, hw, hh, hxw, hyh⟩ := hin
  have hN : 0 < N := by omega
  have h3 : (((t.y0 + row) * N + t.x0 + col) * 3 + c) / 3 = (t.x0 + col) + (t.y0 + row) * N := by
    omega
  rw [h3, Int.add_mul_emod_self, Int.add_mul_ediv_right _ _ (ne_of_gt hN),
    Int.emod_eq_of_lt (by omega) (by omega), Int.ediv_eq_zero_of_lt (by omega) (by omega)]
  simp only [Tile.covers, decide_eq_true_eq]
  omega

theorem pixel_inRect (N : Int) (t : Tile) (i : Int)
    (h : t.covers ((i / 3) % N) ((i / 3) / N) = true) : InRect N t i := by
  simp only [Tile.covers, decide_eq_true_eq] at h
  refine ⟨(i / 3) / N - t.y0, (i / 3) % N - t.x0, i % 3, by omega, by omega, by omega, by omega,
    by omega, by omega, ?_⟩
  have h1 : (t.y0 + (i / 3 / N - t.y0)) * N + t.x0 + (i / 3 % N - t.x0) = i / 3 := by
    have := Int.ediv_add_emod (i / 3) N
    linarith [mul_comm N (i / 3 / N)]
  rw [h1]
  omega

theorem pixel_in_raster (N : Int) (i : Int) (hN : 0 < N) (hi0 : 0 ≤ i) (hi1 : i < N * N * 3) :
    0 ≤ (i / 3) % N ∧ (i / 3) % N < N ∧ 0 ≤ (i / 3) / N ∧ (i / 3) / N < N := by
  have h3 : i / 3 < N * N := by omega
  have h0 : 0 ≤ i / 3 := by omega
  exact ⟨Int.emod_nonneg _ (ne_of_gt hN), Int.emod_lt_of_pos _ hN, Int.ediv_nonneg h0 (le_of_lt hN),
    Int.ediv_lt_of_lt_mul hN h3⟩

theorem pairwise_of_countP_le (l : List Tile)
    (h : ∀ x y, l.countP (fun t => t.covers x y) ≤ 1) :
    l.Pairwise (fun a b => ∀ x y, ¬ (a.covers x y = true ∧ b.covers x y = true)) := by
  induction l with
  | nil => exact List.Pairwise.nil
  | cons a l ih =>
    refine List.Pairwise.cons ?_ (ih ?_)
    · intro b hb x y hab
      have h1 := h x y
      rw [List.countP_cons, if_pos hab.1] at h1
      have h2 : 0 < l.countP (fun t => t.covers x y) := List.countP_pos_iff.mpr ⟨b, hb, hab.2⟩
      omega
    · intro x y
      have h1 := h x y
      rw [List.countP_cons] at h1
      omega

theorem placeAll_spec (renderTile : Int → Int → Int → Int → Nat → List Color)
    (hren : ∀ x0 y0 w h seed, 0 ≤ w → 0 ≤ h →
      ((renderTile x0 y0 w h seed).length : Int) = w * h)
    (N : Int) (tiles : List Tile) (hid : IdsArePositions tiles)
    (hinside : ∀ t ∈ tiles, t.inside N) :
    ∀ (l : List (Nat × Tile)) (fb0 : List Nat), (fb0.length : Int) = N * N * 3 →
      (∀ p ∈ l, p.2 ∈ tiles) →
      l.Pairwise (fun p q => ∀ i, ¬ (InRect N p.2 i ∧ InRect N q.2 i)) →
      ∃ fb, l.foldlM (placeReceived renderTile N tiles) fb0 = some fb ∧
        fb.length = fb0.length ∧
        (∀ p ∈ l, ∃ buf, workerResult renderTile p.1 p.2 = some buf ∧ RectHolds N fb p.2 buf) ∧
        (∀ i, (∀ p ∈ l, ¬ InRect N p.2 i) → getI fb i = getI fb0 i) := by
  intro l
  induction l with
  | nil =>
    intro fb0 _ _ _
    exact ⟨fb0, rfl, rfl, fun p hp => absurd hp (by simp), fun i _ => rfl⟩
  | cons a l ih =>
    intro fb0 hlen0 hmem hpair
    have ha : a.2 ∈ tiles := hmem a (List.mem_cons_self _ _)
    have hain := hinside a.2 ha
    obtain ⟨buf, hbuf, hbuflen⟩ := workerResult_some renderTile hren a.1 a.2 hain.2.2.1
      hain.2.2.2.1
    obtain ⟨hid0, hlook⟩ := lookup_by_id tiles hid a.2 ha
    obtain ⟨fb1, hplace, hlen1, hrect, hout⟩ := placeTile_spec N fb0 a.2 buf hain hbuflen hlen0
    have hstep : placeReceived renderTile N tiles fb0 a = some fb1 := by
      simp [placeReceived, hbuf, hid0, hlook, hplace]
    obtain ⟨hhead, htail⟩ := List.pairwise_cons.mp hpair
    obtain ⟨fb, hfold, hlen, hall, hrest⟩ := ih fb1 (by rw [hlen1]; exact hlen0)
      (fun p hp => hmem p (List.mem_cons_of_mem _ hp)) htail
    refine ⟨fb, ?_, by rw [hlen, hlen1], ?_, ?_⟩
    · rw [List.foldlM_cons, hstep]
      exact hfold
    · intro p hp
      rcases List.mem_cons.mp hp with rfl | hp
      · refine ⟨buf, hbuf, ?_⟩
        intro row col c hr0 hr1 hc0 hc1 hc hc3
        obtain ⟨_, _, v, hv1, hv2⟩ := hrect row col c hr0 hr1 hc0 hc1 hc hc3
        refine ⟨v, hv1, ?_⟩
        rw [hrest _ (fun q hq hin => hhead q hq _
          ⟨⟨row, col, c, hr0, hr1, hc0, hc1, hc, hc3, rfl⟩, hin⟩)]
        exact hv2
      · exact hall p hp
    · intro i hi
      rw [hrest i (fun p hp => hi p (List.mem_cons_of_mem _ hp))]
      exact hout i (hi a (List.mem_cons_self _ _))

theorem getI_ext (a b : List Nat) (h : ∀ i : Int, getI a i = getI b i) : a = b := by
  apply List.ext_getElem?
  intro n
  have := h (n : Int)
  simpa [getI] using this

theorem complete_run (tiles : List Tile) (size : Nat) (order : List Nat) (s : Coord)
    (hrun : masterRun tiles size order = some s) (hdone : ¬ s.tiles_received < tiles.length) :
    (s.recvs.map (fun p => p.2)).Perm tiles ∧ s.recvs.Perm s.assignments := by
  obtain ⟨inv0, _⟩ := initialDispatch_inv tiles size
  obtain ⟨inv, _⟩ := runLoop_inv tiles (size - 1) order _ s inv0 hrun
  have hlen := inv_lengths tiles _ s inv
  have hle := inv.next_le
  have hnext : s.next_tile = tiles.length := by omega
  have hhold : s.holding = [] := by
    apply List.eq_nil_of_length_eq_zero
    omega
  have h1 := inv.outstanding
  have h2 := inv.assigned
  rw [hhold, List.append_nil] at h1 h2
  rw [hnext, List.take_length] at h1
  exact ⟨h1, h2⟩

theorem generated_tiles_facts (fuel : Nat) (N T : Int) (hT : 1 ≤ T) (hfuel : N.toNat ≤ fuel)
    (tiles : List Tile) (hgen : generateTiles fuel N T = some tiles) :
    (∀ t ∈ tiles, t.inside N) ∧
      tiles.Pairwise (fun a b => ∀ i, ¬ (InRect N a i ∧ InRect N b i)) ∧ tiles.Nodup := by
  obtain ⟨tiles', h, hmem, hcnt⟩ :=
    tileRows_spec N T (by omega) fuel hfuel fuel 0 0 (le_refl _) (by simpa using hfuel)
  have heq : tiles' = tiles := by
    unfold generateTiles at hgen
    rw [h] at hgen
    exact Option.some.inj hgen
  subst heq
  have hinside : ∀ t ∈ tiles', t.inside N := by
    intro t ht
    obtain ⟨a, b, c, d, e, f⟩ := hmem t ht
    refine ⟨d, a, ?_, ?_, f, c⟩ <;> omega
  have hle : ∀ x y, tiles'.countP (fun t => t.covers x y) ≤ 1 := by
    intro x y
    by_cases hxy : 0 ≤ x ∧ x < N ∧ 0 ≤ y ∧ y < N
    · exact le_of_eq (hcnt x y hxy.1 hxy.2.1 hxy.2.2.1 hxy.2.2.2)
    · have : tiles'.countP (fun t => t.covers x y) = 0 := by
        rw [List.countP_eq_zero]
        intro t ht
        obtain ⟨a, b, c, d, e, f⟩ := hinside t ht
        simp only [Tile.covers, decide_eq_true_eq]
        intro hcov
        apply hxy
        omega
      omega
  refine ⟨hinside, ?_, ?_⟩
  · refine List.Pairwise.imp_of_mem ?_ (pairwise_of_countP_le tiles' hle)
    intro a b ha hb hab i hi
    exact hab _ _ ⟨inRect_pixel N a (hinside a ha) i hi.1, inRect_pixel N b (hinside b hb) i hi.2⟩
  · have hids := ids_take tiles' (generateTiles_ids fuel N T tiles' hgen) tiles'.length (le_refl _)
    rw [List.take_length] at hids
    have hnd : (tiles'.map (fun t => t.id)).Nodup := by
      rw [hids]
      exact List.Nodup.map Int.ofNat_injective (List.nodup_range _)
    exact List.Nodup.of_map _ hnd

theorem finalBuffer_spec (renderTile : Int → Int → Int → Int → Nat → List Color)
    (hren : ∀ x0 y0 w h seed, 0 ≤ w → 0 ≤ h →
      ((renderTile x0 y0 w h seed).length : Int) = w * h)
    (fuel : Nat) (N T : Int) (hT : 1 ≤ T) (hfuel : N.toNat ≤ fuel)
    (tiles : List Tile) (hgen : generateTiles fuel N T = some tiles)
    (size : Nat) (order : List Nat) (s : Coord)
    (hrun : masterRun tiles size order = some s) (hdone : ¬ s.tiles_received < tiles.length) :
    ∃ fb, finalBuffer renderTile N tiles s = some fb ∧
      (∀ p ∈ s.recvs, ∃ buf, workerResult renderTile p.1 p.2 = some buf ∧
        RectHolds N fb p.2 buf) ∧
      (∀ i, (∀ p ∈ s.recvs, ¬ InRect N p.2 i) →
        getI fb i = getI (List.replicate (N * N * 3).toNat 0) i) := by
  obtain ⟨hinside, hpair, _⟩ := generated_tiles_facts fuel N T hT hfuel tiles hgen
  obtain ⟨hperm, _⟩ := complete_run tiles size order s hrun hdone
  have hmem : ∀ p ∈ s.recvs, p.2 ∈ tiles := by
    intro p hp
    exact hperm.subset (List.mem_map_of_mem _ hp)
  have hsymm : ∀ {a b : Tile}, (∀ i, ¬ (InRect N a i ∧ InRect N b i)) →
      ∀ i, ¬ (InRect N b i ∧ InRect N a i) := by
    intro a b h i hi
    exact h i ⟨hi.2, hi.1⟩
  have hp2 : (s.recvs.map (fun p => p.2)).Pairwise
      (fun a b : Tile => ∀ i, ¬ (InRect N a i ∧ InRect N b i)) :=
    (hperm.pairwise_iff (fun {a b} => hsymm)).mpr hpair
  rw [List.pairwise_map] at hp2
  have hlen0 : ((List.replicate (N * N * 3).toNat 0).length : Int) = N * N * 3 := by
    rw [List.length_replicate]
    exact Int.toNat_of_nonneg (by nlinarith [mul_self_nonneg N])
  obtain ⟨fb, hfold, _, hall, hrest⟩ := placeAll_spec renderTile hren N tiles
    (generateTiles_ids fuel N T tiles hgen) hinside s.recvs _ hlen0 hmem hp2
  exact ⟨fb, hfold, hall, hrest⟩

theorem buffers_agree (renderTile : Int → Int → Int → Int → Nat → List Color) (N : Int)
    (tiles : List Tile) (sA sB : Coord) (fbA fbB fb0 : List Nat)
    (hpermA : (sA.recvs.map (fun p => p.2)).Perm tiles)
    (hpermB : (sB.recvs.map (fun p => p.2)).Perm tiles)
    (hallA : ∀ p ∈ sA.recvs, ∃ buf, workerResult renderTile p.1 p.2 = some buf ∧
      RectHolds N fbA p.2 buf)
    (hallB : ∀ p ∈ sB.recvs, ∃ buf, workerResult renderTile p.1 p.2 = some buf ∧
      RectHolds N fbB p.2 buf)
    (hrestA : ∀ i, (∀ p ∈ sA.recvs, ¬ InRect N p.2 i) → getI fbA i = getI fb0 i)
    (hrestB : ∀ i, (∀ p ∈ sB.recvs, ¬ InRect N p.2 i) → getI fbB i = getI fb0 i)
    (hagree : ∀ t rA rB, (rA, t) ∈ sA.recvs → (rB, t) ∈ sB.recvs →
      workerResult renderTile rA t = workerResult renderTile rB t) :
    fbA = fbB := by
  apply getI_ext
  intro i
  by_cases hex : ∃ t ∈ tiles, InRect N t i
  · obtain ⟨t, ht, hin⟩ := hex
    obtain ⟨pA, hpA, rfl⟩ := List.mem_map.mp (hpermA.symm.subset ht)
    obtain ⟨pB, hpB, hpBt⟩ := List.mem_map.mp (hpermB.symm.subset ht)
    obtain ⟨bufA, hbA, hrA⟩ := hallA pA hpA
    obtain ⟨bufB, hbB, hrB⟩ := hallB pB hpB
    have hpB' : (pB.1, pA.2) ∈ sB.recvs := by
      rw [← hpBt]
      exact hpB
    have hsame := hagree pA.2 pA.1 pB.1 hpA hpB'
    rw [hbA, ← hpBt, hbB] at hsame
    have hbuf : bufA = bufB := Option.some.inj hsame
    subst hbuf
    rw [hpBt] at hrB
    obtain ⟨row, col, c, hr0, hr1, hc0, hc1, hc, hc3, rfl⟩ := hin
    obtain ⟨v, hv1, hv2⟩ := hrA row col c hr0 hr1 hc0 hc1 hc hc3
    obtain ⟨v', hv1', hv2'⟩ := hrB row col c hr0 hr1 hc0 hc1 hc hc3
    rw [hv2, hv2', ← hv1, ← hv1']
  · have hA : ∀ p ∈ sA.recvs, ¬ InRect N p.2 i := fun p hp hin =>
      hex ⟨p.2, hpermA.subset (List.mem_map_of_mem _ hp), hin⟩
    have hB : ∀ p ∈ sB.recvs, ¬ InRect N p.2 i := fun p hp hin =>
      hex ⟨p.2, hpermB.subset (List.mem_map_of_mem _ hp), hin⟩
    rw [hrestA i hA, hrestB i hB]

/-! ## Geometry: auxiliary facts -/

section VecLemmas

variable {K : Type} [LinearOrderedField K]

@[simp] theorem Vec3.add_x (a b : Vec3 K) : (a + b).x = a.x + b.x := rfl

@[simp] theorem Vec3.add_y (a b : Vec3 K) : (a + b).y = a.y + b.y := rfl

@[simp] theorem Vec3.add_z (a b : Vec3 K) : (a + b).z = a.z + b.z := rfl

@[simp] theorem Vec3.sub_x (a b : Vec3 K) : (a - b).x = a.x - b.x := rfl

@[simp] theorem Vec3.sub_y (a b : Vec3 K) : (a - b).y = a.y - b.y := rfl

@[simp] theorem Vec3.sub_z (a b : Vec3 K) : (a - b).z = a.z - b.z := rfl

@[simp] theorem Vec3.neg_x (a : Vec3 K) : (-a).x = -a.x := rfl

@[simp] theorem Vec3.neg_y (a : Vec3 K) : (-a).y = -a.y := rfl

@[simp] theorem Vec3.neg_z (a : Vec3 K) : (-a).z = -a.z := rfl

@[simp] theorem Vec3.mul_x (a : Vec3 K) (b : K) : (a * b).x = a.x * b := rfl

@[simp] theorem Vec3.mul_y (a : Vec3 K) (b : K) : (a * b).y = a.y * b := rfl

@[simp] theorem Vec3.mul_z (a : Vec3 K) (b : K) : (a * b).z = a.z * b := rfl

@[simp] theorem Vec3.div_x (a : Vec3 K) (b : K) : (a / b).x = a.x / b := rfl

@[simp] theorem Vec3.div_y (a : Vec3 K) (b : K) : (a / b).y = a.y / b := rfl

@[simp] theorem Vec3.div_z (a : Vec3 K) (b : K) : (a / b).z = a.z / b := rfl

end VecLemmas

theorem Vec3.dot_self_pos (d : Vec3 ℝ) (hd : d ≠ ⟨0, 0, 0⟩) : 0 < d.dot d := by
  rcases d with ⟨x, y, z⟩
  have h : x ≠ 0 ∨ y ≠ 0 ∨ z ≠ 0 := by
    by_contra hcon
    push_neg at hcon
    obtain ⟨rfl, rfl, rfl⟩ := hcon
    exact hd rfl
  simp only [Vec3.dot]
  rcases h with h | h | h
  · have := mul_self_pos.mpr h
    nlinarith [mul_self_nonneg y, mul_self_nonneg z]
  · have := mul_self_pos.mpr h
    nlinarith [mul_self_nonneg x, mul_self_nonneg z]
  · have := mul_self_pos.mpr h
    nlinarith [mul_self_nonneg x, mul_self_nonneg y]

theorem on_sphere_iff (o d : Vec3 ℝ) (s : Sphere ℝ) (t : ℝ) :
    (o + d * t - s.center).dot (o + d * t - s.center) = s.radius * s.radius ↔
      quadA d * t * t + quadB o d s * t + quadC o s = 0 := by
  rcases o with ⟨ox, oy, oz⟩
  rcases d with ⟨dx, dy, dz⟩
  rcases s with ⟨⟨cx, cy, cz⟩, r, col⟩
  simp only [quadA, quadB, quadC, Vec3.dot, Vec3.add_x, Vec3.add_y, Vec3.add_z, Vec3.sub_x,
    Vec3.sub_y, Vec3.sub_z, Vec3.mul_x, Vec3.mul_y, Vec3.mul_z]
  constructor
  · intro h
    linear_combination h
  · intro h
    linear_combination h

theorem intersect_sphere_eq (o d : Vec3 ℝ) (s : Sphere ℝ) :
    intersect_sphere Real.sqrt o d s =
      if quadDisc o d s < 0 then none
      else if (-quadB o d s - Real.sqrt (quadDisc o d s)) / (2 * quadA d) > 1e-4 then
        some ((-quadB o d s - Real.sqrt (quadDisc o d s)) / (2 * quadA d))
      else if (-quadB o d s + Real.sqrt (quadDisc o d s)) / (2 * quadA d) > 1e-4 then
        some ((-quadB o d s + Real.sqrt (quadDisc o d s)) / (2 * quadA d))
      else none := rfl

theorem quad_roots (o d : Vec3 ℝ) (s : Sphere ℝ) (hd : d ≠ ⟨0, 0, 0⟩)
    (hdisc : 0 ≤ quadDisc o d s) (t : ℝ) :
    quadA d * t * t + quadB o d s * t + quadC o s = 0 ↔
      t = (-quadB o d s + Real.sqrt (quadDisc o d s)) / (2 * quadA d) ∨
      t = (-quadB o d s - Real.sqrt (quadDisc o d s)) / (2 * quadA d) := by
  have ha : quadA d ≠ 0 := ne_of_gt (Vec3.dot_self_pos d hd)
  rw [mul_assoc]
  apply quadratic_eq_zero_iff ha
  rw [Real.mul_self_sqrt hdisc]
  simp only [discrim, quadDisc]
  ring

theorem root_order (o d : Vec3 ℝ) (s : Sphere ℝ) (hd : d ≠ ⟨0, 0, 0⟩) :
    (-quadB o d s - Real.sqrt (quadDisc o d s)) / (2 * quadA d) ≤
      (-quadB o d s + Real.sqrt (quadDisc o d s)) / (2 * quadA d) := by
  have ha : 0 < quadA d := Vec3.dot_self_pos d hd
  have hs := Real.sqrt_nonneg (quadDisc o d s)
  apply div_le_div_of_nonneg_right _ (by linarith)
  linarith

/-! ## Nearest-hit scan: auxiliary facts -/

section ScanLemmas

variable {K : Type} [LinearOrderedField K]

theorem scanSpheres_spec (sqrt : K → K) (o d : Vec3 K) :
    ∀ (l : List (Sphere K)) (i : Nat) (h : Hit K),
      (scanSpheres sqrt o d l i h).closest_t ≤ h.closest_t ∧
      (∀ s ∈ l, ∀ t, intersect_sphere sqrt o d s = some t →
        (scanSpheres sqrt o d l i h).closest_t ≤ t) ∧
      (scanSpheres sqrt o d l i h = h ∨
        ((scanSpheres sqrt o d l i h).hit_plane = none ∧
          ∃ k s, (scanSpheres sqrt o d l i h).hit_sphere = some (i + k, s) ∧ l[k]? = some s ∧
            intersect_sphere sqrt o d s = some (scanSpheres sqrt o d l i h).closest_t)) := by
  intro l
  induction l with
  | nil =>
    intro i h
    exact ⟨le_refl _, fun s hs => absurd hs (by simp), Or.inl rfl⟩
  | cons s rest ih =>
    intro i h
    cases hi : intersect_sphere sqrt o d s with
    | none =>
      have hstep : scanSpheres sqrt o d (s :: rest) i h = scanSpheres sqrt o d rest (i + 1) h := by
        simp [scanSpheres, hi]
      rw [hstep]
      obtain ⟨h1, h2, h3⟩ := ih (i + 1) h
      refine ⟨h1, ?_, ?_⟩
      · intro s' hs' t ht
        rcases List.mem_cons.mp hs' with rfl | hs'
        · rw [hi] at ht
          exact absurd ht (by simp)
        · exact h2 s' hs' t ht
      · rcases h3 with h3 | ⟨h3, k, s', hk1, hk2, hk3⟩
        · exact Or.inl h3
        · exact Or.inr ⟨h3, k + 1, s', by rw [hk1]; congr 2; omega, by simpa using hk2, hk3⟩
    | some t0 =>
      by_cases hlt : t0 < h.closest_t
      · have hstep : scanSpheres sqrt o d (s :: rest) i h =
            scanSpheres sqrt o d rest (i + 1) ⟨t0, some (i, s), none⟩ := by
          simp [scanSpheres, hi, hlt]
        rw [hstep]
        obtain ⟨h1, h2, h3⟩ := ih (i + 1) ⟨t0, some (i, s), none⟩
        refine ⟨le_trans h1 (le_of_lt hlt), ?_, Or.inr ?_⟩
        · intro s' hs' t ht
          rcases List.mem_cons.mp hs' with rfl | hs'
          · rw [hi] at ht
            rw [← Option.some.inj ht]
            exact h1
          · exact h2 s' hs' t ht
        · rcases h3 with h3 | ⟨h3, k, s', hk1, hk2, hk3⟩
          · rw [h3]
            exact ⟨rfl, 0, s, rfl, by simp, hi⟩
          · exact ⟨h3, k + 1, s', by rw [hk1]; congr 2; omega, by simpa using hk2, hk3⟩
      · have hstep : scanSpheres sqrt o d (s :: rest) i h =
            scanSpheres sqrt o d rest (i + 1) h := by
          simp [scanSpheres, hi, hlt]
        rw [hstep]
        obtain ⟨h1, h2, h3⟩ := ih (i + 1) h
        refine ⟨h1, ?_, ?_⟩
        · intro s' hs' t ht
          rcases List.mem_cons.mp hs' with rfl | hs'
          · rw [hi] at ht
            rw [← Option.some.inj ht]
            exact le_trans h1 (not_lt.mp hlt)
          · exact h2 s' hs' t ht
        · rcases h3 with h3 | ⟨h3, k, s', hk1, hk2, hk3⟩
          · exact Or.inl h3
          · exact Or.inr ⟨h3, k + 1, s', by rw [hk1]; congr 2; omega, by simpa using hk2, hk3⟩

theorem scanPlanes_spec (o d : Vec3 K) :
    ∀ (l : List (Plane K)) (i : Nat) (h : Hit K),
      scanPlanes o d l i h = h ∨
        ((scanPlanes o d l i h).closest_t < h.closest_t ∧
          ∃ p ∈ l, intersect_plane o d p = some (scanPlanes o d l i h).closest_t) := by
  intro l
  induction l with
  | nil =>
    intro i h
    exact Or.inl rfl
  | cons p rest ih =>
    intro i h
    cases hi : intersect_plane o d p with
    | none =>
      have hstep : scanPlanes o d (p :: rest) i h = scanPlanes o d rest (i + 1) h := by
        simp [scanPlanes, hi]
      rw [hstep]
      rcases ih (i + 1) h with h3 | ⟨h3, p', hp', hk⟩
      · exact Or.inl h3
      · exact Or.inr ⟨h3, p', List.mem_cons_of_mem _ hp', hk⟩
    | some t0 =>
      by_cases hlt : t0 < h.closest_t
      · have hstep : scanPlanes o d (p :: rest) i h =
            scanPlanes o d rest (i + 1) ⟨t0, none, some (i, p)⟩ := by
          simp [scanPlanes, hi, hlt]
        rw [hstep]
        rcases ih (i + 1) ⟨t0, none, some (i, p)⟩ with h3 | ⟨h3, p', hp', hk⟩
        · rw [h3]
          exact Or.inr ⟨hlt, p, List.mem_cons_self _ _, hi⟩
        · exact Or.inr ⟨lt_trans h3 hlt, p', List.mem_cons_of_mem _ hp', hk⟩
      · have hstep : scanPlanes o d (p :: rest) i h = scanPlanes o d rest (i + 1) h := by
          simp [scanPlanes, hi, hlt]
        rw [hstep]
        rcases ih (i + 1) h with h3 | ⟨h3, p', hp', hk⟩
        · exact Or.inl h3
        · exact Or.inr ⟨h3, p', List.mem_cons_of_mem _ hp', hk⟩

end ScanLemmas

/-! ## Shading: auxiliary facts -/

theorem intersect_sphere_gt {K : Type} [LinearOrderedField K] (sqrt : K → K) (o d : Vec3 K)
    (s : Sphere K) (t : K) (h : intersect_sphere sqrt o d s = some t) : t > 1e-4 := by
  unfold intersect_sphere at h
  simp only [] at h
  split_ifs at h with h0 h1 h2
  · rw [← Option.some.inj h]
    exact h1
  · rw [← Option.some.inj h]
    exact h2

theorem shadowHit_sphere {K : Type} [LinearOrderedField K] (sqrt : K → K) (o d : Vec3 K)
    (s : Sphere K) :
    shadowHit (intersect_sphere sqrt o d s) = (intersect_sphere sqrt o d s).isSome := by
  cases h : intersect_sphere sqrt o d s with
  | none => rfl
  | some t => simp [shadowHit, intersect_sphere_gt sqrt o d s t h]

theorem shadowBySpheres_none {K : Type} [LinearOrderedField K] (sqrt : K → K) (o d : Vec3 K) :
    ∀ (l : List (Sphere K)) (i : Nat),
      shadowBySpheres sqrt o d none l i = true ↔
        ∃ s ∈ l, (intersect_sphere sqrt o d s).isSome = true := by
  intro l
  induction l with
  | nil =>
    intro i
    simp [shadowBySpheres]
  | cons s rest ih =>
    intro i
    simp only [shadowBySpheres, shadowHit_sphere, ne_eq, reduceCtorEq, not_false_eq_true,
      true_and, List.mem_cons, exists_eq_or_imp]
    by_cases h : (intersect_sphere sqrt o d s).isSome = true
    · simp [h]
    · simp only [h, if_false, false_or, Bool.false_eq_true]
      exact ih (i + 1)

theorem toUChar_truncInt (v : ℝ) (lo hi : Int) (h0 : 0 ≤ lo) (h255 : hi ≤ 255)
    (hlo : (lo : ℝ) ≤ v) (hhi : v ≤ (hi : ℝ)) :
    ((toUChar (truncInt v) : Nat) : Int) = truncInt v ∧ lo ≤ truncInt v ∧ truncInt v ≤ hi := by
  have hv0 : (0 : ℝ) ≤ v := le_trans (by exact_mod_cast h0) hlo
  have htr : truncInt v = ⌊v⌋ := by
    unfold truncInt
    rw [if_pos hv0]
  have h1 : lo ≤ ⌊v⌋ := Int.le_floor.mpr hlo
  have h2 : ⌊v⌋ ≤ hi := by
    have : ((⌊v⌋ : Int) : ℝ) ≤ (hi : ℝ) := le_trans (Int.floor_le v) hhi
    exact_mod_cast this
  rw [htr]
  refine ⟨?_, h1, h2⟩
  unfold toUChar
  omega

theorem truncInt_intCast (n : Int) : truncInt ((n : ℝ)) = n := by
  unfold truncInt
  split_ifs
  · exact Int.floor_intCast n
  · exact Int.ceil_intCast n

/-! ## Concrete evaluations used by the examples -/

theorem sqrt_four : Real.sqrt 4 = 2 := by
  rw [show (4 : ℝ) = 2 * 2 by norm_num]
  exact Real.sqrt_mul_self (by norm_num)

theorem tie_sphere_hit :
    intersect_sphere Real.sqrt ⟨0, 0, 0⟩ ⟨0, 0, 1⟩ ⟨⟨0, 0, 2⟩, 1, ⟨200, 0, 0⟩⟩ = some 1 := by
  have hd : quadDisc (⟨0, 0, 0⟩ : Vec3 ℝ) ⟨0, 0, 1⟩ ⟨⟨0, 0, 2⟩, 1, ⟨200, 0, 0⟩⟩ = 4 := by
    simp only [quadDisc, quadA, quadB, quadC, Vec3.dot, Vec3.sub_x, Vec3.sub_y, Vec3.sub_z]
    norm_num
  have hb : quadB (⟨0, 0, 0⟩ : Vec3 ℝ) ⟨0, 0, 1⟩ ⟨⟨0, 0, 2⟩, 1, ⟨200, 0, 0⟩⟩ = -4 := by
    simp only [quadB, Vec3.dot, Vec3.sub_x, Vec3.sub_y, Vec3.sub_z]
    norm_num
  have ha : quadA (⟨0, 0, 1⟩ : Vec3 ℝ) = 1 := by
    simp only [quadA, Vec3.dot]
    norm_num
  rw [intersect_sphere_eq, hd, hb, ha, sqrt_four]
  norm_num

theorem tie_plane_hit :
    intersect_plane (⟨0, 0, 0⟩ : Vec3 ℝ) ⟨0, 0, 1⟩ ⟨⟨0, 0, 1⟩, ⟨0, 0, 1⟩, ⟨0, 200, 0⟩⟩ = some 1 := by
  simp only [intersect_plane, Vec3.dot, Vec3.sub_x, Vec3.sub_y, Vec3.sub_z]
  norm_num

theorem one_lt_DBL_MAX : (1 : ℝ) < DBL_MAX := by
  unfold DBL_MAX
  norm_num

theorem floor_example_hit :
    nearestHit Real.sqrt ⟨[], [⟨⟨0, 0, 0⟩, ⟨0, 1, 0⟩, ⟨1, 2, 3⟩⟩]⟩ ⟨0, 1, 0⟩ ⟨0, -1, 0⟩ =
      ⟨1, none, some (0, ⟨⟨0, 0, 0⟩, ⟨0, 1, 0⟩, ⟨1, 2, 3⟩⟩)⟩ := by
  have hp : intersect_plane (⟨0, 1, 0⟩ : Vec3 ℝ) ⟨0, -1, 0⟩
      ⟨⟨0, 0, 0⟩, ⟨0, 1, 0⟩, ⟨1, 2, 3⟩⟩ = some 1 := by
    simp only [intersect_plane, Vec3.dot, Vec3.sub_x, Vec3.sub_y, Vec3.sub_z]
    norm_num
  simp only [nearestHit, scanSpheres, scanPlanes, hp, if_pos one_lt_DBL_MAX]

theorem floor_example_floor :
    findFloor [(⟨⟨0, 0, 0⟩, ⟨0, 1, 0⟩, ⟨1, 2, 3⟩⟩ : Plane ℝ)] 0 =
      some (0, ⟨⟨0, 0, 0⟩, ⟨0, 1, 0⟩, ⟨1, 2, 3⟩⟩) := by
  simp only [findFloor]
  norm_num

/-! ## Snow overlay: auxiliary facts -/

theorem snowOverlay_eq_any {K : Type} [LinearOrderedField K] [FloorRing K] (o d : Vec3 K)
    (t : K) (base : Color) :
    ∀ l : List (Vec3 K), snowOverlay o d t base l =
      if l.any (snowHit o d t) = true then ⟨255, 255, 255⟩ else base := by
  intro l
  induction l with
  | nil => rfl
  | cons a l ih =>
    unfold snowOverlay
    by_cases h : snowHit o d t a = true
    · simp [h]
    · rw [if_neg h, ih]
      simp [h]

theorem snowHit_iff (o d : Vec3 ℝ) (t : ℝ) (s : Vec3 ℝ) :
    snowHit o d t s = true ↔
      (0 ≤ (s - o).dot d ∧ (s - o).dot d ≤ 8 ∧ (s - o).dot d ≤ t ∧
        (o + d * (s - o).dot d - s).dot (o + d * (s - o).dot d - s) < 0.008 ^ 2) := by
  unfold snowHit
  simp only []
  split_ifs with h
  · constructor
    · intro hf
      exact absurd hf (by simp)
    · rintro ⟨h1, h2, h3, _⟩
      rcases h with h | h | h
      · exact absurd h1 (not_le.mpr h)
      · norm_num at h
        exact absurd h2 (not_le.mpr h)
      · exact absurd h3 (not_le.mpr h)
  · push_neg at h
    obtain ⟨h1, h2, h3⟩ := h
    norm_num at h2
    simp only [decide_eq_true_eq, Vec3.dot, Vec3.sub_x, Vec3.sub_y, Vec3.sub_z]
    constructor
    · intro hd
      refine ⟨h1, h2, h3, ?_⟩
      simp only [Vec3.dot, Vec3.sub_x, Vec3.sub_y, Vec3.sub_z] at hd ⊢
      rw [sq]
      exact hd
    · rintro ⟨_, _, _, hd⟩
      rw [sq] at hd
      exact hd

theorem snowOverlay_perm {K : Type} [LinearOrderedField K] [FloorRing K] (o d : Vec3 K)
    (t : K) (base : Color) (l₁ l₂ : List (Vec3 K)) (h : l₁.Perm l₂) :
    snowOverlay o d t base l₁ = snowOverlay o d t base l₂ := by
  rw [snowOverlay_eq_any, snowOverlay_eq_any]
  have hany : l₁.any (snowHit o d t) = l₂.any (snowHit o d t) := by
    rw [Bool.eq_iff_iff, List.any_eq_true, List.any_eq_true]
    constructor
    · rintro ⟨x, hx, hp⟩
      exact ⟨x, h.subset hx, hp⟩
    · rintro ⟨x, hx, hp⟩
      exact ⟨x, h.symm.subset hx, hp⟩
  rw [hany]

/-! ## Sphere shading: auxiliary facts -/

theorem normalize_dot_self_le_one (v : Vec3 ℝ) :
    (Vec3.normalize Real.sqrt v).dot (Vec3.normalize Real.sqrt v) ≤ 1 := by
  have hnn : 0 ≤ v.dot v := by
    simp only [Vec3.dot]
    nlinarith [mul_self_nonneg v.x, mul_self_nonneg v.y, mul_self_nonneg v.z]
  have hexp : (Vec3.normalize Real.sqrt v).dot (Vec3.normalize Real.sqrt v) =
      v.dot v / (Real.sqrt (v.dot v) * Real.sqrt (v.dot v)) := by
    simp only [Vec3.normalize, Vec3.dot, Vec3.div_x, Vec3.div_y, Vec3.div_z]
    by_cases h0 : Real.sqrt (v.x * v.x + v.y * v.y + v.z * v.z) = 0
    · simp [h0]
    · field_simp
  rw [hexp, Real.mul_self_sqrt hnn]
  by_cases h0 : v.dot v = 0
  · simp [h0]
  · rw [div_self h0]

theorem normalize_dot_self (v : Vec3 ℝ) (hv : 0 < v.dot v) :
    (Vec3.normalize Real.sqrt v).dot (Vec3.normalize Real.sqrt v) = 1 := by
  have hs : Real.sqrt (v.dot v) ≠ 0 := ne_of_gt (Real.sqrt_pos.mpr hv)
  have hexp : (Vec3.normalize Real.sqrt v).dot (Vec3.normalize Real.sqrt v) =
      v.dot v / (Real.sqrt (v.dot v) * Real.sqrt (v.dot v)) := by
    simp only [Vec3.normalize, Vec3.dot, Vec3.div_x, Vec3.div_y, Vec3.div_z]
    simp only [Vec3.dot] at hs
    field_simp
  rw [hexp, Real.mul_self_sqrt (le_of_lt hv), div_self (ne_of_gt hv)]

theorem dot_le_one (a b : Vec3 ℝ) (ha : a.dot a ≤ 1) (hb : b.dot b ≤ 1) : a.dot b ≤ 1 := by
  simp only [Vec3.dot] at *
  nlinarith [sq_nonneg (a.x - b.x), sq_nonneg (a.y - b.y), sq_nonneg (a.z - b.z)]

theorem neg_dot_neg (a : Vec3 ℝ) : (-a).dot (-a) = a.dot a := by
  simp only [Vec3.dot, Vec3.neg_x, Vec3.neg_y, Vec3.neg_z]
  ring

theorem shadowBySpheres_skip {K : Type} [LinearOrderedField K] (sqrt : K → K) (o d : Vec3 K)
    (i : Nat) :
    ∀ (l : List (Sphere K)) (j : Nat),
      shadowBySpheres sqrt o d (some i) l j = true ↔
        ∃ k s, l[k]? = some s ∧ j + k ≠ i ∧ (intersect_sphere sqrt o d s).isSome = true := by
  intro l
  induction l with
  | nil =>
    intro j
    simp [shadowBySpheres]
  | cons a rest ih =>
    intro j
    unfold shadowBySpheres
    rw [shadowHit_sphere]
    by_cases h : (some i ≠ some j ∧ (intersect_sphere sqrt o d a).isSome = true)
    · rw [if_pos h]
      simp only [true_iff]
      refine ⟨0, a, by simp, ?_, h.2⟩
      intro hji
      apply h.1
      rw [← hji]
      rfl
    · rw [if_neg h, ih (j + 1)]
      constructor
      · rintro ⟨k, s, hk, hne, hs⟩
        exact ⟨k + 1, s, by simpa using hk, by omega, hs⟩
      · rintro ⟨k, s, hk, hne, hs⟩
        cases k with
        | zero =>
          exfalso
          simp only [List.getElem?_cons_zero, Option.some.injEq] at hk
          subst hk
          apply h
          refine ⟨?_, hs⟩
          intro hij
          apply hne
          have := Option.some.inj hij
          omega
        | succ k =>
          exact ⟨k, s, by simpa using hk, by omega, hs⟩

theorem truncInt_mono (a b : ℝ) (ha : 0 ≤ a) (hab : a ≤ b) : truncInt a ≤ truncInt b := by
  unfold truncInt
  rw [if_pos ha, if_pos (le_trans ha hab)]
  exact Int.floor_le_floor hab

theorem shadeChannel_bounds (c : Nat) (b : ℝ) (hc : c ≤ 255) (hb0 : 0.3 ≤ b) (hb1 : b ≤ 1) :
    ((shadeChannel c b : Nat) : Int) = min 255 (truncInt ((c : ℝ) * b)) ∧
      truncInt (0.3 * (c : ℝ)) ≤ ((shadeChannel c b : Nat) : Int) ∧
      shadeChannel c b ≤ c ∧ shadeChannel c b ≤ 255 := by
  have hc0 : (0 : ℝ) ≤ (c : ℝ) := Nat.cast_nonneg c
  have hlow : (0 : ℝ) ≤ 0.3 * (c : ℝ) := by positivity
  have h1 : 0.3 * (c : ℝ) ≤ (c : ℝ) * b := by nlinarith
  have h2 : (c : ℝ) * b ≤ ((c : Int) : ℝ) := by
    push_cast
    nlinarith
  have hm1 := truncInt_mono _ _ hlow h1
  have hm2 := truncInt_mono _ _ (le_trans hlow h1) h2
  rw [truncInt_intCast] at hm2
  have hm0 : (0 : Int) ≤ truncInt (0.3 * (c : ℝ)) := by
    unfold truncInt
    rw [if_pos hlow]
    exact Int.floor_nonneg.mpr hlow
  have hval : ((shadeChannel c b : Nat) : Int) = truncInt ((c : ℝ) * b) := by
    unfold shadeChannel toUChar
    generalize truncInt ((c : ℝ) * b) = n at hm1 hm2
    have : min 255 n = n := min_eq_right (by omega)
    rw [this]
    omega
  refine ⟨?_, ?_, ?_, ?_⟩
  · rw [hval]
    exact (min_eq_right (by omega)).symm
  · rw [hval]
    exact hm1
  · have : ((shadeChannel c b : Nat) : Int) ≤ (c : Int) := by
      rw [hval]
      exact hm2
    exact_mod_cast this
  · have : ((shadeChannel c b : Nat) : Int) ≤ (c : Int) := by
      rw [hval]
      exact hm2
    omega

/-! ## Render loops: auxiliary facts -/

theorem foldl_set_spec {α : Type} (f : Nat → α) (idx : Nat → Nat) (o : List α) :
    ∀ n : Nat, (∀ i j, i < n → j < n → idx i = idx j → i = j) →
      (∀ i, i < n → idx i < o.length) →
      ((List.range n).foldl (fun o' i => o'.set (idx i) (f i)) o).length = o.length ∧
      (∀ i, i < n →
        ((List.range n).foldl (fun o' i => o'.set (idx i) (f i)) o)[idx i]? = some (f i)) ∧
      (∀ j, (∀ i, i < n → idx i ≠ j) →
        ((List.range n).foldl (fun o' i => o'.set (idx i) (f i)) o)[j]? = o[j]?) := by
  intro n
  induction n with
  | zero =>
    intro _ _
    exact ⟨rfl, fun i hi => absurd hi (by simp), fun j _ => rfl⟩
  | succ n ih =>
    intro hinj hlt
    obtain ⟨h1, h2, h3⟩ := ih (fun i j hi hj => hinj i j (by omega) (by omega))
      (fun i hi => hlt i (by omega))
    rw [List.range_succ, List.foldl_append]
    simp only [List.foldl_cons, List.foldl_nil]
    refine ⟨by rw [List.length_set, h1], ?_, ?_⟩
    · intro i hi
      by_cases hin : i = n
      · subst hin
        rw [List.getElem?_set_self (by rw [h1]; exact hlt i hi)]
      · have hne : idx n ≠ idx i := fun h => hin (hinj i n hi (by omega) h.symm)
        rw [List.getElem?_set_ne hne]
        exact h2 i (by omega)
    · intro j hj
      rw [List.getElem?_set_ne (hj n (by omega))]
      exact h3 j (fun i hi => hj i (by omega))

theorem resize_length (out : List Color) (n : Nat) : (resize out n).length = n := by
  unfold resize
  rw [List.length_append, List.length_take, List.length_replicate]
  omega

theorem rows_spec {α : Type} (w : Int) (hw : 0 ≤ w) (h : Nat) (g : Nat → Nat → α)
    (o : List α) (hlen : (o.length : Int) = w * h) :
    ∀ k : Nat, k ≤ h →
      ((List.range k).foldl (fun (o' : List α) (ty : Nat) => (List.range w.toNat).foldl
        (fun (o'' : List α) (tx : Nat) => o''.set (((ty : Int) * w + (tx : Int)).toNat) (g ty tx)) o') o).length =
          o.length ∧
      (∀ ty tx : Nat, ty < k → (tx : Int) < w →
        ((List.range k).foldl (fun (o' : List α) (ty : Nat) => (List.range w.toNat).foldl
          (fun (o'' : List α) (tx : Nat) => o''.set (((ty : Int) * w + (tx : Int)).toNat) (g ty tx)) o')
            o)[((ty : Int) * w + (tx : Int)).toNat]? = some (g ty tx)) := by
  intro k
  induction k with
  | zero =>
    intro _
    exact ⟨rfl, fun ty tx hty => absurd hty (by simp)⟩
  | succ k ih =>
    intro hk
    obtain ⟨h1, h2⟩ := ih (by omega)
    rw [List.range_succ, List.foldl_append]
    simp only [List.foldl_cons, List.foldl_nil]
    have hkw : (k : Int) * w + w ≤ w * h := by
      have : (k : Int) + 1 ≤ h := by omega
      nlinarith
    have hkw0 : 0 ≤ (k : Int) * w := mul_nonneg (by omega) hw
    obtain ⟨r1, r2, r3⟩ := foldl_set_spec (g k) (fun (tx : Nat) => ((k : Int) * w + (tx : Int)).toNat)
      ((List.range k).foldl (fun (o' : List α) (ty : Nat) => (List.range w.toNat).foldl
        (fun (o'' : List α) (tx : Nat) => o''.set (((ty : Int) * w + (tx : Int)).toNat) (g ty tx)) o') o) w.toNat
      (by intro i j _ _ hij; simp only at hij; omega)
      (by intro i hi; simp only; rw [h1]; omega)
    refine ⟨by rw [r1, h1], ?_⟩
    intro ty tx hty htx
    by_cases hin : ty = k
    · subst hin
      exact r2 tx (by omega)
    · have hlt : ty < k := by omega
      have hrow : (ty : Int) * w + w ≤ (k : Int) * w := by
        have : (ty : Int) + 1 ≤ k := by omega
        nlinarith
      have hty0 : 0 ≤ (ty : Int) * w := mul_nonneg (by omega) hw
      rw [r3 _ (by intro i _; omega)]
      exact h2 ty tx hlt htx

theorem single_sphere_hit :
    nearestHit Real.sqrt ⟨[⟨⟨0, 0, 2⟩, 1, ⟨200, 0, 0⟩⟩], []⟩ ⟨0, 0, 0⟩ ⟨0, 0, 1⟩ =
      ⟨1, some (0, ⟨⟨0, 0, 2⟩, 1, ⟨200, 0, 0⟩⟩), none⟩ := by
  simp only [nearestHit, scanSpheres, scanPlanes, tie_sphere_hit, if_pos one_lt_DBL_MAX]

/-! ## Stop messages: auxiliary facts -/

theorem msgs_append (sends : List (Nat × Msg)) (w : Nat) (m : Msg) (w' : Nat) :
    ((sends ++ [(w, m)]).filter (fun p => p.1 == w')).map (fun p => p.2) =
      if w = w' then (sends.filter (fun p => p.1 == w')).map (fun p => p.2) ++ [m]
      else (sends.filter (fun p => p.1 == w')).map (fun p => p.2) := by
  simp only [List.filter_append, List.map_append]
  by_cases h : w = w'
  · simp [h]
  · simp [h]

theorem dispatch_msgsTo (tiles : List Tile) (s : Coord) (w w' : Nat) :
    (dispatch tiles s w).msgsTo w' =
      if w = w' then
        s.msgsTo w' ++ [if h : s.next_tile < tiles.length then Msg.work (tiles[s.next_tile])
          else Msg.done]
      else s.msgsTo w' := by
  unfold dispatch
  split
  · exact msgs_append s.sends w _ w'
  · exact msgs_append s.sends w _ w'

theorem dispatch_holding (tiles : List Tile) (s : Coord) (w : Nat) :
    (dispatch tiles s w).holding =
      if h : s.next_tile < tiles.length then s.holding ++ [(w, tiles[s.next_tile])]
      else s.holding := by
  unfold dispatch
  split <;> rfl

theorem dispatch_next (tiles : List Tile) (s : Coord) (w : Nat) :
    (dispatch tiles s w).next_tile =
      if s.next_tile < tiles.length then s.next_tile + 1 else s.next_tile := by
  unfold dispatch
  split <;> rfl

theorem dispatch_stop (tiles : List Tile) (k : Nat) (s : Coord) (w : Nat)
    (inv : StopInv tiles.length k s (some w)) :
    StopInv tiles.length k (dispatch tiles s w) none := by
  obtain ⟨hw1, hwk, hnotin, hnodone, hbey⟩ := inv.pend w rfl
  by_cases h : s.next_tile < tiles.length
  · have hhold : (dispatch tiles s w).holding = s.holding ++ [(w, tiles[s.next_tile])] := by
      rw [dispatch_holding, dif_pos h]
    have hmsg : ∀ w', (dispatch tiles s w).msgsTo w' =
        if w = w' then s.msgsTo w' ++ [Msg.work (tiles[s.next_tile])] else s.msgsTo w' := by
      intro w'
      rw [dispatch_msgsTo, dif_pos h]
    have hmem : ∀ w', w' ∈ (dispatch tiles s w).holding.map Prod.fst ↔
        (w' ∈ s.holding.map Prod.fst ∨ w' = w) := by
      intro w'
      rw [hhold]
      simp
    refine ⟨?_, ?_, ?_, ?_, ?_, ?_, fun w' hw' => absurd hw' (by simp)⟩
    · rw [hhold, List.map_append, List.nodup_append]
      refine ⟨inv.nodup, by simp, ?_⟩
      intro a ha hb
      simp only [List.map_cons, List.map_nil, List.mem_singleton] at hb
      exact hnotin (hb ▸ ha)
    · intro w' hw'
      rcases (hmem w').mp hw' with h1 | h1
      · exact inv.range w' h1
      · rw [h1]
        exact ⟨hw1, hwk⟩
    · intro w' hw'
      rw [hmsg]
      rcases (hmem w').mp hw' with h1 | h1
      · have hne : w ≠ w' := fun e => hnotin (e ▸ h1)
        rw [if_neg hne]
        exact inv.busy w' h1
      · rw [if_pos h1.symm, h1]
        simp only [List.mem_append, List.mem_singleton, reduceCtorEq, or_false]
        exact hnodone
    · intro w' hw' h1 h2 _
      have hne : w ≠ w' := fun e => hw' ((hmem w').mpr (Or.inr e.symm))
      rw [hmsg, if_neg hne]
      exact inv.idle w' (fun e => hw' ((hmem w').mpr (Or.inl e))) h1 h2
        (fun e => hne (Option.some.inj e))
    · intro w' h1 h2 _
      by_cases hne : w = w'
      · exact absurd h ((hbey (hne ▸ h1)).2)
      · rw [hmsg, if_neg hne]
        exact inv.beyond w' h1 h2 (fun e => hne (Option.some.inj e))
    · intro w' h1
      have hne : w ≠ w' := by
        rcases h1 with h1 | h1 <;> omega
      rw [hmsg, if_neg hne]
      exact inv.fresh w' h1
  · have hhold : (dispatch tiles s w).holding = s.holding := by
      rw [dispatch_holding, dif_neg h]
    have hmsg : ∀ w', (dispatch tiles s w).msgsTo w' =
        if w = w' then s.msgsTo w' ++ [Msg.done] else s.msgsTo w' := by
      intro w'
      rw [dispatch_msgsTo, dif_neg h]
    refine ⟨?_, ?_, ?_, ?_, ?_, ?_, fun w' hw' => absurd hw' (by simp)⟩
    · rw [hhold]
      exact inv.nodup
    · rw [hhold]
      exact inv.range
    · intro w' hw'
      rw [hhold] at hw'
      have hne : w ≠ w' := fun e => hnotin (e ▸ hw')
      rw [hmsg, if_neg hne]
      exact inv.busy w' hw'
    · intro w' hw' h1 h2 _
      rw [hhold] at hw'
      rw [hmsg]
      by_cases hne : w = w'
      · rw [if_pos hne, ← hne]
        exact ⟨s.msgsTo w, rfl, hnodone⟩
      · rw [if_neg hne]
        exact inv.idle w' hw' h1 h2 (fun e => hne (Option.some.inj e))
    · intro w' h1 h2 _
      rw [hmsg]
      by_cases hne : w = w'
      · rw [if_pos hne, ← hne, (hbey (hne ▸ h1)).1]
        rfl
      · rw [if_neg hne]
        exact inv.beyond w' h1 h2 (fun e => hne (Option.some.inj e))
    · intro w' h1
      have hne : w ≠ w' := by
        rcases h1 with h1 | h1 <;> omega
      rw [hmsg, if_neg hne]
      exact inv.fresh w' h1

theorem erase_fst {l : List (Nat × Tile)} {a : Nat} {b : Tile}
    (hnd : (l.map Prod.fst).Nodup) (hmem : (a, b) ∈ l) :
    ((l.erase (a, b)).map Prod.fst).Nodup ∧ a ∉ (l.erase (a, b)).map Prod.fst ∧
      (∀ w, w ∈ (l.erase (a, b)).map Prod.fst → w ∈ l.map Prod.fst) ∧
      (∀ w, w ∈ l.map Prod.fst → w ≠ a → w ∈ (l.erase (a, b)).map Prod.fst) := by
  obtain ⟨l₁, l₂, _, h₂, h₃⟩ := List.exists_erase_eq hmem
  rw [h₃]
  rw [h₂] at hnd
  simp only [List.map_append, List.map_cons] at hnd ⊢
  have hnd' := List.nodup_middle.mp hnd
  rw [List.nodup_cons] at hnd'
  refine ⟨hnd'.2, hnd'.1, ?_, ?_⟩
  · intro w hw
    rw [h₂]
    simp only [List.map_append, List.map_cons, List.mem_append, List.mem_cons] at hw ⊢
    rcases hw with hw | hw
    · exact Or.inl hw
    · exact Or.inr (Or.inr hw)
  · intro w hw hne
    rw [h₂] at hw
    simp only [List.map_append, List.map_cons, List.mem_append, List.mem_cons] at hw ⊢
    rcases hw with hw | hw | hw
    · exact Or.inl hw
    · exact absurd hw hne
    · exact Or.inr hw

theorem erase_stop (n k : Nat) (s : Coord) (src : Nat) (t : Tile)
    (inv : StopInv n k s none) (hmem : (src, t) ∈ s.holding) :
    StopInv n k
      { s with
        tiles_received := s.tiles_received + 1
        recvs := s.recvs ++ [(src, t)]
        holding := s.holding.erase (src, t) } (some src) := by
  obtain ⟨e1, e2, e3, e4⟩ := erase_fst inv.nodup hmem
  have hsrc : src ∈ s.holding.map Prod.fst := List.mem_map.mpr ⟨(src, t), hmem, rfl⟩
  refine ⟨e1, fun w hw => inv.range w (e3 w hw), fun w hw => inv.busy w (e3 w hw), ?_, ?_,
    inv.fresh, ?_⟩
  · intro w hw h1 h2 hp
    have hne : w ≠ src := fun e => hp (e ▸ rfl)
    exact inv.idle w (fun hin => hw (e4 w hin hne)) h1 h2 (by simp)
  · intro w h1 h2 _
    exact inv.beyond w h1 h2 (by simp)
  · intro w hw
    have hws : w = src := (Option.some.inj hw).symm
    subst hws
    refine ⟨(inv.range w hsrc).1, (inv.range w hsrc).2, e2, inv.busy w hsrc, ?_⟩
    intro hn
    have hb := inv.beyond w hn (inv.range w hsrc).2 (by simp)
    have := inv.busy w hsrc
    rw [hb] at this
    exact absurd (List.mem_singleton.mpr rfl) this

theorem receive_stop (tiles : List Tile) (k : Nat) (s : Coord) (src : Nat) (t : Tile)
    (inv : StopInv tiles.length k s none) (hmem : (src, t) ∈ s.holding) :
    StopInv tiles.length k (receive tiles s src t) none :=
  dispatch_stop tiles k _ src (erase_stop tiles.length k s src t inv hmem)

theorem init_stop (n : Nat) : StopInv n 0 Coord.init none := by
  refine ⟨List.nodup_nil, fun w hw => absurd hw (by simp [Coord.init]),
    fun w hw => absurd hw (by simp [Coord.init]), ?_, ?_, fun w _ => rfl,
    fun w hw => absurd hw (by simp)⟩
  · intro w _ h1 h2 _
    omega
  · intro w _ h2 _
    omega

theorem next_stop (n k : Nat) (s : Coord) (inv : StopInv n k s none)
    (hnext : s.next_tile = min k n) : StopInv n (k + 1) s (some (k + 1)) := by
  refine ⟨inv.nodup, fun w hw => ⟨(inv.range w hw).1, Nat.le_succ_of_le (inv.range w hw).2⟩,
    inv.busy, ?_, ?_, ?_, ?_⟩
  · intro w hw h1 h2 hp
    have hne : w ≠ k + 1 := fun e => hp (e ▸ rfl)
    exact inv.idle w hw h1 (by omega) (by simp)
  · intro w h1 h2 hp
    have hne : w ≠ k + 1 := fun e => hp (e ▸ rfl)
    exact inv.beyond w h1 (by omega) (by simp)
  · intro w hw
    exact inv.fresh w (by omega)
  · intro w hw
    have hws : w = k + 1 := (Option.some.inj hw).symm
    subst hws
    have hf := inv.fresh (k + 1) (Or.inr (Nat.lt_succ_self k))
    refine ⟨by omega, le_refl _, ?_, ?_, ?_⟩
    · intro hin
      have := (inv.range _ hin).2
      omega
    · rw [hf]
      simp
    · intro hn
      refine ⟨hf, ?_⟩
      rw [hnext]
      omega

theorem foldl_dispatch_stop (tiles : List Tile) :
    ∀ (k : Nat),
      StopInv tiles.length k ((List.range' 1 k).foldl (dispatch tiles) Coord.init) none ∧
      ((List.range' 1 k).foldl (dispatch tiles) Coord.init).next_tile = min k tiles.length := by
  intro k
  induction k with
  | zero => exact ⟨init_stop tiles.length, by simp [Coord.init]⟩
  | succ k ih =>
    rw [List.range'_concat, List.foldl_append]
    simp only [List.foldl_cons, List.foldl_nil]
    have hk : 1 + 1 * k = k + 1 := by omega
    rw [hk]
    refine ⟨?_, ?_⟩
    · exact dispatch_stop tiles (k + 1) _ (k + 1) (next_stop tiles.length k _ ih.1 ih.2)
    · rw [dispatch_next, ih.2]
      split_ifs <;> omega

theorem runLoop_stop (tiles : List Tile) (k : Nat) :
    ∀ (order : List Nat) (s s' : Coord), StopInv tiles.length k s none →
      runLoop tiles s order = some s' → StopInv tiles.length k s' none := by
  intro order
  induction order with
  | nil =>
    intro s s' inv h
    simp only [runLoop, Option.some.injEq] at h
    subst h
    exact inv
  | cons src rest ih =>
    intro s s' inv h
    simp only [runLoop] at h
    split at h
    · rename_i s1 h1
      obtain ⟨_, t, hmem, rfl⟩ := recvStep_some tiles s s1 src h1
      exact ih _ s' (receive_stop tiles k s src t inv hmem) h
    · exact absurd h (by simp)

/-! ## Seeds: auxiliary facts -/

theorem mul_10007_injective (t1 t2 : Int)
    (h : (t1 * 10007) % 4294967296 = (t2 * 10007) % 4294967296) :
    t1 % 4294967296 = t2 % 4294967296 := by
  have hd : (4294967296 : Int) ∣ t2 * 10007 - t1 * 10007 := Int.ModEq.dvd h
  obtain ⟨q, hq⟩ := hd
  have hz : t2 - t1 = 4294967296 * (q * 2942140583 - 6855 * (t2 - t1)) := by
    linear_combination 2942140583 * hq
  clear h hq
  generalize q * 2942140583 - 6855 * (t2 - t1) = z at hz
  omega

theorem workerSeed_lt (tile_id : Int) (rank : Nat) : workerSeed tile_id rank < 4294967296 := by
  unfold workerSeed
  have h1 : ((tile_id * 10007) % 4294967296).toNat < 2 ^ 32 := by
    have := Int.emod_lt_of_pos (tile_id * 10007) (by norm_num : (0 : Int) < 4294967296)
    generalize (tile_id * 10007) % 4294967296 = u at this ⊢
    omega
  have h2 : (((rank : Int) + 12345) % 4294967296).toNat < 2 ^ 32 := by omega
  exact Nat.xor_lt_two_pow h1 h2

/-! ## Camera: auxiliary facts -/

theorem sqrt26_pos : 0 < Real.sqrt 26 := Real.sqrt_pos.mpr (by norm_num)

theorem sqrt26_sq : Real.sqrt 26 * Real.sqrt 26 = 26 := Real.mul_self_sqrt (by norm_num)

theorem camera_dir_eq :
    camera_dir Real.sqrt = (⟨0, -1 / Real.sqrt 26, -5 / Real.sqrt 26⟩ : Vec3 ℝ) := by
  have h : ((⟨0, 1, 0⟩ : Vec3 ℝ) - camera_pos).dot ((⟨0, 1, 0⟩ : Vec3 ℝ) - camera_pos) = 26 := by
    simp only [Vec3.dot, camera_pos, Vec3.sub_x, Vec3.sub_y, Vec3.sub_z]
    norm_num
  unfold camera_dir Vec3.normalize
  rw [h]
  show (⟨_, _, _⟩ : Vec3 ℝ) = _
  simp only [camera_pos, Vec3.sub_x, Vec3.sub_y, Vec3.sub_z]
  norm_num

theorem camera_right_eq : camera_right Real.sqrt = (⟨1, 0, 0⟩ : Vec3 ℝ) := by
  have hs := sqrt26_pos
  have hc : (camera_dir Real.sqrt).cross (⟨0, 1, 0⟩ : Vec3 ℝ) = ⟨5 / Real.sqrt 26, 0, 0⟩ := by
    rw [camera_dir_eq]
    simp only [Vec3.cross]
    norm_num
    ring
  have hd : (⟨5 / Real.sqrt 26, 0, 0⟩ : Vec3 ℝ).dot ⟨5 / Real.sqrt 26, 0, 0⟩ =
      (5 / Real.sqrt 26) * (5 / Real.sqrt 26) := by
    simp only [Vec3.dot]
    ring
  unfold camera_right Vec3.normalize
  rw [hc, hd, Real.sqrt_mul_self (by positivity)]
  show (⟨_, _, _⟩ : Vec3 ℝ) = _
  have h5 : (5 : ℝ) / Real.sqrt 26 ≠ 0 := by positivity
  simp only [div_self h5, zero_div]

theorem cam_up_eq :
    cam_up Real.sqrt = (⟨0, 5 / Real.sqrt 26, -1 / Real.sqrt 26⟩ : Vec3 ℝ) := by
  have hs := sqrt26_pos
  have hq := sqrt26_sq
  have hc : (camera_right Real.sqrt).cross (camera_dir Real.sqrt) =
      (⟨0, 5 / Real.sqrt 26, -1 / Real.sqrt 26⟩ : Vec3 ℝ) := by
    rw [camera_dir_eq, camera_right_eq]
    simp only [Vec3.cross]
    norm_num
    ring
  have hd : (⟨0, 5 / Real.sqrt 26, -1 / Real.sqrt 26⟩ : Vec3 ℝ).dot
      ⟨0, 5 / Real.sqrt 26, -1 / Real.sqrt 26⟩ = 1 := by
    simp only [Vec3.dot]
    field_simp
    nlinarith
  unfold cam_up Vec3.normalize
  rw [hc, hd, Real.sqrt_one]
  show (⟨_, _, _⟩ : Vec3 ℝ) = _
  simp only [div_one]

theorem camera_orthonormal :
    (camera_dir Real.sqrt).dot (camera_dir Real.sqrt) = 1 ∧
      (camera_right Real.sqrt).dot (camera_right Real.sqrt) = 1 ∧
      (cam_up Real.sqrt).dot (cam_up Real.sqrt) = 1 ∧
      (camera_dir Real.sqrt).dot (camera_right Real.sqrt) = 0 ∧
      (camera_dir Real.sqrt).dot (cam_up Real.sqrt) = 0 ∧
      (camera_right Real.sqrt).dot (cam_up Real.sqrt) = 0 := by
  have hs := sqrt26_pos
  have hq := sqrt26_sq
  rw [camera_dir_eq, camera_right_eq, cam_up_eq]
  simp only [Vec3.dot]
  refine ⟨?_, ?_, ?_, ?_, ?_, ?_⟩
  · field_simp
    nlinarith
  · norm_num
  · field_simp
    nlinarith
  · norm_num
  · field_simp
  · norm_num

theorem combo_dot (f r u : Vec3 ℝ) (a b : ℝ) (hff : f.dot f = 1) (hrr : r.dot r = 1)
    (huu : u.dot u = 1) (hfr : f.dot r = 0) (hfu : f.dot u = 0) (hru : r.dot u = 0) :
    (f + r * a + u * b).dot (f + r * a + u * b) = 1 + a * a + b * b := by
  simp only [Vec3.dot, Vec3.add_x, Vec3.add_y, Vec3.add_z, Vec3.mul_x, Vec3.mul_y,
    Vec3.mul_z] at *
  linear_combination hff + a * a * hrr + b * b * huu + 2 * a * hfr + 2 * b * hfu +
    2 * a * b * hru

theorem rayDir_unit (width height x y : Int) :
    (rayDir Real.sqrt Real.tan Real.pi width height x y).dot
      (rayDir Real.sqrt Real.tan Real.pi width height x y) = 1 := by
  obtain ⟨h1, h2, h3, h4, h5, h6⟩ := camera_orthonormal
  unfold rayDir
  simp only
  apply normalize_dot_self
  rw [combo_dot _ _ _ _ _ h1 h2 h3 h4 h5 h6]
  exact add_pos_of_pos_of_nonneg (add_pos_of_pos_of_nonneg one_pos (mul_self_nonneg _))
    (mul_self_nonneg _)

/-! ## The single-sphere example: auxiliary facts -/

theorem fovScale_eq : fovScale Real.tan Real.pi = 1 / Real.sqrt 3 := by
  unfold fovScale
  have h : (60.0 * 0.5 : ℝ) * Real.pi / 180.0 = Real.pi / 6 := by
    norm_num
    ring
  rw [h, Real.tan_pi_div_six]

theorem rayDir_two_two (x y : Int) :
    rayDir Real.sqrt Real.tan Real.pi 2 2 x y =
      Vec3.normalize Real.sqrt (camera_dir Real.sqrt +
        camera_right Real.sqrt * (((x : ℝ) - 1 / 2) / Real.sqrt 3) +
        cam_up Real.sqrt * ((1 / 2 - (y : ℝ)) / Real.sqrt 3)) := by
  unfold rayDir
  simp only [fovScale_eq]
  have h1 : (2 * (((x : ℝ) + 0.5) / ((2 : Int) : ℝ)) - 1) * (((2 : Int) : ℝ) / ((2 : Int) : ℝ)) *
      (1 / Real.sqrt 3) = ((x : ℝ) - 1 / 2) / Real.sqrt 3 := by
    push_cast
    norm_num
    ring
  have h2 : (1 - 2 * (((y : ℝ) + 0.5) / ((2 : Int) : ℝ))) * (1 / Real.sqrt 3) =
      (1 / 2 - (y : ℝ)) / Real.sqrt 3 := by
    push_cast
    norm_num
    ring
  rw [h1, h2]

theorem disc_scale (o v : Vec3 ℝ) (s : Sphere ℝ) (L : ℝ) (hL : L ≠ 0) :
    quadDisc o (v / L) s = quadDisc o v s / (L * L) := by
  simp only [quadDisc, quadA, quadB, quadC, Vec3.dot, Vec3.sub_x, Vec3.sub_y, Vec3.sub_z,
    Vec3.div_x, Vec3.div_y, Vec3.div_z]
  field_simp

theorem miss_of_disc (o v : Vec3 ℝ) (s : Sphere ℝ) (hv : 0 < v.dot v)
    (h : quadDisc o v s < 0) : intersect_sphere Real.sqrt o (Vec3.normalize Real.sqrt v) s = none := by
  have hL : 0 < Real.sqrt (v.dot v) := Real.sqrt_pos.mpr hv
  have hd : quadDisc o (Vec3.normalize Real.sqrt v) s < 0 := by
    unfold Vec3.normalize
    rw [disc_scale o v s _ (ne_of_gt hL)]
    exact div_neg_of_neg_of_pos h (mul_pos hL hL)
  rw [intersect_sphere_eq, if_pos hd]

theorem example_disc (col : Color) (px py : ℝ) (hpx : px * px = 1 / 12)
    (hpy : py * py = 1 / 12) :
    quadDisc camera_pos
      (camera_dir Real.sqrt + camera_right Real.sqrt * px + cam_up Real.sqrt * py)
      ⟨⟨0, 0, 0⟩, 1, col⟩ < 0 := by
  obtain ⟨h1, h2, h3, h4, h5, h6⟩ := camera_orthonormal
  have hA := combo_dot _ _ _ px py h1 h2 h3 h4 h5 h6
  have hs := sqrt26_pos
  have hq := sqrt26_sq
  have hB : ((camera_pos : Vec3 ℝ) - ⟨0, 0, 0⟩).dot
      (camera_dir Real.sqrt + camera_right Real.sqrt * px + cam_up Real.sqrt * py) =
      (-27 + 5 * py) / Real.sqrt 26 := by
    rw [camera_dir_eq, camera_right_eq, cam_up_eq]
    simp only [camera_pos, Vec3.dot, Vec3.sub_x, Vec3.sub_y, Vec3.sub_z, Vec3.add_x, Vec3.add_y,
      Vec3.add_z, Vec3.mul_x, Vec3.mul_y, Vec3.mul_z]
    ring
  have hC : ((camera_pos : Vec3 ℝ) - ⟨0, 0, 0⟩).dot ((camera_pos : Vec3 ℝ) - ⟨0, 0, 0⟩) = 29 := by
    simp only [camera_pos, Vec3.dot, Vec3.sub_x, Vec3.sub_y, Vec3.sub_z]
    norm_num
  simp only [quadDisc, quadA, quadB, quadC]
  rw [hA, hB, hC, hpx, hpy]
  have e : 2 * ((-27 + 5 * py) / Real.sqrt 26) * (2 * ((-27 + 5 * py) / Real.sqrt 26)) =
      4 * ((-27 + 5 * py) * (-27 + 5 * py)) / 26 := by
    rw [← hq]
    field_simp
    ring
  rw [e]
  have hb : -(3 / 10 : ℝ) < py := by nlinarith
  norm_num
  nlinarith

theorem example_pixel_miss (col : Color) (x y : Int) (hx : x = 0 ∨ x = 1) (hy : y = 0 ∨ y = 1) :
    intersect_sphere Real.sqrt camera_pos (rayDir Real.sqrt Real.tan Real.pi 2 2 x y)
      ⟨⟨0, 0, 0⟩, 1, col⟩ = none := by
  have h3 : Real.sqrt 3 * Real.sqrt 3 = 3 := Real.mul_self_sqrt (by norm_num)
  have h3p : 0 < Real.sqrt 3 := Real.sqrt_pos.mpr (by norm_num)
  have hpx : (((x : ℝ) - 1 / 2) / Real.sqrt 3) * (((x : ℝ) - 1 / 2) / Real.sqrt 3) = 1 / 12 := by
    rw [div_mul_div_comm, h3]
    rcases hx with rfl | rfl <;> norm_num
  have hpy : ((1 / 2 - (y : ℝ)) / Real.sqrt 3) * ((1 / 2 - (y : ℝ)) / Real.sqrt 3) = 1 / 12 := by
    rw [div_mul_div_comm, h3]
    rcases hy with rfl | rfl <;> norm_num
  obtain ⟨h1, h2, h3, h4, h5, h6⟩ := camera_orthonormal
  rw [rayDir_two_two]
  apply miss_of_disc
  · rw [combo_dot _ _ _ _ _ h1 h2 h3 h4 h5 h6]
    exact add_pos_of_pos_of_nonneg (add_pos_of_pos_of_nonneg one_pos (mul_self_nonneg _))
      (mul_self_nonneg _)
  · exact example_disc col _ _ hpx hpy

theorem single_sphere_sky (s : Sphere ℝ) (o d : Vec3 ℝ)
    (h : intersect_sphere Real.sqrt o d s = none) :
    basePixel Real.sqrt ⟨[s], []⟩ o d = (skyColor d, DBL_MAX) := by
  simp only [basePixel, nearestHit, scanSpheres, scanPlanes, h]

theorem single_sphere_lit (s : Sphere ℝ) (o d : Vec3 ℝ) (t : ℝ)
    (h : intersect_sphere Real.sqrt o d s = some t) (ht : t < DBL_MAX) :
    basePixel Real.sqrt ⟨[s], []⟩ o d =
      (shade s.color (ambient + (1 - ambient) *
        max 0 ((hitNormal Real.sqrt o d t s).dot (-sunlight_dir Real.sqrt))), t) := by
  simp only [basePixel, nearestHit, scanSpheres, scanPlanes, h, if_pos ht, findFloor,
    shadowBySpheres, hitNormal]
  simp

theorem example_hit (col : Color) :
    intersect_sphere Real.sqrt ⟨0, 0, 5⟩ ⟨0, 0, -1⟩ ⟨⟨0, 0, 0⟩, 1, col⟩ = some 4 := by
  have hd : quadDisc (⟨0, 0, 5⟩ : Vec3 ℝ) ⟨0, 0, -1⟩ ⟨⟨0, 0, 0⟩, 1, col⟩ = 4 := by
    simp only [quadDisc, quadA, quadB, quadC, Vec3.dot, Vec3.sub_x, Vec3.sub_y, Vec3.sub_z]
    norm_num
  have hb : quadB (⟨0, 0, 5⟩ : Vec3 ℝ) ⟨0, 0, -1⟩ ⟨⟨0, 0, 0⟩, 1, col⟩ = -10 := by
    simp only [quadB, Vec3.dot, Vec3.sub_x, Vec3.sub_y, Vec3.sub_z]
    norm_num
  have ha : quadA (⟨0, 0, -1⟩ : Vec3 ℝ) = 1 := by
    simp only [quadA, Vec3.dot]
    norm_num
  rw [intersect_sphere_eq, hd, hb, ha, sqrt_four]
  norm_num

theorem four_lt_DBL_MAX : (4 : ℝ) < DBL_MAX := by
  unfold DBL_MAX
  norm_num

/-! ## Tile identifiers: auxiliary facts -/

theorem tileRow_shape (N T y : Int) :
    ∀ (fuel : Nat) (x id : Int) (row : List Tile) (id' : Int),
      tileRow N T y fuel x id = some (row, id') →
      N ≤ x + row.length * T ∧
        ∀ (k : Nat) (h : k < row.length),
          row[k] = ⟨id + k, x + k * T, y, min T (N - (x + k * T)), min T (N - y)⟩ ∧
            x + k * T < N := by
  intro fuel
  induction fuel with
  | zero =>
    intro x id row id' h
    unfold tileRow at h
    split_ifs at h with hx
    simp only [Option.some.injEq, Prod.mk.injEq] at h
    obtain ⟨rfl, -⟩ := h
    refine ⟨by simpa using not_lt.mp hx, fun k hk => absurd hk (by simp)⟩
  | succ fuel ih =>
    intro x id row id' h
    unfold tileRow at h
    split_ifs at h with hx
    · cases hr : tileRow N T y fuel (x + T) (id + 1) with
      | none => rw [hr] at h; exact absurd h (by simp)
      | some p =>
        obtain ⟨rest, id''⟩ := p
        rw [hr] at h
        simp only [Option.some.injEq, Prod.mk.injEq] at h
        obtain ⟨rfl, -⟩ := h
        obtain ⟨h1, h2⟩ := ih _ _ _ _ hr
        refine ⟨?_, ?_⟩
        · simp only [List.length_cons]
          push_cast
          linarith
        · intro k hk
          cases k with
          | zero => simpa using hx
          | succ k =>
            simp only [List.length_cons, Nat.succ_lt_succ_iff] at hk
            obtain ⟨e1, e2⟩ := h2 k hk
            simp only [List.getElem_cons_succ]
            rw [e1]
            push_cast
            have e : x + T + (k : Int) * T = x + ((k : Int) + 1) * T := by ring
            rw [e] at e2 ⊢
            refine ⟨?_, e2⟩
            congr 1
            ring
    · simp only [Option.some.injEq, Prod.mk.injEq] at h
      obtain ⟨rfl, -⟩ := h
      refine ⟨by simpa using not_lt.mp hx, fun k hk => absurd hk (by simp)⟩

theorem ceil_unique (N T : Int) (hT : 0 < T) (L : Nat) (h1 : N ≤ (L : Int) * T)
    (h2 : ∀ k : Nat, k < L → (k : Int) * T < N) : L = ((N + T - 1) / T).toNat := by
  cases L with
  | zero =>
    have : (N + T - 1) / T < 1 := Int.ediv_lt_of_lt_mul hT (by simp at h1; linarith)
    omega
  | succ m =>
    have h3 := h2 m (Nat.lt_succ_self m)
    push_cast at h1
    have ha : ((m : Int) + 1) ≤ (N + T - 1) / T :=
      Int.le_ediv_of_mul_le hT (by linarith)
    have hb : (N + T - 1) / T < (m : Int) + 2 :=
      Int.ediv_lt_of_lt_mul hT (by linarith)
    omega

theorem ceil_div_eq (N T : Int) (hT : 0 < T) : ⌈(N : ℚ) / (T : ℚ)⌉ = (N + T - 1) / T := by
  have hTq : (0 : ℚ) < (T : ℚ) := by exact_mod_cast hT
  rw [Int.ceil_eq_iff]
  have h1 : (N + T - 1) / T * T ≤ N + T - 1 := Int.ediv_mul_le _ (ne_of_gt hT)
  have h2 : N + T - 1 < ((N + T - 1) / T + 1) * T := Int.lt_ediv_add_one_mul_self _ hT
  constructor
  · rw [lt_div_iff₀ hTq]
    have : ((N + T - 1) / T - 1) * T < N := by linarith
    exact_mod_cast this
  · rw [div_le_iff₀ hTq]
    have : N ≤ (N + T - 1) / T * T := by linarith
    exact_mod_cast this

theorem tileRows_shape (N T : Int) (hT : 0 < T) (rowFuel : Nat) (c : Nat)
    (hc : c = ((N + T - 1) / T).toNat) :
    ∀ (fuel : Nat) (y id : Int) (tiles : List Tile),
      tileRows N T rowFuel fuel y id = some tiles →
      ∃ r : Nat, tiles.length = r * c ∧ N ≤ y + (r : Int) * T ∧
        (∀ j : Nat, j < r → y + (j : Int) * T < N) ∧
        ∀ (i : Nat) (h : i < tiles.length),
          tiles[i] = ⟨id + i, ((i % c : Nat) : Int) * T, y + ((i / c : Nat) : Int) * T,
            min T (N - ((i % c : Nat) : Int) * T),
            min T (N - (y + ((i / c : Nat) : Int) * T))⟩ := by
  intro fuel
  induction fuel with
  | zero =>
    intro y id tiles h
    unfold tileRows at h
    split_ifs at h with hy
    simp only [Option.some.injEq] at h
    subst h
    exact ⟨0, by simp, by simpa using not_lt.mp hy, fun j hj => absurd hj (by simp),
      fun i hi => absurd hi (by simp)⟩
  | succ fuel ih =>
    intro y id tiles h
    unfold tileRows at h
    split_ifs at h with hy
    · cases hr : tileRow N T y rowFuel 0 id with
      | none => rw [hr] at h; exact absurd h (by simp)
      | some p =>
        obtain ⟨row, id'⟩ := p
        rw [hr] at h
        simp only at h
        cases hrest : tileRows N T rowFuel fuel (y + T) id' with
        | none => rw [hrest] at h; exact absurd h (by simp)
        | some rest =>
          rw [hrest] at h
          simp only [Option.some.injEq] at h
          subst h
          obtain ⟨hid', -⟩ := tileRow_ids N T y rowFuel 0 id row id' hr
          obtain ⟨hN, hrow⟩ := tileRow_shape N T y rowFuel 0 id row id' hr
          have hlen : row.length = c := by
            rw [hc]
            apply ceil_unique N T hT
            · linarith
            · intro k hk
              have := (hrow k hk).2
              linarith
          obtain ⟨r, hr1, hr2, hr3, hr4⟩ := ih _ _ _ hrest
          refine ⟨r + 1, ?_, ?_, ?_, ?_⟩
          · rw [List.length_append, hlen, hr1]
            ring
          · push_cast
            linarith
          · intro j hj
            cases j with
            | zero => simpa using hy
            | succ j =>
              have := hr3 j (by omega)
              push_cast
              linarith
          · intro i hi
            by_cases hic : i < c
            · have hi' : i < row.length := by omega
              rw [List.getElem_append_left hi', (hrow i hi').1, Nat.mod_eq_of_lt hic,
                Nat.div_eq_of_lt hic]
              congr 1 <;> simp
            · have hci : c ≤ i := not_lt.mp hic
              have hcpos : 0 < c := by
                rw [List.length_append, hlen] at hi
                by_contra h0
                have : c = 0 := by omega
                subst this
                rw [Nat.mul_zero] at hr1
                omega
              have hi' : row.length ≤ i := by omega
              rw [List.getElem_append_right hi']
              have hi2 : i - row.length < rest.length := by
                rw [List.length_append] at hi
                omega
              rw [hr4 _ hi2, hlen, hid', hlen]
              have hm : (i - c) % c = i % c := by
                conv_rhs => rw [← Nat.sub_add_cancel hci]
                simp
              have hd : (i - c) / c + 1 = i / c := by
                conv_rhs => rw [← Nat.sub_add_cancel hci]
                rw [Nat.add_div_right _ hcpos]
              rw [hm, ← hd]
              push_cast [Nat.cast_sub hci]
              congr 1 <;> ring_nf
    · simp only [Option.some.injEq] at h
      subst h
      exact ⟨0, by simp, by simpa using not_lt.mp hy, fun j hj => absurd hj (by simp),
        fun i hi => absurd hi (by simp)⟩

/-! ## Row bands: auxiliary facts -/

theorem snowHit_inline (o d : Vec3 ℝ) (closest_t : ℝ) (p : Vec3 ℝ) :
    snowHit o d closest_t p =
      if (p - o).dot d < 0 ∨ (p - o).dot d > 8.0 ∨ (p - o).dot d > closest_t then false
      else decide (((o + d * (p - o).dot d).x - p.x) * ((o + d * (p - o).dot d).x - p.x) +
        ((o + d * (p - o).dot d).y - p.y) * ((o + d * (p - o).dot d).y - p.y) +
        ((o + d * (p - o).dot d).z - p.z) * ((o + d * (p - o).dot d).z - p.z) <
          0.008 * 0.008) := rfl

theorem renderRow_eq_renderTileRow (width height : Int) (sc : Scene ℝ)
    (snowflakes : List (Vec3 ℝ)) (s : Int) :
    renderRow Real.sqrt Real.tan Real.pi width height sc snowflakes s =
      renderTileRow Real.sqrt Real.tan Real.pi width height sc snowflakes 0 s width := by
  funext out k
  unfold renderRow renderTileRow
  simp only [add_sub_cancel_left, zero_add]

theorem rngSeed_toNat (rank : Int) (h : 0 ≤ rank) :
    rngSeed ((rank.toNat : Nat) : Int) = rngSeed rank := by
  rw [Int.toNat_of_nonneg h]

theorem render_band (width height : Int) (sc : Scene ℝ) (snow : Nat → List (Vec3 ℝ))
    (rank size : Int) (hs : size ≠ 0) (out : List Color) :
    render Real.sqrt Real.tan Real.pi width height (some sc) snow rank size out =
      if (end_row height rank size - start_row height rank size) * width < 0 then none
      else
        some ((List.range (end_row height rank size - start_row height rank size).toNat).foldl
          (renderRow Real.sqrt Real.tan Real.pi width height sc (snow (rngSeed rank))
            (start_row height rank size))
          (resize out ((end_row height rank size - start_row height rank size) * width).toNat)) := by
  simp only [render, if_neg hs, end_row, start_row, rows_per_rank]

theorem band_facts (height size : Int) (hh : 0 ≤ height) (hs : 1 ≤ size) :
    0 ≤ rows_per_rank height size ∧ rows_per_rank height size * size ≤ height ∧
      height < (rows_per_rank height size + 1) * size := by
  unfold rows_per_rank
  rw [Int.tdiv_eq_ediv hh (by omega)]
  exact ⟨Int.ediv_nonneg hh (by omega), Int.ediv_mul_le _ (by omega),
    Int.lt_ediv_add_one_mul_self _ (by omega)⟩

theorem band_le (height size i : Int) (hh : 0 ≤ height) (hs : 1 ≤ size) (hi : 0 ≤ i)
    (hi' : i < size) : start_row height i size ≤ end_row height i size := by
  obtain ⟨h0, h1, -⟩ := band_facts height size hh hs
  simp only [end_row, start_row]
  generalize rows_per_rank height size = q at *
  split_ifs with hc
  · subst hc
    nlinarith
  · linarith

theorem band_next (height size i : Int) (hi' : i + 1 < size) :
    end_row height i size = start_row height (i + 1) size := by
  simp only [end_row, start_row]
  rw [if_neg (by omega)]
  ring

theorem band_disjoint (height size i j : Int) (hh : 0 ≤ height) (hs : 1 ≤ size)
    (hij : i < j) (hj : j < size) : end_row height i size ≤ start_row height j size := by
  obtain ⟨h0, -, -⟩ := band_facts height size hh hs
  simp only [end_row, start_row]
  rw [if_neg (by omega)]
  generalize rows_per_rank height size = q at *
  have : (i + 1) * q ≤ j * q := mul_le_mul_of_nonneg_right (by omega) h0
  linarith

theorem band_cover (height size y : Int) (hh : 0 ≤ height) (hs : 1 ≤ size) :
    (0 ≤ y ∧ y < height) ↔
      ∃ i, 0 ≤ i ∧ i < size ∧ start_row height i size ≤ y ∧ y < end_row height i size := by
  obtain ⟨h0, h1, h2⟩ := band_facts height size hh hs
  simp only [end_row, start_row]
  generalize rows_per_rank height size = q at *
  constructor
  · rintro ⟨hy0, hy1⟩
    by_cases hy : y < (size - 1) * q
    · have hq : 0 < q := by
        rcases lt_or_eq_of_le h0 with h | h
        · exact h
        · rw [← h] at hy
          simp at hy
          omega
      have hlt : y / q < size - 1 := Int.ediv_lt_of_lt_mul hq hy
      refine ⟨y / q, Int.ediv_nonneg hy0 h0, by omega, Int.ediv_mul_le _ (ne_of_gt hq), ?_⟩
      rw [if_neg (by omega)]
      have := Int.lt_ediv_add_one_mul_self y hq
      linarith
    · refine ⟨size - 1, by omega, by omega, not_lt.mp hy, ?_⟩
      rw [if_pos rfl]
      exact hy1
  · rintro ⟨i, hi0, hi1, hs1, hs2⟩
    have hiq : 0 ≤ i * q := mul_nonneg hi0 h0
    refine ⟨by linarith, ?_⟩
    split_ifs at hs2 with hc
    · exact hs2
    · have : (i + 1) * q ≤ size * q := mul_le_mul_of_nonneg_right (by omega) h0
      linarith

/-! ## Nearest-hit scan: the reported sphere is the first one at the minimum -/

theorem scanSpheres_first {K : Type} [LinearOrderedField K] (sqrt : K → K) (o d : Vec3 K) :
    ∀ (l : List (Sphere K)) (i : Nat) (h : Hit K),
      scanSpheres sqrt o d l i h = h ∨
        ((scanSpheres sqrt o d l i h).closest_t < h.closest_t ∧
          (scanSpheres sqrt o d l i h).hit_plane = none ∧
          ∃ k s, (scanSpheres sqrt o d l i h).hit_sphere = some (i + k, s) ∧ l[k]? = some s ∧
            intersect_sphere sqrt o d s = some (scanSpheres sqrt o d l i h).closest_t ∧
            ∀ j sj t', j < k → l[j]? = some sj → intersect_sphere sqrt o d sj = some t' →
              (scanSpheres sqrt o d l i h).closest_t < t') := by
  intro l
  induction l with
  | nil =>
    intro i h
    exact Or.inl rfl
  | cons s0 rest ih =>
    intro i h
    cases hi : intersect_sphere sqrt o d s0 with
    | none =>
      have hstep : scanSpheres sqrt o d (s0 :: rest) i h =
          scanSpheres sqrt o d rest (i + 1) h := by
        simp [scanSpheres, hi]
      rw [hstep]
      rcases ih (i + 1) h with h3 | ⟨hlt, hpl, k, s, hk1, hk2, hk3, hk4⟩
      · exact Or.inl h3
      · refine Or.inr ⟨hlt, hpl, k + 1, s, by rw [hk1]; congr 2; omega, by simpa using hk2, hk3, ?_⟩
        intro j sj t' hj hsj ht'
        cases j with
        | zero =>
          simp only [List.getElem?_cons_zero, Option.some.injEq] at hsj
          subst hsj
          rw [hi] at ht'
          exact absurd ht' (by simp)
        | succ j => exact hk4 j sj t' (by omega) (by simpa using hsj) ht'
    | some t0 =>
      by_cases hlt0 : t0 < h.closest_t
      · have hstep : scanSpheres sqrt o d (s0 :: rest) i h =
            scanSpheres sqrt o d rest (i + 1) ⟨t0, some (i, s0), none⟩ := by
          simp [scanSpheres, hi, hlt0]
        rw [hstep]
        rcases ih (i + 1) ⟨t0, some (i, s0), none⟩ with h3 | ⟨hlt, hpl, k, s, hk1, hk2, hk3, hk4⟩
        · rw [h3]
          exact Or.inr ⟨hlt0, rfl, 0, s0, rfl, by simp, hi,
            fun j _ _ hj => absurd hj (by simp)⟩
        · refine Or.inr ⟨lt_trans hlt hlt0, hpl, k + 1, s, by rw [hk1]; congr 2; omega,
            by simpa using hk2, hk3, ?_⟩
          intro j sj t' hj hsj ht'
          cases j with
          | zero =>
            simp only [List.getElem?_cons_zero, Option.some.injEq] at hsj
            subst hsj
            rw [hi] at ht'
            rw [← Option.some.inj ht']
            exact hlt
          | succ j => exact hk4 j sj t' (by omega) (by simpa using hsj) ht'
      · have hstep : scanSpheres sqrt o d (s0 :: rest) i h =
            scanSpheres sqrt o d rest (i + 1) h := by
          simp [scanSpheres, hi, hlt0]
        rw [hstep]
        rcases ih (i + 1) h with h3 | ⟨hlt, hpl, k, s, hk1, hk2, hk3, hk4⟩
        · exact Or.inl h3
        · refine Or.inr ⟨hlt, hpl, k + 1, s, by rw [hk1]; congr 2; omega, by simpa using hk2,
            hk3, ?_⟩
          intro j sj t' hj hsj ht'
          cases j with
          | zero =>
            simp only [List.getElem?_cons_zero, Option.some.injEq] at hsj
            subst hsj
            rw [hi] at ht'
            rw [← Option.some.inj ht']
            exact lt_of_lt_of_le hlt (not_lt.mp hlt0)
          | succ j => exact hk4 j sj t' (by omega) (by simpa using hsj) ht'

theorem two_sphere_hit :
    intersect_sphere Real.sqrt ⟨0, 0, 0⟩ ⟨0, 0, 1⟩ ⟨⟨0, 0, 2⟩, 1, ⟨0, 0, 200⟩⟩ = some 1 := by
  have hd : quadDisc (⟨0, 0, 0⟩ : Vec3 ℝ) ⟨0, 0, 1⟩ ⟨⟨0, 0, 2⟩, 1, ⟨0, 0, 200⟩⟩ = 4 := by
    simp only [quadDisc, quadA, quadB, quadC, Vec3.dot, Vec3.sub_x, Vec3.sub_y, Vec3.sub_z]
    norm_num
  have hb : quadB (⟨0, 0, 0⟩ : Vec3 ℝ) ⟨0, 0, 1⟩ ⟨⟨0, 0, 2⟩, 1, ⟨0, 0, 200⟩⟩ = -4 := by
    simp only [quadB, Vec3.dot, Vec3.sub_x, Vec3.sub_y, Vec3.sub_z]
    norm_num
  have ha : quadA (⟨0, 0, 1⟩ : Vec3 ℝ) = 1 := by
    simp only [quadA, Vec3.dot]
    norm_num
  rw [intersect_sphere_eq, hd, hb, ha, sqrt_four]
  norm_num

/-! ## The worker's renderer: auxiliary facts -/

theorem generateTiles_sixtyfour : generateTiles 64 64 32 = some tiles64 := by decide

theorem renderTile_entries (width height : Int) (sc : Scene ℝ) (snow : Nat → List (Vec3 ℝ))
    (x0 y0 w h : Int) (seed : Nat) (out : List Color) (hw : 0 ≤ w) (hh : 0 ≤ h) :
    ∃ res, renderTile Real.sqrt Real.tan Real.pi width height (some sc) snow x0 y0 w h seed
        out = some res ∧
      (res.length : Int) = w * h ∧
      (∀ tx ty : Nat, (tx : Int) < w → (ty : Int) < h →
        res[((ty : Int) * w + (tx : Int)).toNat]? =
          some (pixelColor Real.sqrt Real.tan Real.pi width height sc (snow (rngSeed seed))
            (x0 + tx) (y0 + ty))) := by
  have hwh : 0 ≤ w * h := mul_nonneg hw hh
  have hlen : ((resize out (w * h).toNat).length : Int) = w * (h.toNat : Int) := by
    rw [resize_length, Int.toNat_of_nonneg hwh, Int.toNat_of_nonneg hh]
  obtain ⟨r1, r2⟩ := rows_spec w hw h.toNat
    (fun ty tx => pixelColor Real.sqrt Real.tan Real.pi width height sc (snow (rngSeed seed))
      (x0 + tx) (y0 + ty)) (resize out (w * h).toNat) hlen h.toNat (le_refl _)
  have hf : renderTileRow Real.sqrt Real.tan Real.pi width height sc (snow (rngSeed seed))
      x0 y0 w = fun (o' : List Color) (ty : Nat) => (List.range w.toNat).foldl
        (fun (o'' : List Color) (tx : Nat) => o''.set (((ty : Int) * w + (tx : Int)).toNat)
          (pixelColor Real.sqrt Real.tan Real.pi width height sc (snow (rngSeed seed))
            (x0 + tx) (y0 + ty))) o' := by
    funext o' ty
    rfl
  refine ⟨_, by rw [renderTile, if_neg (not_lt.mpr hwh)], ?_, ?_⟩
  · rw [hf, r1, resize_length, Int.toNat_of_nonneg hwh]
  · intro tx ty htx hty
    rw [hf]
    exact r2 ty tx (by omega) htx

theorem workerRender_length (N : Int) (sc : Scene ℝ) (snow : Nat → List (Vec3 ℝ))
    (x0 y0 w h : Int) (seed : Nat) (hw : 0 ≤ w) (hh : 0 ≤ h) :
    ((workerRender Real.sqrt Real.tan Real.pi N sc snow x0 y0 w h seed).length : Int) =
      w * h := by
  obtain ⟨res, h1, h2, -⟩ := renderTile_entries N N sc snow x0 y0 w h seed [] hw hh
  rw [workerRender, h1]
  exact h2

theorem workerRender_first (N : Int) (sc : Scene ℝ) (snow : Nat → List (Vec3 ℝ))
    (rank : Nat) (t : Tile) (hw : 0 < t.w) (hh : 0 < t.h) (buf : List Nat)
    (hbuf : workerResult (workerRender Real.sqrt Real.tan Real.pi N sc snow) rank t =
      some buf) :
    getI buf 0 = some (pixelColor Real.sqrt Real.tan Real.pi N N sc
      (snow (rngSeed (workerSeed t.id rank))) t.x0 t.y0).r := by
  obtain ⟨res, h1, h2, h3⟩ := renderTile_entries N N sc snow t.x0 t.y0 t.w t.h
    (workerSeed t.id rank) [] (le_of_lt hw) (le_of_lt hh)
  have h0 := h3 0 0 (by simpa using hw) (by simpa using hh)
  simp only [Nat.cast_zero, zero_mul, add_zero, Int.toNat_zero] at h0
  have hwh : 0 < t.w * t.h := mul_pos hw hh
  unfold workerResult tileBytes at hbuf
  rw [workerRender, h1] at hbuf
  simp only at hbuf
  rw [if_pos ⟨le_of_lt hwh, le_of_eq h2.symm⟩] at hbuf
  cases res with
  | nil =>
    simp at h2
    omega
  | cons c rest =>
    simp only [List.getElem?_cons_zero, Option.some.injEq] at h0
    obtain ⟨n, hn⟩ : ∃ n : Nat, (t.w * t.h).toNat = n + 1 := ⟨(t.w * t.h).toNat - 1, by omega⟩
    rw [hn, List.take_succ_cons, List.flatMap_cons] at hbuf
    rw [← Option.some.inj hbuf, ← h0]
    rfl

theorem empty_scene_base (o d : Vec3 ℝ) :
    basePixel Real.sqrt ⟨[], []⟩ o d = (skyColor d, DBL_MAX) := by
  simp only [basePixel, nearestHit, scanSpheres, scanPlanes]

theorem flake_on_ray_hit (o d : Vec3 ℝ) (hd : d.dot d = 1) :
    snowHit o d DBL_MAX (o + d * (1 : ℝ)) = true := by
  rw [snowHit_iff]
  have hproj : (o + d * (1 : ℝ) - o).dot d = 1 := by
    simp only [Vec3.dot, Vec3.add_x, Vec3.add_y, Vec3.add_z, Vec3.sub_x, Vec3.sub_y,
      Vec3.sub_z, Vec3.mul_x, Vec3.mul_y, Vec3.mul_z] at hd ⊢
    linarith
  rw [hproj]
  refine ⟨by norm_num, by norm_num, le_of_lt one_lt_DBL_MAX, ?_⟩
  simp only [Vec3.dot, Vec3.add_x, Vec3.add_y, Vec3.add_z, Vec3.sub_x, Vec3.sub_y,
    Vec3.sub_z, Vec3.mul_x, Vec3.mul_y, Vec3.mul_z]
  norm_num

theorem sky_not_white (d : Vec3 ℝ) (h1 : -1 < d.y) (h2 : d.y ≤ 1) : (skyColor d).r ≠ 255 := by
  have hv0 : ((135 : Int) : ℝ) ≤
      (1 - 0.5 * (d.y + 1.0)) * ((255 : Nat) : ℝ) + 0.5 * (d.y + 1.0) * ((135 : Nat) : ℝ) := by
    norm_num
    linarith
  have hv1 : (1 - 0.5 * (d.y + 1.0)) * ((255 : Nat) : ℝ) + 0.5 * (d.y + 1.0) * ((135 : Nat) : ℝ) <
      255 := by
    norm_num
    linarith
  obtain ⟨he, -, -⟩ := toUChar_truncInt _ 135 255 (by norm_num) (le_refl _) hv0
    (by exact_mod_cast le_of_lt hv1)
  have hlt : truncInt ((1 - 0.5 * (d.y + 1.0)) * ((255 : Nat) : ℝ) +
      0.5 * (d.y + 1.0) * ((135 : Nat) : ℝ)) < 255 := by
    unfold truncInt
    rw [if_pos (le_trans (by norm_num) hv0)]
    exact Int.floor_lt.mpr (by exact_mod_cast hv1)
  intro h
  have hr : (skyColor d).r = toUChar (truncInt ((1 - 0.5 * (d.y + 1.0)) * ((255 : Nat) : ℝ) +
      0.5 * (d.y + 1.0) * ((135 : Nat) : ℝ))) := rfl
  rw [hr] at h
  rw [h] at he
  omega

theorem example_ray_y :
    -1 < (rayDir Real.sqrt Real.tan Real.pi 64 64 0 32).y ∧
      (rayDir Real.sqrt Real.tan Real.pi 64 64 0 32).y ≤ 1 := by
  have hu := rayDir_unit 64 64 0 32
  have hx : (rayDir Real.sqrt Real.tan Real.pi 64 64 0 32).x ≠ 0 := by
    obtain ⟨h1, h2, h3, h4, h5, h6⟩ := camera_orthonormal
    have h3p : 0 < Real.sqrt 3 := Real.sqrt_pos.mpr (by norm_num)
    unfold rayDir
    simp only [fovScale_eq]
    unfold Vec3.normalize
    rw [combo_dot _ _ _ _ _ h1 h2 h3 h4 h5 h6]
    simp only [Vec3.div_x, Vec3.add_x, Vec3.mul_x]
    rw [camera_dir_eq, camera_right_eq, cam_up_eq]
    simp only [zero_add, zero_mul, add_zero, one_mul]
    apply div_ne_zero
    · have : (2 * ((((0 : Int) : ℝ) + 0.5) / ((64 : Int) : ℝ)) - 1) *
          (((64 : Int) : ℝ) / ((64 : Int) : ℝ)) < 0 := by norm_num
      exact ne_of_lt (mul_neg_of_neg_of_pos this (by positivity))
    · apply ne_of_gt
      apply Real.sqrt_pos.mpr
      exact add_pos_of_pos_of_nonneg (add_pos_of_pos_of_nonneg one_pos (mul_self_nonneg _))
        (mul_self_nonneg _)
  simp only [Vec3.dot] at hu
  have hx2 : 0 < (rayDir Real.sqrt Real.tan Real.pi 64 64 0 32).x *
      (rayDir Real.sqrt Real.tan Real.pi 64 64 0 32).x := mul_self_pos.mpr hx
  constructor <;> nlinarith [mul_self_nonneg (rayDir Real.sqrt Real.tan Real.pi 64 64 0 32).z,
    mul_self_nonneg ((rayDir Real.sqrt Real.tan Real.pi 64 64 0 32).y + 1),
    mul_self_nonneg ((rayDir Real.sqrt Real.tan Real.pi 64 64 0 32).y - 1)]

theorem example_pixel_snow :
    (pixelColor Real.sqrt Real.tan Real.pi 64 64 ⟨[], []⟩
      (exampleSnow Real.sqrt Real.tan Real.pi 44622) 0 32).r = 255 := by
  have hhit := flake_on_ray_hit camera_pos (rayDir Real.sqrt Real.tan Real.pi 64 64 0 32)
    (rayDir_unit 64 64 0 32)
  simp only [pixelColor, exampleSnow, if_true, empty_scene_base, snowOverlay, hhit]

theorem example_pixel_clear :
    (pixelColor Real.sqrt Real.tan Real.pi 64 64 ⟨[], []⟩
      (exampleSnow Real.sqrt Real.tan Real.pi 44621) 0 32).r ≠ 255 := by
  have h : pixelColor Real.sqrt Real.tan Real.pi 64 64 ⟨[], []⟩
      (exampleSnow Real.sqrt Real.tan Real.pi 44621) 0 32 =
      skyColor (rayDir Real.sqrt Real.tan Real.pi 64 64 0 32) := by
    simp [pixelColor, exampleSnow, empty_scene_base, snowOverlay]
  rw [h]
  exact sky_not_white _ example_ray_y.1 example_ray_y.2

theorem example_byte (rank : Nat) (fb : List Nat) (s : Coord)
    (hall : ∀ p ∈ s.recvs, ∃ buf,
      workerResult (workerRender Real.sqrt Real.tan Real.pi 64 ⟨[], []⟩
        (exampleSnow Real.sqrt Real.tan Real.pi)) p.1 p.2 = some buf ∧
        RectHolds 64 fb p.2 buf)
    (hmem : (rank, (⟨2, 0, 32, 32, 32⟩ : Tile)) ∈ s.recvs) :
    getI fb 6144 = some (pixelColor Real.sqrt Real.tan Real.pi 64 64 ⟨[], []⟩
      (exampleSnow Real.sqrt Real.tan Real.pi (rngSeed (workerSeed 2 rank))) 0 32).r := by
  obtain ⟨buf, hbuf, hrect⟩ := hall _ hmem
  have h32 : (0 : Int) < 32 := by decide
  obtain ⟨v, hv1, hv2⟩ := hrect 0 0 0 (le_refl _) h32 (le_refl _) h32 (le_refl _) (by decide)
  have hfirst := workerRender_first 64 ⟨[], []⟩ (exampleSnow Real.sqrt Real.tan Real.pi) rank
    ⟨2, 0, 32, 32, 32⟩ (by decide) (by decide) buf hbuf
  have e1 : ((0 : Int) * (⟨2, 0, 32, 32, 32⟩ : Tile).w + 0) * 3 + 0 = 0 := by decide
  have e2 : (((⟨2, 0, 32, 32, 32⟩ : Tile).y0 + 0) * 64 + (⟨2, 0, 32, 32, 32⟩ : Tile).x0 + 0) * 3
      + 0 = 6144 := by decide
  rw [e1] at hv1
  rw [e2] at hv2
  rw [hv2, ← hv1, hfirst]

/-! ## Gather layout: auxiliary facts -/

theorem wrapInt_id (x : Int) (h0 : -2147483648 ≤ x) (h1 : x ≤ 2147483647) : wrapInt x = x := by
  unfold wrapInt
  omega

theorem gather_rows (N size q : Int) (hN : 0 ≤ N) (hN1 : N ≤ 2147483647) (hs : 1 ≤ size)
    (hs1 : size ≤ 2147483647) (hq : 0 ≤ q) (hqs : q * size ≤ N) (i : Int) :
    (if i = wrapInt (size - 1) then wrapInt (N - wrapInt (q * wrapInt (size - 1))) else q) =
        (if i = size - 1 then N - q * (size - 1) else q) ∧
      0 ≤ (if i = size - 1 then N - q * (size - 1) else q) ∧
      (if i = size - 1 then N - q * (size - 1) else q) ≤ N := by
  have hw : wrapInt (size - 1) = size - 1 := wrapInt_id _ (by omega) (by omega)
  have hq0 : 0 ≤ q * (size - 1) := mul_nonneg hq (by omega)
  have hq1 : q * (size - 1) ≤ N := by nlinarith
  have hqN : q ≤ N := by nlinarith
  rw [hw, wrapInt_id (q * (size - 1)) (by omega) (by omega),
    wrapInt_id (N - q * (size - 1)) (by omega) (by omega)]
  refine ⟨rfl, ?_, ?_⟩ <;> split_ifs <;> omega

theorem gather_count (N r : Int) (hN : 0 ≤ N) (hb : N * N * 3 ≤ 2147483647) (hr0 : 0 ≤ r)
    (hr1 : r ≤ N) : wrapInt (wrapInt (r * N) * 3) = r * N * 3 ∧ 0 ≤ r * N * 3 ∧
      r * N * 3 ≤ N * N * 3 := by
  have h0 : 0 ≤ r * N := mul_nonneg hr0 hN
  have h1 : r * N ≤ N * N := mul_le_mul_of_nonneg_right hr1 hN
  rw [wrapInt_id (r * N) (by omega) (by omega), wrapInt_id (r * N * 3) (by omega) (by omega)]
  omega

theorem gather_prefix (N size q : Int) (hN : 0 ≤ N) (hb : N * N * 3 ≤ 2147483647)
    (hs : 1 ≤ size) (hs1 : size ≤ 2147483647) (hq : 0 ≤ q) (hqs : q * size ≤ N) :
    ∀ k : Nat, k ≤ size.toNat →
      ∃ rc dp, (List.range k).foldlM (gatherStep N size q)
          (List.replicate size.toNat 0, List.replicate size.toNat 0) = some (rc, dp) ∧
        rc.length = size.toNat ∧ dp.length = size.toNat ∧
        ∀ j : Nat, j < k →
          rc[j]? = some ((if (j : Int) = size - 1 then N - q * (size - 1) else q) * N * 3) ∧
            dp[j]? = some ((j : Int) * q * N * 3) := by
  have hN1 : N ≤ 2147483647 := by nlinarith
  intro k
  induction k with
  | zero =>
    intro _
    exact ⟨_, _, rfl, by simp, by simp, fun j hj => absurd hj (by simp)⟩
  | succ k ih =>
    intro hk
    have hkS : (k : Int) + 1 ≤ size := by omega
    obtain ⟨rc, dp, hrun, hl1, hl2, hval⟩ := ih (by omega)
    have hk1 : k < rc.length := by omega
    have hk2 : k < dp.length := by omega
    obtain ⟨hrows, hr0, hr1⟩ := gather_rows N size q hN hN1 hs hs1 hq hqs (k : Int)
    obtain ⟨hcnt, -, -⟩ := gather_count N _ hN hb hr0 hr1
    rw [List.range_succ, List.foldlM_append, hrun]
    simp only [Option.bind_eq_bind, Option.some_bind, List.foldlM_cons, List.foldlM_nil,
      Option.pure_def]
    cases k with
    | zero =>
      refine ⟨rc.set 0 ((if ((0 : Nat) : Int) = size - 1 then N - q * (size - 1) else q) * N * 3),
        dp.set 0 0, ?_, by simp [hl1], by simp [hl2], ?_⟩
      · simp only [gatherStep, hk1, hk2, and_self, if_true, hrows, hcnt, Option.some_bind]
      · intro j hj
        have hj0 : j = 0 := by omega
        subst hj0
        rw [List.getElem?_set_self hk1, List.getElem?_set_self hk2]
        simp
    | succ m =>
      obtain ⟨hrm, hdm⟩ := hval m (Nat.lt_succ_self m)
      push_cast at hkS
      have hne : ¬ ((m : Nat) : Int) = size - 1 := by
        intro h
        linarith
      rw [if_neg hne] at hrm
      have hm0 : (0 : Int) ≤ (m : Int) := Int.ofNat_nonneg m
      have hmq1 : ((m : Int) + 1) * q ≤ (size - 1) * q :=
        mul_le_mul_of_nonneg_right (by linarith) hq
      have hsum : wrapInt ((m : Int) * q * N * 3 + q * N * 3) =
          (m : Int) * q * N * 3 + q * N * 3 := by
        have e : (m : Int) * q * N * 3 + q * N * 3 = (((m : Int) + 1) * q) * N * 3 := by ring
        have h1 : (((m : Int) + 1) * q) ≤ N := by nlinarith
        have h0 : 0 ≤ (((m : Int) + 1) * q) := mul_nonneg (by linarith) hq
        obtain ⟨-, g0, g1⟩ := gather_count N _ hN hb h0 h1
        rw [e]
        exact wrapInt_id _ (by linarith) (by linarith)
      refine ⟨rc.set (m + 1)
          ((if ((m + 1 : Nat) : Int) = size - 1 then N - q * (size - 1) else q) * N * 3),
        dp.set (m + 1) ((m : Int) * q * N * 3 + q * N * 3), ?_, by simp [hl1], by simp [hl2], ?_⟩
      · have hrm' : (rc.set (m + 1)
            ((if ((m + 1 : Nat) : Int) = size - 1 then N - q * (size - 1) else q) * N * 3))[m]? =
            some (q * N * 3) := by
          rw [List.getElem?_set_ne (by omega), hrm]
        simp only [gatherStep, hk1, hk2, and_self, if_true, Nat.add_sub_cancel,
          Nat.succ_ne_zero, if_false, hrows, hcnt, hdm, hrm', hsum, Option.some_bind]
      · intro j hj
        by_cases hjm : j = m + 1
        · subst hjm
          rw [List.getElem?_set_self hk1, List.getElem?_set_self hk2]
          refine ⟨rfl, ?_⟩
          congr 1
          push_cast
          ring
        · rw [List.getElem?_set_ne (Ne.symm hjm), List.getElem?_set_ne (Ne.symm hjm)]
          exact hval j (by omega)

theorem sum_range_const (f : Nat → Int) (c : Int) :
    ∀ m : Nat, (∀ j, j < m → f j = c) → ((List.range m).map f).sum = (m : Int) * c := by
  intro m
  induction m with
  | zero => intro _; simp
  | succ m ih =>
    intro h
    rw [List.range_succ, List.map_append, List.sum_append, ih (fun j hj => h j (by omega)),
      List.map_singleton, List.sum_singleton, h m (Nat.lt_succ_self m)]
    push_cast
    ring

theorem gather_sum (N size q : Int) (hs : 1 ≤ size) (rc : List Int)
    (hl : rc.length = size.toNat)
    (hval : ∀ j : Nat, j < size.toNat →
      rc[j]? = some ((if (j : Int) = size - 1 then N - q * (size - 1) else q) * N * 3)) :
    rc.sum = N * N * 3 := by
  have hrc : rc = (List.range size.toNat).map
      (fun (j : Nat) => (if (j : Int) = size - 1 then N - q * (size - 1) else q) * N * 3) := by
    apply List.ext_getElem?
    intro n
    by_cases hn : n < size.toNat
    · rw [hval n hn, List.getElem?_map, List.getElem?_range hn]
      rfl
    · rw [List.getElem?_eq_none (by omega), List.getElem?_eq_none (by simp; omega)]
  obtain ⟨m, hm⟩ : ∃ m : Nat, size.toNat = m + 1 := ⟨size.toNat - 1, by omega⟩
  rw [hrc, hm, List.range_succ, List.map_append, List.sum_append,
    sum_range_const _ (q * N * 3) m (by
      intro j hj
      have : ¬ ((j : Nat) : Int) = size - 1 := by omega
      simp only [if_neg this])]
  have hlast : ((m : Nat) : Int) = size - 1 := by omega
  simp only [List.map_singleton, List.sum_singleton, if_pos hlast]
  rw [hlast]
  ring

/-! ## The claims -/

/-- C1. Tile generation is a partition of the raster: for every image size `N` (in
particular every `N >= 1`) and tile edge `T >= 1`, with enough fuel for the two loops the generation returns a tile
list in which every tile's rectangle lies inside the `N x N` raster and every pixel
`(x, y)` with `0 <= x, y < N` is covered by exactly one tile. -/
theorem generateTiles_partition (fuel : Nat) (N T : Int) (hT : 1 ≤ T)
    (hfuel : N.toNat ≤ fuel) :
    ∃ tiles, generateTiles fuel N T = some tiles ∧
      (∀ t ∈ tiles, t.inside N) ∧
      (∀ x y, 0 ≤ x → x < N → 0 ≤ y → y < N →
        tiles.countP (fun t => t.covers x y) = 1) := by
  obtain ⟨tiles, h, hmem, hcnt⟩ :=
    tileRows_spec N T (by omega) fuel hfuel fuel 0 0 (le_refl _) (by simpa using hfuel)
  refine ⟨tiles, h, ?_, ?_⟩
  · intro t ht
    obtain ⟨a, b, c, d, e, f⟩ := hmem t ht
    refine ⟨d, a, ?_, ?_, f, c⟩ <;> omega
  · intro x y hx0 hxN hy0 hyN
    exact hcnt x y hx0 hxN hy0 hyN

/-- C1 at a 5 x 5 image with tile edge 2 (edge tiles clipped to width or height 1). -/
theorem generateTiles_partition_witness :
    ∃ tiles, generateTiles 5 5 2 = some tiles ∧
      (∀ t ∈ tiles, t.inside 5) ∧
      (∀ x y, 0 ≤ x → x < 5 → 0 ≤ y → y < 5 →
        tiles.countP (fun t => t.covers x y) = 1) :=
  generateTiles_partition 5 5 2 (by decide) (by decide)

/-- The nine tiles of a 5 x 5 image with tile edge 2, as the loops push them. -/
theorem generateTiles_five_two : generateTiles 5 5 2 = some
    [⟨0, 0, 0, 2, 2⟩, ⟨1, 2, 0, 2, 2⟩, ⟨2, 4, 0, 1, 2⟩,
     ⟨3, 0, 2, 2, 2⟩, ⟨4, 2, 2, 2, 2⟩, ⟨5, 4, 2, 1, 2⟩,
     ⟨6, 0, 4, 2, 1⟩, ⟨7, 2, 4, 2, 1⟩, ⟨8, 4, 4, 1, 1⟩] := by decide

/-- C2. Dispatch protocol: along every arrival order the master accepts (`masterRun`
returns a state), with at least one worker, tiles are sent in index order without
repetition (`next_tile` never exceeds `num_tiles`, the tiles sent are exactly the first
`next_tile` ones), received identifiers never repeat, the loop can always take a further
step while results are missing and can be run to completion; and once the loop has ended
every tile has been sent exactly once and every tile's result received exactly once. -/
theorem masterRun_exactly_once (tiles : List Tile) (size : Nat) (hsize : 2 ≤ size)
    (hid : IdsArePositions tiles) (order : List Nat) (s : Coord)
    (hrun : masterRun tiles size order = some s) :
    (s.next_tile ≤ tiles.length ∧ s.sentTiles = tiles.take s.next_tile ∧
      s.sentTiles.map (fun t => t.id) = (List.range s.next_tile).map Int.ofNat ∧
      s.recvIds.Nodup ∧ s.recvIds ⊆ s.sentTiles.map (fun t => t.id) ∧
      s.tiles_received = order.length) ∧
    (s.tiles_received < tiles.length → ∃ src s', recvStep tiles s src = some s') ∧
    (∃ rest s', masterRun tiles size (order ++ rest) = some s' ∧
      s'.tiles_received = tiles.length) ∧
    (¬ s.tiles_received < tiles.length →
      s.next_tile = tiles.length ∧ s.sentTiles = tiles ∧
      s.recvIds.Perm ((List.range tiles.length).map Int.ofNat) ∧
      (s.recvs.map (fun p => p.2)).Perm tiles ∧ s.holding = [] ∧
      order.length = tiles.length) := by
  obtain ⟨inv0, hrecv0⟩ := initialDispatch_inv tiles size
  have hrec0 : (initialDispatch tiles size).tiles_received = 0 := by
    rw [inv0.received_eq, hrecv0]
    rfl
  obtain ⟨inv, hcount⟩ := runLoop_inv tiles (size - 1) order _ s inv0 hrun
  rw [hrec0, Nat.zero_add] at hcount
  have hk : 1 ≤ size - 1 := by omega
  have hlen := inv_lengths tiles _ s inv
  have hids := ids_take tiles hid s.next_tile inv.next_le
  have hperm : (s.recvIds ++ s.holding.map (fun p => p.2.id)).Perm
      ((List.range s.next_tile).map Int.ofNat) := by
    rw [← hids]
    have := List.Perm.map (fun t : Tile => t.id) inv.outstanding
    simpa [Coord.recvIds, List.map_append, List.map_map, Function.comp_def] using this
  have hnodup : ((List.range s.next_tile).map Int.ofNat).Nodup :=
    List.Nodup.map Int.ofNat_injective (List.nodup_range _)
  refine ⟨⟨inv.next_le, inv.sent_eq, ?_, ?_, ?_, hcount⟩, ?_, ?_, ?_⟩
  · rw [inv.sent_eq, hids]
  · exact (List.nodup_append.mp (hperm.nodup_iff.mpr hnodup)).1
  · intro x hx
    rw [inv.sent_eq, hids]
    exact hperm.subset (List.mem_append_left _ hx)
  · exact recvStep_progress tiles _ s inv hk
  · obtain ⟨rest, s', h1, h2⟩ := runLoop_complete tiles _ hk _ s inv (le_refl _)
    refine ⟨rest, s', ?_, h2⟩
    unfold masterRun at hrun ⊢
    rw [runLoop_append, hrun]
    exact h1
  · intro hdone
    have hnext : s.next_tile = tiles.length := by
      have := inv.next_le
      omega
    have hhold : s.holding = [] := by
      apply List.eq_nil_of_length_eq_zero
      omega
    have hout := inv.outstanding
    rw [hhold, List.append_nil, hnext, List.take_length] at hout
    refine ⟨hnext, ?_, ?_, hout, hhold, ?_⟩
    · rw [inv.sent_eq, hnext, List.take_length]
    · have := hperm
      rw [hhold, List.map_nil, List.append_nil, hnext] at this
      exact this
    · omega


/-- C2 on the four tiles of a 3 x 3 image with tile edge 2, two workers, and the arrival
order 2, 1, 1, 2: the run is complete and each tile was sent and received once. -/
theorem masterRun_exactly_once_witness :
    ∃ s, masterRun exampleTiles 3 [2, 1, 1, 2] = some s ∧
      s.next_tile = exampleTiles.length ∧ s.sentTiles = exampleTiles ∧
      s.recvIds.Perm ((List.range exampleTiles.length).map Int.ofNat) ∧
      (s.recvs.map (fun p => p.2)).Perm exampleTiles ∧ s.holding = [] ∧
      [2, 1, 1, 2].length = exampleTiles.length :=
  ⟨⟨4, 4,
      [(1, Msg.work ⟨0, 0, 0, 2, 2⟩), (2, Msg.work ⟨1, 2, 0, 1, 2⟩),
       (2, Msg.work ⟨2, 0, 2, 2, 1⟩), (1, Msg.work ⟨3, 2, 2, 1, 1⟩),
       (1, Msg.done), (2, Msg.done)],
      [(2, ⟨1, 2, 0, 1, 2⟩), (1, ⟨0, 0, 0, 2, 2⟩), (1, ⟨3, 2, 2, 1, 1⟩), (2, ⟨2, 0, 2, 2, 1⟩)],
      []⟩,
    by decide,
    (masterRun_exactly_once exampleTiles 3 (by decide)
      (generateTiles_ids 3 3 2 exampleTiles generateTiles_three_two) [2, 1, 1, 2] _
      (by decide)).2.2.2 (by decide)⟩

/-- C3 (as stated) fails: for the 64 x 64 image of the empty scene with tile edge 32 and
two workers, the completion orders 2, 1, 1, 2 and 1, 2, 1, 2 are both complete runs; tile
2 is rendered by rank 2 (generator seeded with 44622) in the first and by rank 1
(generator seeded with 44621) in the second. With a sample generator that yields a flake
on the ray of pixel `(0, 32)` for the first seed and none for the second, `renderTile`
makes that pixel white in the first run and sky-coloured in the second: the two final
framebuffers differ at byte 6144. -/
theorem finalBuffer_depends_on_order :
    generateTiles 64 64 32 = some tiles64 ∧
    rngSeed (workerSeed 2 2) = 44622 ∧ rngSeed (workerSeed 2 1) = 44621 ∧
    ∃ sA sB, masterRun tiles64 3 [2, 1, 1, 2] = some sA ∧
      masterRun tiles64 3 [1, 2, 1, 2] = some sB ∧
      ¬ sA.tiles_received < tiles64.length ∧ ¬ sB.tiles_received < tiles64.length ∧
      (2, (⟨2, 0, 32, 32, 32⟩ : Tile)) ∈ sA.assignments ∧
      (1, (⟨2, 0, 32, 32, 32⟩ : Tile)) ∈ sB.assignments ∧
      ∃ fbA fbB,
        finalBuffer (workerRender Real.sqrt Real.tan Real.pi 64 ⟨[], []⟩
          (exampleSnow Real.sqrt Real.tan Real.pi)) 64 tiles64 sA = some fbA ∧
        finalBuffer (workerRender Real.sqrt Real.tan Real.pi 64 ⟨[], []⟩
          (exampleSnow Real.sqrt Real.tan Real.pi)) 64 tiles64 sB = some fbB ∧
        getI fbA 6144 = some 255 ∧ getI fbB 6144 ≠ some 255 ∧ fbA ≠ fbB := by
  have hA : masterRun tiles64 3 [2, 1, 1, 2] = some ⟨4, 4,
      [(1, Msg.work ⟨0, 0, 0, 32, 32⟩), (2, Msg.work ⟨1, 32, 0, 32, 32⟩),
       (2, Msg.work ⟨2, 0, 32, 32, 32⟩), (1, Msg.work ⟨3, 32, 32, 32, 32⟩),
       (1, Msg.done), (2, Msg.done)],
      [(2, ⟨1, 32, 0, 32, 32⟩), (1, ⟨0, 0, 0, 32, 32⟩), (1, ⟨3, 32, 32, 32, 32⟩),
        (2, ⟨2, 0, 32, 32, 32⟩)],
      []⟩ := by decide
  have hB : masterRun tiles64 3 [1, 2, 1, 2] = some ⟨4, 4,
      [(1, Msg.work ⟨0, 0, 0, 32, 32⟩), (2, Msg.work ⟨1, 32, 0, 32, 32⟩),
       (1, Msg.work ⟨2, 0, 32, 32, 32⟩), (2, Msg.work ⟨3, 32, 32, 32, 32⟩),
       (1, Msg.done), (2, Msg.done)],
      [(1, ⟨0, 0, 0, 32, 32⟩), (2, ⟨1, 32, 0, 32, 32⟩), (1, ⟨2, 0, 32, 32, 32⟩),
        (2, ⟨3, 32, 32, 32, 32⟩)],
      []⟩ := by decide
  have hsA : rngSeed (workerSeed 2 2) = 44622 := by decide
  have hsB : rngSeed (workerSeed 2 1) = 44621 := by decide
  refine ⟨generateTiles_sixtyfour, hsA, hsB, _, _, hA, hB, by decide, by decide, by decide,
    by decide, ?_⟩
  obtain ⟨fbA, hfA, hallA, -⟩ := finalBuffer_spec
    (workerRender Real.sqrt Real.tan Real.pi 64 ⟨[], []⟩ (exampleSnow Real.sqrt Real.tan Real.pi))
    (workerRender_length 64 ⟨[], []⟩ (exampleSnow Real.sqrt Real.tan Real.pi)) 64 64 32
    (by decide) (by decide) tiles64 generateTiles_sixtyfour 3 [2, 1, 1, 2] _ hA (by decide)
  obtain ⟨fbB, hfB, hallB, -⟩ := finalBuffer_spec
    (workerRender Real.sqrt Real.tan Real.pi 64 ⟨[], []⟩ (exampleSnow Real.sqrt Real.tan Real.pi))
    (workerRender_length 64 ⟨[], []⟩ (exampleSnow Real.sqrt Real.tan Real.pi)) 64 64 32
    (by decide) (by decide) tiles64 generateTiles_sixtyfour 3 [1, 2, 1, 2] _ hB (by decide)
  have hbA := example_byte 2 fbA _ hallA (by decide)
  have hbB := example_byte 1 fbB _ hallB (by decide)
  rw [hsA, example_pixel_snow] at hbA
  rw [hsB] at hbB
  have hneB : getI fbB 6144 ≠ some 255 := by
    rw [hbB]
    intro h
    exact example_pixel_clear (Option.some.inj h)
  refine ⟨fbA, fbB, hfA, hfB, hbA, hneB, ?_⟩
  intro h
  rw [h] at hbA
  exact hneB hbA

/-- C3 (amended). The final framebuffer is determined by the assignment of tiles to
workers, not by the completion order as such: for tiles generated for an `N x N` image,
at least one worker and any two complete runs of the coordinator, both framebuffers
exist, in each of them the rectangle of every tile holds what the worker that was
assigned the tile renders with its seed `(tile_id*10007 mod 2^32) XOR (rank+12345)`, and
the two framebuffers are equal whenever every tile's rendered bytes agree under the two
assignments; in particular when both runs assign every tile to the same worker, and when
the renderer's output does not depend on the seed. -/
theorem finalBuffer_determined_by_assignment
    (renderTile : Int → Int → Int → Int → Nat → List Color)
    (hren : ∀ x0 y0 w h seed, 0 ≤ w → 0 ≤ h →
      ((renderTile x0 y0 w h seed).length : Int) = w * h)
    (fuel : Nat) (N T : Int) (hT : 1 ≤ T) (hfuel : N.toNat ≤ fuel)
    (tiles : List Tile) (hgen : generateTiles fuel N T = some tiles)
    (size : Nat) (orderA orderB : List Nat) (sA sB : Coord)
    (hA : masterRun tiles size orderA = some sA) (hB : masterRun tiles size orderB = some sB)
    (hdoneA : ¬ sA.tiles_received < tiles.length)
    (hdoneB : ¬ sB.tiles_received < tiles.length) :
    ∃ fbA fbB, finalBuffer renderTile N tiles sA = some fbA ∧
      finalBuffer renderTile N tiles sB = some fbB ∧
      (∀ rank t, (rank, t) ∈ sA.assignments →
        ∃ buf, workerResult renderTile rank t = some buf ∧ RectHolds N fbA t buf) ∧
      (∀ rank t, (rank, t) ∈ sB.assignments →
        ∃ buf, workerResult renderTile rank t = some buf ∧ RectHolds N fbB t buf) ∧
      ((∀ t rA rB, (rA, t) ∈ sA.assignments → (rB, t) ∈ sB.assignments →
        workerResult renderTile rA t = workerResult renderTile rB t) → fbA = fbB) ∧
      (sA.assignments.Perm sB.assignments → fbA = fbB) ∧
      ((∀ x0 y0 w h s1 s2, renderTile x0 y0 w h s1 = renderTile x0 y0 w h s2) →
        fbA = fbB) := by
  obtain ⟨fbA, hfA, hallA, hrestA⟩ :=
    finalBuffer_spec renderTile hren fuel N T hT hfuel tiles hgen size orderA sA hA hdoneA
  obtain ⟨fbB, hfB, hallB, hrestB⟩ :=
    finalBuffer_spec renderTile hren fuel N T hT hfuel tiles hgen size orderB sB hB hdoneB
  obtain ⟨hpermA, hasgA⟩ := complete_run tiles size orderA sA hA hdoneA
  obtain ⟨hpermB, hasgB⟩ := complete_run tiles size orderB sB hB hdoneB
  obtain ⟨_, _, hnodup⟩ := generated_tiles_facts fuel N T hT hfuel tiles hgen
  have hgeneral : (∀ t rA rB, (rA, t) ∈ sA.assignments → (rB, t) ∈ sB.assignments →
      workerResult renderTile rA t = workerResult renderTile rB t) → fbA = fbB := by
    intro hagree
    exact buffers_agree renderTile N tiles sA sB fbA fbB _ hpermA hpermB hallA hallB hrestA
      hrestB (fun t rA rB h1 h2 => hagree t rA rB (hasgA.subset h1) (hasgB.subset h2))
  refine ⟨fbA, fbB, hfA, hfB, ?_, ?_, hgeneral, ?_, ?_⟩
  · intro rank t h
    exact hallA (rank, t) (hasgA.symm.subset h)
  · intro rank t h
    exact hallB (rank, t) (hasgB.symm.subset h)
  · intro hperm
    apply hgeneral
    intro t rA rB h1 h2
    have h2' : (rB, t) ∈ sA.assignments := hperm.symm.subset h2
    have hnd : (sA.assignments.map (fun p => p.2)).Nodup :=
      ((hasgA.symm.map _).trans hpermA).nodup_iff.mpr hnodup
    have := List.inj_on_of_nodup_map hnd h1 h2' rfl
    rw [(Prod.mk.inj this).1]
  · intro hseed
    apply hgeneral
    intro t rA rB _ _
    unfold workerResult
    rw [hseed _ _ _ _ (workerSeed t.id rA) (workerSeed t.id rB)]

/-- C3 (amended) on the four tiles of the 64 x 64 image of the empty scene with two
workers, the completion orders 2, 1, 1, 2 and 1, 2, 1, 2, and `renderTile` as the
renderer. -/
theorem finalBuffer_determined_by_assignment_witness :
    ∃ sA sB, masterRun tiles64 3 [2, 1, 1, 2] = some sA ∧
      masterRun tiles64 3 [1, 2, 1, 2] = some sB ∧
      ∃ fbA fbB,
        finalBuffer (workerRender Real.sqrt Real.tan Real.pi 64 ⟨[], []⟩
          (exampleSnow Real.sqrt Real.tan Real.pi)) 64 tiles64 sA = some fbA ∧
        finalBuffer (workerRender Real.sqrt Real.tan Real.pi 64 ⟨[], []⟩
          (exampleSnow Real.sqrt Real.tan Real.pi)) 64 tiles64 sB = some fbB ∧
        (∀ rank t, (rank, t) ∈ sA.assignments →
          ∃ buf, workerResult (workerRender Real.sqrt Real.tan Real.pi 64 ⟨[], []⟩
            (exampleSnow Real.sqrt Real.tan Real.pi)) rank t = some buf ∧
            RectHolds 64 fbA t buf) ∧
        (∀ rank t, (rank, t) ∈ sB.assignments →
          ∃ buf, workerResult (workerRender Real.sqrt Real.tan Real.pi 64 ⟨[], []⟩
            (exampleSnow Real.sqrt Real.tan Real.pi)) rank t = some buf ∧
            RectHolds 64 fbB t buf) ∧
        ((∀ t rA rB, (rA, t) ∈ sA.assignments → (rB, t) ∈ sB.assignments →
          workerResult (workerRender Real.sqrt Real.tan Real.pi 64 ⟨[], []⟩
            (exampleSnow Real.sqrt Real.tan Real.pi)) rA t =
          workerResult (workerRender Real.sqrt Real.tan Real.pi 64 ⟨[], []⟩
            (exampleSnow Real.sqrt Real.tan Real.pi)) rB t) → fbA = fbB) ∧
        (sA.assignments.Perm sB.assignments → fbA = fbB) ∧
        ((∀ x0 y0 w h s1 s2,
          workerRender Real.sqrt Real.tan Real.pi 64 ⟨[], []⟩
            (exampleSnow Real.sqrt Real.tan Real.pi) x0 y0 w h s1 =
          workerRender Real.sqrt Real.tan Real.pi 64 ⟨[], []⟩
            (exampleSnow Real.sqrt Real.tan Real.pi) x0 y0 w h s2) → fbA = fbB) :=
  ⟨⟨4, 4,
      [(1, Msg.work ⟨0, 0, 0, 32, 32⟩), (2, Msg.work ⟨1, 32, 0, 32, 32⟩),
       (2, Msg.work ⟨2, 0, 32, 32, 32⟩), (1, Msg.work ⟨3, 32, 32, 32, 32⟩),
       (1, Msg.done), (2, Msg.done)],
      [(2, ⟨1, 32, 0, 32, 32⟩), (1, ⟨0, 0, 0, 32, 32⟩), (1, ⟨3, 32, 32, 32, 32⟩),
        (2, ⟨2, 0, 32, 32, 32⟩)],
      []⟩,
    ⟨4, 4,
      [(1, Msg.work ⟨0, 0, 0, 32, 32⟩), (2, Msg.work ⟨1, 32, 0, 32, 32⟩),
       (1, Msg.work ⟨2, 0, 32, 32, 32⟩), (2, Msg.work ⟨3, 32, 32, 32, 32⟩),
       (1, Msg.done), (2, Msg.done)],
      [(1, ⟨0, 0, 0, 32, 32⟩), (2, ⟨1, 32, 0, 32, 32⟩), (1, ⟨2, 0, 32, 32, 32⟩),
        (2, ⟨3, 32, 32, 32, 32⟩)],
      []⟩,
    by decide, by decide,
    finalBuffer_determined_by_assignment
      (workerRender Real.sqrt Real.tan Real.pi 64 ⟨[], []⟩
        (exampleSnow Real.sqrt Real.tan Real.pi))
      (workerRender_length 64 ⟨[], []⟩ (exampleSnow Real.sqrt Real.tan Real.pi)) 64 64 32
      (by decide) (by decide) tiles64 generateTiles_sixtyfour 3 [2, 1, 1, 2] [1, 2, 1, 2] _ _
      (by decide) (by decide) (by decide) (by decide)⟩

/-- C4. Placing a completed tile writes exactly the tile's rectangle: for a tile inside
the `N x N` image, a payload of `w*h*3` bytes and a framebuffer of `N*N*3` bytes, the
placement loop succeeds (no copy leaves a buffer), keeps the framebuffer's length, makes
`full_buf[((y0+row)*N + x0+col)*3 + c]` equal to `payload[(row*w + col)*3 + c]` for every
`row < h`, `col < w`, `c < 3` (an index below `3*N*N`), and leaves every other byte of
the framebuffer unchanged. -/
theorem placeTile_rectangle (N : Int) (full_buf : List Nat) (t : Tile) (buf : List Nat)
    (hin : t.inside N) (hbuf : (buf.length : Int) = t.w * t.h * 3)
    (hfull : (full_buf.length : Int) = N * N * 3) :
    ∃ fb, placeTile N full_buf t buf = some fb ∧ fb.length = full_buf.length ∧
      (∀ row col c : Int, 0 ≤ row → row < t.h → 0 ≤ col → col < t.w → 0 ≤ c → c < 3 →
        0 ≤ ((t.y0 + row) * N + t.x0 + col) * 3 + c ∧
        ((t.y0 + row) * N + t.x0 + col) * 3 + c < 3 * N * N ∧
        ∃ v, getI buf ((row * t.w + col) * 3 + c) = some v ∧
          getI fb (((t.y0 + row) * N + t.x0 + col) * 3 + c) = some v) ∧
      (∀ i : Int,
        (¬ ∃ row col c : Int, 0 ≤ row ∧ row < t.h ∧ 0 ≤ col ∧ col < t.w ∧ 0 ≤ c ∧ c < 3 ∧
          i = ((t.y0 + row) * N + t.x0 + col) * 3 + c) →
        getI fb i = getI full_buf i) :=
  placeTile_spec N full_buf t buf hin hbuf hfull

/-- C4 for the tile `(x0, y0, w, h) = (2, 0, 1, 2)` of a 3 x 3 image, a payload of six
bytes and a zeroed framebuffer. -/
theorem placeTile_rectangle_witness :
    ∃ fb, placeTile 3 (List.replicate 27 0) ⟨1, 2, 0, 1, 2⟩ [1, 2, 3, 4, 5, 6] = some fb ∧
      fb.length = (List.replicate 27 0).length ∧
      (∀ row col c : Int, 0 ≤ row → row < 2 → 0 ≤ col → col < 1 → 0 ≤ c → c < 3 →
        0 ≤ ((0 + row) * 3 + 2 + col) * 3 + c ∧
        ((0 + row) * 3 + 2 + col) * 3 + c < 3 * 3 * 3 ∧
        ∃ v, getI [1, 2, 3, 4, 5, 6] ((row * 1 + col) * 3 + c) = some v ∧
          getI fb (((0 + row) * 3 + 2 + col) * 3 + c) = some v) ∧
      (∀ i : Int,
        (¬ ∃ row col c : Int, 0 ≤ row ∧ row < 2 ∧ 0 ≤ col ∧ col < 1 ∧ 0 ≤ c ∧ c < 3 ∧
          i = ((0 + row) * 3 + 2 + col) * 3 + c) →
        getI fb i = getI (List.replicate 27 0) i) :=
  placeTile_rectangle 3 (List.replicate 27 0) ⟨1, 2, 0, 1, 2⟩ [1, 2, 3, 4, 5, 6]
    (by unfold Tile.inside; decide) (by decide) (by decide)

/-- The framebuffer after placing six bytes for the tile `(2, 0, 1, 2)` of a 3 x 3 image:
pixels (2, 0) and (2, 1) are written, nothing else. -/
theorem placeTile_example :
    placeTile 3 (List.replicate 27 0) ⟨1, 2, 0, 1, 2⟩ [1, 2, 3, 4, 5, 6] =
      some [0, 0, 0, 0, 0, 0, 1, 2, 3, 0, 0, 0, 0, 0, 0, 4, 5, 6, 0, 0, 0, 0, 0, 0, 0, 0, 0] := by
  decide

/-- C5. Over the reals, for a ray with non-zero direction, `intersect_sphere` reports a
hit if and only if the discriminant `b^2 - 4ac` is non-negative and the quadratic
`a t^2 + b t + c = 0` has a root greater than `1e-4`. -/
theorem intersect_sphere_hit_iff (o d : Vec3 ℝ) (s : Sphere ℝ) (hd : d ≠ ⟨0, 0, 0⟩) :
    (intersect_sphere Real.sqrt o d s).isSome = true ↔
      (0 ≤ quadDisc o d s ∧
        ∃ t : ℝ, quadA d * t * t + quadB o d s * t + quadC o s = 0 ∧ t > 1e-4) := by
  rw [intersect_sphere_eq]
  by_cases hdisc : quadDisc o d s < 0
  · rw [if_pos hdisc]
    constructor
    · intro h
      exact absurd h (by simp)
    · intro h
      exact absurd h.1 (not_le.mpr hdisc)
  · rw [if_neg hdisc]
    have hdisc' : 0 ≤ quadDisc o d s := not_lt.mp hdisc
    have hroots := quad_roots o d s hd hdisc'
    have hord := root_order o d s hd
    constructor
    · intro h
      refine ⟨hdisc', ?_⟩
      split_ifs at h with h0 h1
      · exact ⟨_, (hroots _).mpr (Or.inr rfl), h0⟩
      · exact ⟨_, (hroots _).mpr (Or.inl rfl), h1⟩
      · exact absurd h (by simp)
    · rintro ⟨_, t, ht, hgt⟩
      split_ifs with h0 h1
      · rfl
      · rfl
      · exfalso
        rcases (hroots t).mp ht with h | h
        · exact h1 (h ▸ hgt)
        · exact h0 (h ▸ hgt)

/-- C5 on the ray from the origin along `+z` and the unit sphere centred at `(0, 0, 2)`. -/
theorem intersect_sphere_hit_iff_witness :
    (intersect_sphere Real.sqrt ⟨0, 0, 0⟩ ⟨0, 0, 1⟩ ⟨⟨0, 0, 2⟩, 1, ⟨200, 0, 0⟩⟩).isSome = true ↔
      (0 ≤ quadDisc (⟨0, 0, 0⟩ : Vec3 ℝ) ⟨0, 0, 1⟩ ⟨⟨0, 0, 2⟩, 1, ⟨200, 0, 0⟩⟩ ∧
        ∃ t : ℝ, quadA (⟨0, 0, 1⟩ : Vec3 ℝ) * t * t +
          quadB (⟨0, 0, 0⟩ : Vec3 ℝ) ⟨0, 0, 1⟩ ⟨⟨0, 0, 2⟩, 1, ⟨200, 0, 0⟩⟩ * t +
          quadC (⟨0, 0, 0⟩ : Vec3 ℝ) ⟨⟨0, 0, 2⟩, 1, ⟨200, 0, 0⟩⟩ = 0 ∧ t > 1e-4) :=
  intersect_sphere_hit_iff ⟨0, 0, 0⟩ ⟨0, 0, 1⟩ ⟨⟨0, 0, 2⟩, 1, ⟨200, 0, 0⟩⟩
    (by simp)

/-- C6. Over the reals, when `intersect_sphere` reports a hit at `t` for a ray with
non-zero direction, `t` is the smaller root if that root exceeds `1e-4` and the larger
root otherwise, it is the least root greater than `1e-4`, and `origin + t * direction`
lies on the sphere. -/
theorem intersect_sphere_least_root (o d : Vec3 ℝ) (s : Sphere ℝ) (t : ℝ)
    (hd : d ≠ ⟨0, 0, 0⟩) (hit : intersect_sphere Real.sqrt o d s = some t) :
    ((-quadB o d s - Real.sqrt (quadDisc o d s)) / (2 * quadA d) > 1e-4 →
      t = (-quadB o d s - Real.sqrt (quadDisc o d s)) / (2 * quadA d)) ∧
    (¬ (-quadB o d s - Real.sqrt (quadDisc o d s)) / (2 * quadA d) > 1e-4 →
      t = (-quadB o d s + Real.sqrt (quadDisc o d s)) / (2 * quadA d)) ∧
    (-quadB o d s - Real.sqrt (quadDisc o d s)) / (2 * quadA d) ≤
      (-quadB o d s + Real.sqrt (quadDisc o d s)) / (2 * quadA d) ∧
    t > 1e-4 ∧
    quadA d * t * t + quadB o d s * t + quadC o s = 0 ∧
    (∀ t' : ℝ, quadA d * t' * t' + quadB o d s * t' + quadC o s = 0 → t' > 1e-4 → t ≤ t') ∧
    (o + d * t - s.center).dot (o + d * t - s.center) = s.radius * s.radius := by
  rw [intersect_sphere_eq] at hit
  have hord := root_order o d s hd
  by_cases hdisc : quadDisc o d s < 0
  · rw [if_pos hdisc] at hit
    exact absurd hit (by simp)
  · rw [if_neg hdisc] at hit
    have hroots := quad_roots o d s hd (not_lt.mp hdisc)
    split_ifs at hit with h0 h1
    · have ht := (Option.some.inj hit).symm
      have hq := (hroots t).mpr (Or.inr ht)
      refine ⟨fun _ => ht, fun h => absurd h0 h, hord, ht ▸ h0, hq, ?_,
        (on_sphere_iff o d s t).mpr hq⟩
      intro t' hq' _
      rcases (hroots t').mp hq' with h | h
      · rw [ht, h]
        exact hord
      · rw [ht, h]
    · have ht := (Option.some.inj hit).symm
      have hq := (hroots t).mpr (Or.inl ht)
      refine ⟨fun h => absurd h h0, fun _ => ht, hord, ht ▸ h1, hq, ?_,
        (on_sphere_iff o d s t).mpr hq⟩
      intro t' hq' hgt
      rcases (hroots t').mp hq' with h | h
      · rw [ht, h]
      · exact absurd (h ▸ hgt) h0

/-- C6 on the ray from the origin along `+z` and the unit sphere centred at `(0, 0, 2)`:
the hit is at `t = 1`, the point `(0, 0, 1)` of the sphere. -/
theorem intersect_sphere_least_root_witness :
    (1 : ℝ) > 1e-4 ∧
    (∀ t' : ℝ, quadA (⟨0, 0, 1⟩ : Vec3 ℝ) * t' * t' +
        quadB (⟨0, 0, 0⟩ : Vec3 ℝ) ⟨0, 0, 1⟩ ⟨⟨0, 0, 2⟩, 1, ⟨200, 0, 0⟩⟩ * t' +
        quadC (⟨0, 0, 0⟩ : Vec3 ℝ) ⟨⟨0, 0, 2⟩, 1, ⟨200, 0, 0⟩⟩ = 0 → t' > 1e-4 → 1 ≤ t') ∧
    ((⟨0, 0, 0⟩ : Vec3 ℝ) + (⟨0, 0, 1⟩ : Vec3 ℝ) * (1 : ℝ) - (⟨0, 0, 2⟩ : Vec3 ℝ)).dot
      ((⟨0, 0, 0⟩ : Vec3 ℝ) + (⟨0, 0, 1⟩ : Vec3 ℝ) * (1 : ℝ) - (⟨0, 0, 2⟩ : Vec3 ℝ)) =
        (1 : ℝ) * 1 :=
  have h := intersect_sphere_least_root ⟨0, 0, 0⟩ ⟨0, 0, 1⟩ ⟨⟨0, 0, 2⟩, 1, ⟨200, 0, 0⟩⟩ 1
    (by simp) tie_sphere_hit
  ⟨h.2.2.2.1, h.2.2.2.2.2.1, h.2.2.2.2.2.2⟩

/-- C7. Over the reals, `intersect_plane` reports no hit when `|normal . direction|` is
below `1e-6` or when the quotient `(point - origin) . normal / (normal . direction)` is
below `1e-4`; and when it reports a hit at `t`, the denominator is not zero, `t` is that
quotient and `origin + t * direction` satisfies the plane equation. -/
theorem intersect_plane_spec (o d : Vec3 ℝ) (p : Plane ℝ) :
    (|p.normal.dot d| < 1e-6 → intersect_plane o d p = none) ∧
    ((p.point - o).dot p.normal / p.normal.dot d < 1e-4 → intersect_plane o d p = none) ∧
    (∀ t : ℝ, intersect_plane o d p = some t →
      p.normal.dot d ≠ 0 ∧ t = (p.point - o).dot p.normal / p.normal.dot d ∧
      (o + d * t - p.point).dot p.normal = 0) := by
  refine ⟨?_, ?_, ?_⟩
  · intro h
    unfold intersect_plane
    simp only []
    rw [if_neg (not_lt.mpr (le_of_lt h))]
  · intro h
    unfold intersect_plane
    simp only []
    by_cases h1 : |p.normal.dot d| > 1e-6
    · rw [if_pos h1, if_neg (not_le.mpr h)]
    · rw [if_neg h1]
  · intro t ht
    unfold intersect_plane at ht
    simp only [] at ht
    split_ifs at ht with h1 h2
    have hden : p.normal.dot d ≠ 0 := by
      intro h0
      rw [h0, abs_zero] at h1
      norm_num at h1
    have hteq := (Option.some.inj ht).symm
    refine ⟨hden, hteq, ?_⟩
    have hmul : t * p.normal.dot d = (p.point - o).dot p.normal := by
      rw [hteq]
      exact div_mul_cancel₀ _ hden
    rcases o with ⟨ox, oy, oz⟩
    rcases d with ⟨dx, dy, dz⟩
    rcases p with ⟨⟨px, py, pz⟩, ⟨nx, ny, nz⟩, col⟩
    simp only [Vec3.dot, Vec3.add_x, Vec3.add_y, Vec3.add_z, Vec3.sub_x,
      Vec3.sub_y, Vec3.sub_z, Vec3.mul_x, Vec3.mul_y, Vec3.mul_z] at hmul ⊢
    linear_combination hmul

/-- C8 (as stated) fails: the ray from the origin along `+z` hits the unit sphere
centred at `(0, 0, 2)` and the plane `z = 1` both at `t = 1`, and the scan reports the
sphere, not the plane evaluated later. -/
theorem nearestHit_tie_not_plane :
    intersect_sphere Real.sqrt ⟨0, 0, 0⟩ ⟨0, 0, 1⟩ ⟨⟨0, 0, 2⟩, 1, ⟨200, 0, 0⟩⟩ = some 1 ∧
    intersect_plane (⟨0, 0, 0⟩ : Vec3 ℝ) ⟨0, 0, 1⟩ ⟨⟨0, 0, 1⟩, ⟨0, 0, 1⟩, ⟨0, 200, 0⟩⟩ = some 1 ∧
    (nearestHit Real.sqrt
      ⟨[⟨⟨0, 0, 2⟩, 1, ⟨200, 0, 0⟩⟩], [⟨⟨0, 0, 1⟩, ⟨0, 0, 1⟩, ⟨0, 200, 0⟩⟩]⟩
      ⟨0, 0, 0⟩ ⟨0, 0, 1⟩).hit_plane = none ∧
    (nearestHit Real.sqrt
      ⟨[⟨⟨0, 0, 2⟩, 1, ⟨200, 0, 0⟩⟩], [⟨⟨0, 0, 1⟩, ⟨0, 0, 1⟩, ⟨0, 200, 0⟩⟩]⟩
      ⟨0, 0, 0⟩ ⟨0, 0, 1⟩).hit_sphere = some (0, ⟨⟨0, 0, 2⟩, 1, ⟨200, 0, 0⟩⟩) := by
  have hscan : nearestHit Real.sqrt
      ⟨[⟨⟨0, 0, 2⟩, 1, ⟨200, 0, 0⟩⟩], [⟨⟨0, 0, 1⟩, ⟨0, 0, 1⟩, ⟨0, 200, 0⟩⟩]⟩
      ⟨0, 0, 0⟩ ⟨0, 0, 1⟩ = ⟨1, some (0, ⟨⟨0, 0, 2⟩, 1, ⟨200, 0, 0⟩⟩), none⟩ := by
    simp only [nearestHit, scanSpheres, scanPlanes, tie_sphere_hit, tie_plane_hit,
      if_pos one_lt_DBL_MAX, lt_irrefl, if_false]
  rw [hscan]
  exact ⟨tie_sphere_hit, tie_plane_hit, rfl, rfl⟩

/-- C8 (amended). Tie policy of the nearest-hit scan: when a sphere is hit at `t`, no
sphere or plane is hit at a smaller `t` (a plane may be hit at the identical `t`), and
`t` is below the initial `closest_t`, the scan reports the first sphere of the list that
is hit at `t` (no sphere at an earlier position is hit at `t`) and no plane: in a tie
the primitive evaluated earlier wins. -/
theorem nearestHit_tie_sphere_wins (scene : Scene ℝ) (o d : Vec3 ℝ) (s : Sphere ℝ)
    (t : ℝ) (hs : s ∈ scene.spheres) (hits : intersect_sphere Real.sqrt o d s = some t)
    (hmins : ∀ s' ∈ scene.spheres, ∀ t', intersect_sphere Real.sqrt o d s' = some t' → t ≤ t')
    (hminp : ∀ p' ∈ scene.planes, ∀ t', intersect_plane o d p' = some t' → t ≤ t')
    (hmax : t < DBL_MAX) :
    (nearestHit Real.sqrt scene o d).closest_t = t ∧
      (nearestHit Real.sqrt scene o d).hit_plane = none ∧
      ∃ k s', (nearestHit Real.sqrt scene o d).hit_sphere = some (k, s') ∧
        scene.spheres[k]? = some s' ∧ intersect_sphere Real.sqrt o d s' = some t ∧
        ∀ j sj, j < k → scene.spheres[j]? = some sj →
          intersect_sphere Real.sqrt o d sj ≠ some t := by
  obtain ⟨-, h2, -⟩ := scanSpheres_spec Real.sqrt o d scene.spheres 0 ⟨DBL_MAX, none, none⟩
  have hle : (scanSpheres Real.sqrt o d scene.spheres 0 ⟨DBL_MAX, none, none⟩).closest_t ≤ t :=
    h2 s hs t hits
  rcases scanSpheres_first Real.sqrt o d scene.spheres 0 ⟨DBL_MAX, none, none⟩ with
    h3 | ⟨-, hpl, k, s', hk1, hk2, hk3, hk4⟩
  · rw [h3] at hle
    exact absurd hmax (not_lt.mpr hle)
  · have hge := hmins s' (List.getElem?_mem hk2) _ hk3
    have heq : (scanSpheres Real.sqrt o d scene.spheres 0 ⟨DBL_MAX, none, none⟩).closest_t = t :=
      le_antisymm hle hge
    have hsame : nearestHit Real.sqrt scene o d =
        scanSpheres Real.sqrt o d scene.spheres 0 ⟨DBL_MAX, none, none⟩ := by
      rcases scanPlanes_spec o d scene.planes 0
        (scanSpheres Real.sqrt o d scene.spheres 0 ⟨DBL_MAX, none, none⟩) with h | ⟨hlt, p', hp', hk⟩
      · exact h
      · have := hminp p' hp' _ hk
        rw [heq] at hlt
        exact absurd hlt (not_lt.mpr this)
    rw [hsame]
    refine ⟨heq, hpl, k, s', ?_, hk2, ?_, ?_⟩
    · rw [hk1, Nat.zero_add]
    · rw [hk3, heq]
    · intro j sj hj hsj hcon
      have := hk4 j sj t hj hsj hcon
      rw [heq] at this
      exact lt_irrefl t this

/-- C8 (amended) on the ray from the origin along `+z`, two unit spheres centred at
`(0, 0, 2)` (red, then blue) and the plane `z = 1`, all three hit at `t = 1`: the scan
reports the red sphere at position 0. -/
theorem nearestHit_tie_sphere_wins_witness :
    (nearestHit Real.sqrt
      ⟨[⟨⟨0, 0, 2⟩, 1, ⟨200, 0, 0⟩⟩, ⟨⟨0, 0, 2⟩, 1, ⟨0, 0, 200⟩⟩],
        [⟨⟨0, 0, 1⟩, ⟨0, 0, 1⟩, ⟨0, 200, 0⟩⟩]⟩
      ⟨0, 0, 0⟩ ⟨0, 0, 1⟩).closest_t = 1 ∧
    (nearestHit Real.sqrt
      ⟨[⟨⟨0, 0, 2⟩, 1, ⟨200, 0, 0⟩⟩, ⟨⟨0, 0, 2⟩, 1, ⟨0, 0, 200⟩⟩],
        [⟨⟨0, 0, 1⟩, ⟨0, 0, 1⟩, ⟨0, 200, 0⟩⟩]⟩
      ⟨0, 0, 0⟩ ⟨0, 0, 1⟩).hit_plane = none ∧
    ∃ k s', (nearestHit Real.sqrt
        ⟨[⟨⟨0, 0, 2⟩, 1, ⟨200, 0, 0⟩⟩, ⟨⟨0, 0, 2⟩, 1, ⟨0, 0, 200⟩⟩],
          [⟨⟨0, 0, 1⟩, ⟨0, 0, 1⟩, ⟨0, 200, 0⟩⟩]⟩
        ⟨0, 0, 0⟩ ⟨0, 0, 1⟩).hit_sphere = some (k, s') ∧
      [(⟨⟨0, 0, 2⟩, 1, ⟨200, 0, 0⟩⟩ : Sphere ℝ), ⟨⟨0, 0, 2⟩, 1, ⟨0, 0, 200⟩⟩][k]? = some s' ∧
      intersect_sphere Real.sqrt ⟨0, 0, 0⟩ ⟨0, 0, 1⟩ s' = some 1 ∧
      ∀ j sj, j < k →
        [(⟨⟨0, 0, 2⟩, 1, ⟨200, 0, 0⟩⟩ : Sphere ℝ), ⟨⟨0, 0, 2⟩, 1, ⟨0, 0, 200⟩⟩][j]? = some sj →
        intersect_sphere Real.sqrt ⟨0, 0, 0⟩ ⟨0, 0, 1⟩ sj ≠ some 1 :=
  nearestHit_tie_sphere_wins
    ⟨[⟨⟨0, 0, 2⟩, 1, ⟨200, 0, 0⟩⟩, ⟨⟨0, 0, 2⟩, 1, ⟨0, 0, 200⟩⟩],
      [⟨⟨0, 0, 1⟩, ⟨0, 0, 1⟩, ⟨0, 200, 0⟩⟩]⟩
    ⟨0, 0, 0⟩ ⟨0, 0, 1⟩ ⟨⟨0, 0, 2⟩, 1, ⟨200, 0, 0⟩⟩ 1 (List.mem_cons_self _ _) tie_sphere_hit
    (by
      intro s' hs' t' ht'
      simp only [List.mem_cons, List.mem_singleton, List.not_mem_nil, or_false] at hs'
      rcases hs' with rfl | rfl
      · rw [tie_sphere_hit] at ht'
        exact le_of_eq (Option.some.inj ht')
      · rw [two_sphere_hit] at ht'
        exact le_of_eq (Option.some.inj ht'))
    (by
      intro p' hp' t' ht'
      rw [List.mem_singleton.mp hp', tie_plane_hit] at ht'
      exact le_of_eq (Option.some.inj ht'))
    one_lt_DBL_MAX

/-- C9. Floor special case: for a ray whose nearest hit is the designated floor plane
(the first plane with `normal.y > 0.99` and `|point.y| < 1e-3`), the colour before the
snow overlay is (153, 153, 153), i.e. 0.6 times white per channel, when some sphere is
hit by the shadow ray from `hit_point + 1e-4 * normal` towards `-sunlight_dir`, and
(255, 255, 255) otherwise, whatever colour the plane stores. -/
theorem floor_pixel_color (scene : Scene ℝ) (o d : Vec3 ℝ) (j : Nat) (p fp : Plane ℝ)
    (hsph : (nearestHit Real.sqrt scene o d).hit_sphere = none)
    (hpl : (nearestHit Real.sqrt scene o d).hit_plane = some (j, p))
    (hfloor : findFloor scene.planes 0 = some (j, fp)) :
    ((∃ s ∈ scene.spheres, (intersect_sphere Real.sqrt
        (o + d * (nearestHit Real.sqrt scene o d).closest_t + p.normal * (1e-4 : ℝ))
        (-sunlight_dir Real.sqrt) s).isSome = true) →
      (basePixel Real.sqrt scene o d).1 = ⟨153, 153, 153⟩) ∧
    ((¬ ∃ s ∈ scene.spheres, (intersect_sphere Real.sqrt
        (o + d * (nearestHit Real.sqrt scene o d).closest_t + p.normal * (1e-4 : ℝ))
        (-sunlight_dir Real.sqrt) s).isSome = true) →
      (basePixel Real.sqrt scene o d).1 = ⟨255, 255, 255⟩) := by
  have h153 : toUChar (truncInt (((255 : Nat) : ℝ) * 0.6)) = 153 := by
    have : ((255 : Nat) : ℝ) * 0.6 = ((153 : Int) : ℝ) := by norm_num
    rw [this, truncInt_intCast]
    rfl
  have hbase : (basePixel Real.sqrt scene o d).1 =
      floorColor (K := ℝ) (shadowBySpheres Real.sqrt
        (o + d * (nearestHit Real.sqrt scene o d).closest_t + p.normal * (1e-4 : ℝ))
        (-sunlight_dir Real.sqrt) none scene.spheres 0) := by
    simp [basePixel, hsph, hpl, hfloor, isFloor]
  rw [hbase]
  constructor
  · intro h
    rw [(shadowBySpheres_none Real.sqrt _ _ scene.spheres 0).mpr h]
    simp only [floorColor, if_true, h153]
  · intro h
    have hfalse : shadowBySpheres Real.sqrt
        (o + d * (nearestHit Real.sqrt scene o d).closest_t + p.normal * (1e-4 : ℝ))
        (-sunlight_dir Real.sqrt) none scene.spheres 0 = false := by
      rw [← Bool.not_eq_true]
      exact fun hc => h ((shadowBySpheres_none Real.sqrt _ _ scene.spheres 0).mp hc)
    rw [hfalse]
    rfl

/-- C9 on a scene with the floor plane `y = 0` of stored colour (1, 2, 3) and no
sphere, for the ray from `(0, 1, 0)` straight down: the pixel is white. -/
theorem floor_pixel_color_witness :
    (basePixel Real.sqrt ⟨[], [⟨⟨0, 0, 0⟩, ⟨0, 1, 0⟩, ⟨1, 2, 3⟩⟩]⟩ ⟨0, 1, 0⟩ ⟨0, -1, 0⟩).1 =
      ⟨255, 255, 255⟩ :=
  (floor_pixel_color ⟨[], [⟨⟨0, 0, 0⟩, ⟨0, 1, 0⟩, ⟨1, 2, 3⟩⟩]⟩ ⟨0, 1, 0⟩ ⟨0, -1, 0⟩ 0
    ⟨⟨0, 0, 0⟩, ⟨0, 1, 0⟩, ⟨1, 2, 3⟩⟩ ⟨⟨0, 0, 0⟩, ⟨0, 1, 0⟩, ⟨1, 2, 3⟩⟩
    (by rw [floor_example_hit]) (by rw [floor_example_hit]) floor_example_floor).2
    (by simp)

/-- C10. Sky gradient: for a ray that hits nothing, with vertical direction component
`y` in `[-1, 1]` and `t = 0.5 * (y + 1)`, each channel of the base colour is the
truncation of `(1 - t) * bottom + t * top` with `bottom = (255, 255, 255)` and
`top = (135, 206, 235)` (a value between `top` and 255, so the stored byte is that
truncation); `y = 1` gives exactly (135, 206, 235) and `y = -1` exactly
(255, 255, 255). -/
theorem sky_pixel_color (scene : Scene ℝ) (o d : Vec3 ℝ)
    (hsph : (nearestHit Real.sqrt scene o d).hit_sphere = none)
    (hpl : (nearestHit Real.sqrt scene o d).hit_plane = none)
    (hy1 : -1 ≤ d.y) (hy2 : d.y ≤ 1) :
    (((basePixel Real.sqrt scene o d).1.r : Int) =
        truncInt ((1 - 0.5 * (d.y + 1)) * 255 + 0.5 * (d.y + 1) * 135) ∧
      ((basePixel Real.sqrt scene o d).1.g : Int) =
        truncInt ((1 - 0.5 * (d.y + 1)) * 255 + 0.5 * (d.y + 1) * 206) ∧
      ((basePixel Real.sqrt scene o d).1.b : Int) =
        truncInt ((1 - 0.5 * (d.y + 1)) * 255 + 0.5 * (d.y + 1) * 235)) ∧
    (135 ≤ (basePixel Real.sqrt scene o d).1.r ∧ (basePixel Real.sqrt scene o d).1.r ≤ 255 ∧
      206 ≤ (basePixel Real.sqrt scene o d).1.g ∧ (basePixel Real.sqrt scene o d).1.g ≤ 255 ∧
      235 ≤ (basePixel Real.sqrt scene o d).1.b ∧ (basePixel Real.sqrt scene o d).1.b ≤ 255) ∧
    (d.y = 1 → (basePixel Real.sqrt scene o d).1 = ⟨135, 206, 235⟩) ∧
    (d.y = -1 → (basePixel Real.sqrt scene o d).1 = ⟨255, 255, 255⟩) := by
  have hbase : (basePixel Real.sqrt scene o d).1 = skyColor d := by
    simp [basePixel, hsph, hpl]
  have hsky : skyColor d =
      ⟨toUChar (truncInt ((1 - 0.5 * (d.y + 1)) * 255 + 0.5 * (d.y + 1) * 135)),
        toUChar (truncInt ((1 - 0.5 * (d.y + 1)) * 255 + 0.5 * (d.y + 1) * 206)),
        toUChar (truncInt ((1 - 0.5 * (d.y + 1)) * 255 + 0.5 * (d.y + 1) * 235))⟩ := by
    simp only [skyColor, Nat.cast_ofNat]
    norm_num
  rw [hbase, hsky]
  obtain ⟨r1, r2, r3⟩ := toUChar_truncInt
    ((1 - 0.5 * (d.y + 1)) * 255 + 0.5 * (d.y + 1) * 135) 135 255 (by norm_num) (by norm_num)
    (by push_cast; linarith) (by push_cast; linarith)
  obtain ⟨g1, g2, g3⟩ := toUChar_truncInt
    ((1 - 0.5 * (d.y + 1)) * 255 + 0.5 * (d.y + 1) * 206) 206 255 (by norm_num) (by norm_num)
    (by push_cast; linarith) (by push_cast; linarith)
  obtain ⟨b1, b2, b3⟩ := toUChar_truncInt
    ((1 - 0.5 * (d.y + 1)) * 255 + 0.5 * (d.y + 1) * 235) 235 255 (by norm_num) (by norm_num)
    (by push_cast; linarith) (by push_cast; linarith)
  refine ⟨⟨r1, g1, b1⟩, ⟨?_, ?_, ?_, ?_, ?_, ?_⟩, ?_, ?_⟩
  · show 135 ≤ toUChar _
    omega
  · show toUChar _ ≤ 255
    omega
  · show 206 ≤ toUChar _
    omega
  · show toUChar _ ≤ 255
    omega
  · show 235 ≤ toUChar _
    omega
  · show toUChar _ ≤ 255
    omega
  · intro hy
    rw [hy]
    have e1 : (1 - 0.5 * ((1 : ℝ) + 1)) * 255 + 0.5 * ((1 : ℝ) + 1) * 135 = ((135 : Int) : ℝ) := by
      norm_num
    have e2 : (1 - 0.5 * ((1 : ℝ) + 1)) * 255 + 0.5 * ((1 : ℝ) + 1) * 206 = ((206 : Int) : ℝ) := by
      norm_num
    have e3 : (1 - 0.5 * ((1 : ℝ) + 1)) * 255 + 0.5 * ((1 : ℝ) + 1) * 235 = ((235 : Int) : ℝ) := by
      norm_num
    rw [e1, e2, e3, truncInt_intCast, truncInt_intCast, truncInt_intCast]
    rfl
  · intro hy
    rw [hy]
    have e1 : (1 - 0.5 * ((-1 : ℝ) + 1)) * 255 + 0.5 * ((-1 : ℝ) + 1) * 135 = ((255 : Int) : ℝ) := by
      norm_num
    have e2 : (1 - 0.5 * ((-1 : ℝ) + 1)) * 255 + 0.5 * ((-1 : ℝ) + 1) * 206 = ((255 : Int) : ℝ) := by
      norm_num
    have e3 : (1 - 0.5 * ((-1 : ℝ) + 1)) * 255 + 0.5 * ((-1 : ℝ) + 1) * 235 = ((255 : Int) : ℝ) := by
      norm_num
    rw [e1, e2, e3, truncInt_intCast]
    rfl

/-- C10 on the empty scene for the ray from the camera position straight up: the pixel
is the sky colour (135, 206, 235). -/
theorem sky_pixel_color_witness :
    (basePixel Real.sqrt ⟨[], []⟩ ⟨0, 2, 5⟩ ⟨0, 1, 0⟩).1 = ⟨135, 206, 235⟩ :=
  (sky_pixel_color ⟨[], []⟩ ⟨0, 2, 5⟩ ⟨0, 1, 0⟩ rfl rfl (by norm_num) (by norm_num)).2.2.1 rfl

/-- C11. Sphere shading: for a ray whose nearest hit is a sphere with 8-bit colour
channels, each output channel equals `min(255, trunc(base_channel * (0.3 + 0.7 *
diffuse)))`, where `diffuse` is 0 if the shadow ray from `hit_point + 1e-4 * normal`
towards `-sunlight_dir` hits a sphere other than the hit one or hits the floor plane
beyond `1e-4`, and `max(0, normal . (-sunlight_dir))` otherwise; every channel lies
between `trunc(0.3 * base_channel)` and `base_channel`, and never exceeds 255. -/
theorem sphere_shading (scene : Scene ℝ) (o d : Vec3 ℝ) (i : Nat) (hs : Sphere ℝ)
    (hhit : (nearestHit Real.sqrt scene o d).hit_sphere = some (i, hs))
    (hcol : hs.color.r ≤ 255 ∧ hs.color.g ≤ 255 ∧ hs.color.b ≤ 255) :
    ∃ diffuse : ℝ,
      (SphereShadowed Real.sqrt scene i
          (shadowOrigin (o + d * (nearestHit Real.sqrt scene o d).closest_t)
            (hitNormal Real.sqrt o d (nearestHit Real.sqrt scene o d).closest_t hs))
          (-sunlight_dir Real.sqrt) → diffuse = 0) ∧
      (¬ SphereShadowed Real.sqrt scene i
          (shadowOrigin (o + d * (nearestHit Real.sqrt scene o d).closest_t)
            (hitNormal Real.sqrt o d (nearestHit Real.sqrt scene o d).closest_t hs))
          (-sunlight_dir Real.sqrt) →
        diffuse = max 0 ((hitNormal Real.sqrt o d (nearestHit Real.sqrt scene o d).closest_t
          hs).dot (-sunlight_dir Real.sqrt))) ∧
      (((basePixel Real.sqrt scene o d).1.r : Int) =
          min 255 (truncInt ((hs.color.r : ℝ) * (0.3 + 0.7 * diffuse))) ∧
        ((basePixel Real.sqrt scene o d).1.g : Int) =
          min 255 (truncInt ((hs.color.g : ℝ) * (0.3 + 0.7 * diffuse))) ∧
        ((basePixel Real.sqrt scene o d).1.b : Int) =
          min 255 (truncInt ((hs.color.b : ℝ) * (0.3 + 0.7 * diffuse)))) ∧
      (truncInt (0.3 * (hs.color.r : ℝ)) ≤ ((basePixel Real.sqrt scene o d).1.r : Int) ∧
        (basePixel Real.sqrt scene o d).1.r ≤ hs.color.r ∧
        (basePixel Real.sqrt scene o d).1.r ≤ 255) ∧
      (truncInt (0.3 * (hs.color.g : ℝ)) ≤ ((basePixel Real.sqrt scene o d).1.g : Int) ∧
        (basePixel Real.sqrt scene o d).1.g ≤ hs.color.g ∧
        (basePixel Real.sqrt scene o d).1.g ≤ 255) ∧
      (truncInt (0.3 * (hs.color.b : ℝ)) ≤ ((basePixel Real.sqrt scene o d).1.b : Int) ∧
        (basePixel Real.sqrt scene o d).1.b ≤ hs.color.b ∧
        (basePixel Real.sqrt scene o d).1.b ≤ 255) := by
  obtain ⟨in_shadow, hshadow, hbase⟩ : ∃ in_shadow : Bool,
      (in_shadow = true ↔ SphereShadowed Real.sqrt scene i
          (shadowOrigin (o + d * (nearestHit Real.sqrt scene o d).closest_t)
            (hitNormal Real.sqrt o d (nearestHit Real.sqrt scene o d).closest_t hs))
          (-sunlight_dir Real.sqrt)) ∧
      (basePixel Real.sqrt scene o d).1 = shade hs.color
        (ambient + (1 - ambient) * (if in_shadow = true then 0 else
          max 0 ((hitNormal Real.sqrt o d (nearestHit Real.sqrt scene o d).closest_t
            hs).dot (-sunlight_dir Real.sqrt)))) := by
    cases hf : findFloor scene.planes 0 with
    | none =>
      refine ⟨_, ?_, by simp only [basePixel, hhit, hf]; rfl⟩
      rw [Bool.or_eq_true, shadowBySpheres_skip]
      simp only [Nat.zero_add, SphereShadowed, hf, Bool.false_eq_true, or_false, false_and,
        exists_false, reduceCtorEq]
      rfl
    | some p =>
      obtain ⟨j, fp⟩ := p
      refine ⟨_, ?_, by simp only [basePixel, hhit, hf]; rfl⟩
      rw [Bool.or_eq_true, shadowBySpheres_skip]
      simp only [Nat.zero_add, SphereShadowed, hf, Option.some.injEq, Prod.mk.injEq]
      apply or_congr Iff.rfl
      cases hp : intersect_plane
          (o + d * (nearestHit Real.sqrt scene o d).closest_t +
            Vec3.normalize Real.sqrt
              (o + d * (nearestHit Real.sqrt scene o d).closest_t - hs.center) * (1e-4 : ℝ))
          (-sunlight_dir Real.sqrt) fp with
      | none =>
        constructor
        · intro h
          simp [shadowHit] at h
        · rintro ⟨j', fp', t, ⟨_, rfl⟩, ht, _⟩
          rw [show shadowOrigin (o + d * (nearestHit Real.sqrt scene o d).closest_t)
              (hitNormal Real.sqrt o d (nearestHit Real.sqrt scene o d).closest_t hs) =
              o + d * (nearestHit Real.sqrt scene o d).closest_t +
                Vec3.normalize Real.sqrt
                  (o + d * (nearestHit Real.sqrt scene o d).closest_t - hs.center) *
                    (1e-4 : ℝ) from rfl, hp] at ht
          exact absurd ht (by simp)
      | some t =>
        constructor
        · intro h
          simp only [shadowHit, decide_eq_true_eq] at h
          exact ⟨j, fp, t, ⟨rfl, rfl⟩, hp, h⟩
        · rintro ⟨j', fp', t', ⟨_, rfl⟩, ht, hgt⟩
          rw [show shadowOrigin (o + d * (nearestHit Real.sqrt scene o d).closest_t)
              (hitNormal Real.sqrt o d (nearestHit Real.sqrt scene o d).closest_t hs) =
              o + d * (nearestHit Real.sqrt scene o d).closest_t +
                Vec3.normalize Real.sqrt
                  (o + d * (nearestHit Real.sqrt scene o d).closest_t - hs.center) *
                    (1e-4 : ℝ) from rfl, hp] at ht
          rw [← Option.some.inj ht] at hgt
          simpa [shadowHit] using hgt
  have hn : (hitNormal Real.sqrt o d (nearestHit Real.sqrt scene o d).closest_t hs).dot
      (-sunlight_dir Real.sqrt) ≤ 1 := by
    apply dot_le_one
    · exact normalize_dot_self_le_one _
    · rw [neg_dot_neg]
      exact normalize_dot_self_le_one _
  refine ⟨if in_shadow = true then 0 else
    max 0 ((hitNormal Real.sqrt o d (nearestHit Real.sqrt scene o d).closest_t
      hs).dot (-sunlight_dir Real.sqrt)), ?_, ?_, ?_⟩
  · intro h
    rw [if_pos (hshadow.mpr h)]
  · intro h
    rw [if_neg (fun hc => h (hshadow.mp hc))]
  · generalize hdiff : (if in_shadow = true then (0 : ℝ) else
      max 0 ((hitNormal Real.sqrt o d (nearestHit Real.sqrt scene o d).closest_t
        hs).dot (-sunlight_dir Real.sqrt))) = diffuse at hbase ⊢
    have hd0 : 0 ≤ diffuse := by
      rw [← hdiff]
      split_ifs
      · exact le_refl _
      · exact le_max_left _ _
    have hd1 : diffuse ≤ 1 := by
      rw [← hdiff]
      split_ifs
      · norm_num
      · exact max_le (by norm_num) hn
    have hbr : (ambient : ℝ) + (1 - ambient) * diffuse = 0.3 + 0.7 * diffuse := by
      unfold ambient
      norm_num
    rw [hbr] at hbase
    have hb0 : (0.3 : ℝ) ≤ 0.3 + 0.7 * diffuse := by nlinarith
    have hb1 : (0.3 : ℝ) + 0.7 * diffuse ≤ 1 := by nlinarith
    obtain ⟨r1, r2, r3, r4⟩ := shadeChannel_bounds hs.color.r _ hcol.1 hb0 hb1
    obtain ⟨g1, g2, g3, g4⟩ := shadeChannel_bounds hs.color.g _ hcol.2.1 hb0 hb1
    obtain ⟨b1, b2, b3, b4⟩ := shadeChannel_bounds hs.color.b _ hcol.2.2 hb0 hb1
    rw [hbase]
    exact ⟨⟨r1, g1, b1⟩, ⟨r2, r3, r4⟩, ⟨g2, g3, g4⟩, ⟨b2, b3, b4⟩⟩

/-- C11 on the ray from the origin along `+z` hitting the unit sphere centred at
`(0, 0, 2)` of colour (200, 0, 0): the red channel lies between `trunc(0.3 * 200)` and
200. -/
theorem sphere_shading_witness :
    truncInt (0.3 * ((200 : Nat) : ℝ)) ≤
        (((basePixel Real.sqrt ⟨[⟨⟨0, 0, 2⟩, 1, ⟨200, 0, 0⟩⟩], []⟩ ⟨0, 0, 0⟩ ⟨0, 0, 1⟩).1.r : Nat) :
          Int) ∧
      (basePixel Real.sqrt ⟨[⟨⟨0, 0, 2⟩, 1, ⟨200, 0, 0⟩⟩], []⟩ ⟨0, 0, 0⟩ ⟨0, 0, 1⟩).1.r ≤ 200 ∧
      (basePixel Real.sqrt ⟨[⟨⟨0, 0, 2⟩, 1, ⟨200, 0, 0⟩⟩], []⟩ ⟨0, 0, 0⟩ ⟨0, 0, 1⟩).1.r ≤ 255 :=
  (sphere_shading ⟨[⟨⟨0, 0, 2⟩, 1, ⟨200, 0, 0⟩⟩], []⟩ ⟨0, 0, 0⟩ ⟨0, 0, 1⟩ 0
    ⟨⟨0, 0, 2⟩, 1, ⟨200, 0, 0⟩⟩ (by rw [single_sphere_hit])
    ⟨by decide, by decide, by decide⟩).elim (fun _ h => h.2.2.2.1)

/-- C12. Snow overlay: the final pixel is pure white if and only if some sample `s` has
`proj = (s - o) . d` with `0 <= proj <= 8`, `proj <= closest_t` and
`|o + proj * d - s|^2 < 0.008^2`, or the base colour is already white; when no sample
qualifies the final pixel is the base colour unchanged. -/
theorem snowOverlay_white_iff (o d : Vec3 ℝ) (closest_t : ℝ) (base : Color)
    (samples : List (Vec3 ℝ)) :
    (snowOverlay o d closest_t base samples = ⟨255, 255, 255⟩ ↔
      ((∃ s ∈ samples, 0 ≤ (s - o).dot d ∧ (s - o).dot d ≤ 8 ∧ (s - o).dot d ≤ closest_t ∧
          (o + d * (s - o).dot d - s).dot (o + d * (s - o).dot d - s) < 0.008 ^ 2) ∨
        base = ⟨255, 255, 255⟩)) ∧
    ((¬ ∃ s ∈ samples, 0 ≤ (s - o).dot d ∧ (s - o).dot d ≤ 8 ∧ (s - o).dot d ≤ closest_t ∧
          (o + d * (s - o).dot d - s).dot (o + d * (s - o).dot d - s) < 0.008 ^ 2) →
      snowOverlay o d closest_t base samples = base) := by
  have hany : samples.any (snowHit o d closest_t) = true ↔
      ∃ s ∈ samples, 0 ≤ (s - o).dot d ∧ (s - o).dot d ≤ 8 ∧ (s - o).dot d ≤ closest_t ∧
        (o + d * (s - o).dot d - s).dot (o + d * (s - o).dot d - s) < 0.008 ^ 2 := by
    rw [List.any_eq_true]
    constructor
    · rintro ⟨s, hs, h⟩
      exact ⟨s, hs, (snowHit_iff o d closest_t s).mp h⟩
    · rintro ⟨s, hs, h⟩
      exact ⟨s, hs, (snowHit_iff o d closest_t s).mpr h⟩
  rw [snowOverlay_eq_any, ← hany]
  constructor
  · by_cases h : samples.any (snowHit o d closest_t) = true
    · simp [h]
    · simp [h]
  · intro h
    rw [if_neg h]

/-- C13. `renderTile` output layout: with a scene set and `w, h >= 0` the call succeeds,
the output buffer has exactly `w * h` entries and entry `ty * w + tx` is the colour
`pixelColor` computes for the image pixel `(x0 + tx, y0 + ty)`; that colour is a function
of the absolute pixel coordinates, the image dimensions, the scene and the sample set
only, so two tiles drawn with the same sample set agree on every pixel they share. -/
theorem renderTile_layout (width height : Int) (sc : Scene ℝ) (snow : Nat → List (Vec3 ℝ))
    (x0 y0 w h : Int) (seed : Nat) (out : List Color) (hw : 0 ≤ w) (hh : 0 ≤ h) :
    ∃ res, renderTile Real.sqrt Real.tan Real.pi width height (some sc) snow x0 y0 w h seed out =
        some res ∧
      (res.length : Int) = w * h ∧
      (∀ tx ty : Nat, (tx : Int) < w → (ty : Int) < h →
        res[((ty : Int) * w + (tx : Int)).toNat]? =
          some (pixelColor Real.sqrt Real.tan Real.pi width height sc (snow (rngSeed seed))
            (x0 + tx) (y0 + ty))) ∧
      (∀ (x0' y0' w' h' : Int) (seed' : Nat) (out' res' : List Color), 0 ≤ w' → 0 ≤ h' →
        snow (rngSeed seed') = snow (rngSeed seed) →
        renderTile Real.sqrt Real.tan Real.pi width height (some sc) snow x0' y0' w' h' seed'
          out' = some res' →
        ∀ tx ty tx' ty' : Nat, (tx : Int) < w → (ty : Int) < h → (tx' : Int) < w' →
          (ty' : Int) < h' → x0 + tx = x0' + tx' → y0 + ty = y0' + ty' →
          res[((ty : Int) * w + (tx : Int)).toNat]? =
            res'[((ty' : Int) * w' + (tx' : Int)).toNat]?) := by
  have key : ∀ (x0 y0 w h : Int) (seed : Nat) (out : List Color), 0 ≤ w → 0 ≤ h →
      ∃ res, renderTile Real.sqrt Real.tan Real.pi width height (some sc) snow x0 y0 w h seed
          out = some res ∧
        (res.length : Int) = w * h ∧
        (∀ tx ty : Nat, (tx : Int) < w → (ty : Int) < h →
          res[((ty : Int) * w + (tx : Int)).toNat]? =
            some (pixelColor Real.sqrt Real.tan Real.pi width height sc (snow (rngSeed seed))
              (x0 + tx) (y0 + ty))) := by
    intro x0 y0 w h seed out hw hh
    have hwh : 0 ≤ w * h := mul_nonneg hw hh
    have hlen : ((resize out (w * h).toNat).length : Int) = w * (h.toNat : Int) := by
      rw [resize_length, Int.toNat_of_nonneg hwh, Int.toNat_of_nonneg hh]
    obtain ⟨r1, r2⟩ := rows_spec w hw h.toNat
      (fun ty tx => pixelColor Real.sqrt Real.tan Real.pi width height sc (snow (rngSeed seed))
        (x0 + tx) (y0 + ty)) (resize out (w * h).toNat) hlen h.toNat (le_refl _)
    have hf : renderTileRow Real.sqrt Real.tan Real.pi width height sc (snow (rngSeed seed))
        x0 y0 w = fun (o' : List Color) (ty : Nat) => (List.range w.toNat).foldl
          (fun (o'' : List Color) (tx : Nat) => o''.set (((ty : Int) * w + (tx : Int)).toNat)
            (pixelColor Real.sqrt Real.tan Real.pi width height sc (snow (rngSeed seed))
              (x0 + tx) (y0 + ty))) o' := by
      funext o' ty
      rfl
    refine ⟨_, by rw [renderTile, if_neg (not_lt.mpr hwh)], ?_, ?_⟩
    · rw [hf, r1, resize_length, Int.toNat_of_nonneg hwh]
    · intro tx ty htx hty
      rw [hf]
      exact r2 ty tx (by omega) htx
  obtain ⟨res, hres, hlen, hget⟩ := key x0 y0 w h seed out hw hh
  refine ⟨res, hres, hlen, hget, ?_⟩
  intro x0' y0' w' h' seed' out' res' hw' hh' hsnow hres' tx ty tx' ty' htx hty htx' hty' hx hy
  obtain ⟨res2, hres2, _, hget2⟩ := key x0' y0' w' h' seed' out' hw' hh'
  rw [hres'] at hres2
  rw [Option.some.inj hres2, hget tx ty htx hty, hget2 tx' ty' htx' hty', hsnow, hx, hy]

/-- C13 for a 2 x 3 tile at `(1, 1)` of a 4 x 4 image of the empty scene. -/
theorem renderTile_layout_witness :
    ∃ res, renderTile Real.sqrt Real.tan Real.pi 4 4 (some ⟨[], []⟩) (fun _ => []) 1 1 2 3 7 [] =
        some res ∧ (res.length : Int) = 2 * 3 ∧
      (∀ tx ty : Nat, (tx : Int) < 2 → (ty : Int) < 3 →
        res[((ty : Int) * 2 + (tx : Int)).toNat]? =
          some (pixelColor Real.sqrt Real.tan Real.pi 4 4 ⟨[], []⟩ [] (1 + tx) (1 + ty))) := by
  obtain ⟨res, h1, h2, h3, _⟩ := renderTile_layout 4 4 ⟨[], []⟩ (fun _ => []) 1 1 2 3 7 []
    (by decide) (by decide)
  exact ⟨res, h1, h2, h3⟩

/-- C14. Configuration error: with no scene set, `render` and `renderTile` return at
once and leave the caller's output buffer as it was, for every rank, size, tile
rectangle and seed. -/
theorem render_without_scene (width height : Int) (snow : Nat → List (Vec3 ℝ))
    (rank size x0 y0 w h : Int) (seed : Nat) (out : List Color) :
    render Real.sqrt Real.tan Real.pi width height none snow rank size out = some out ∧
      renderTile Real.sqrt Real.tan Real.pi width height none snow x0 y0 w h seed out =
        some out :=
  ⟨rfl, rfl⟩

/-- C15. All workers are told to stop: each worker beyond the first `num_tiles` workers
has been sent exactly the message "no more work", both right after the initial dispatch
and at every later state of the run (it is never sent a tile); and when the loop is
over, no tile is outstanding and every worker `1 .. size-1` has been sent "no more
work" exactly once, as its last message. -/
theorem all_workers_stopped (tiles : List Tile) (size : Nat) (order : List Nat) (s : Coord)
    (hrun : masterRun tiles size order = some s) :
    (∀ w, tiles.length < w → w < size →
      (initialDispatch tiles size).msgsTo w = [Msg.done] ∧ s.msgsTo w = [Msg.done]) ∧
    (¬ s.tiles_received < tiles.length →
      s.holding = [] ∧
      ∀ w, 1 ≤ w → w < size →
        ∃ init, s.msgsTo w = init ++ [Msg.done] ∧ Msg.done ∉ init) := by
  have hinit := (foldl_dispatch_stop tiles (size - 1)).1
  have hfin := runLoop_stop tiles (size - 1) order _ s hinit hrun
  refine ⟨?_, ?_⟩
  · intro w h1 h2
    exact ⟨hinit.beyond w h1 (by omega) (by simp), hfin.beyond w h1 (by omega) (by simp)⟩
  · intro hdone
    obtain ⟨inv0, _⟩ := initialDispatch_inv tiles size
    obtain ⟨inv, _⟩ := runLoop_inv tiles (size - 1) order _ s inv0 hrun
    have hlen := inv_lengths tiles _ s inv
    have hle := inv.next_le
    have hhold : s.holding = [] := by
      apply List.eq_nil_of_length_eq_zero
      omega
    refine ⟨hhold, ?_⟩
    intro w h1 h2
    exact hfin.idle w (by rw [hhold]; simp) h1 (by omega) (by simp)

/-- C15 on the four tiles of a 3 x 3 image with five workers (ranks 1 to 5) and the
arrival order 2, 1, 4, 3: worker 5 gets "no more work" at once. -/
theorem all_workers_stopped_witness :
    ∃ s, masterRun exampleTiles 6 [2, 1, 4, 3] = some s ∧
      (∀ w, exampleTiles.length < w → w < 6 →
        (initialDispatch exampleTiles 6).msgsTo w = [Msg.done] ∧ s.msgsTo w = [Msg.done]) ∧
      (¬ s.tiles_received < exampleTiles.length →
        s.holding = [] ∧
        ∀ w, 1 ≤ w → w < 6 →
          ∃ init, s.msgsTo w = init ++ [Msg.done] ∧ Msg.done ∉ init) := by
  have h : (masterRun exampleTiles 6 [2, 1, 4, 3]).isSome = true := by decide
  obtain ⟨s, hs⟩ := Option.isSome_iff_exists.mp h
  exact ⟨s, hs, all_workers_stopped exampleTiles 6 [2, 1, 4, 3] s hs⟩

/-- C16 (as stated) fails: there are no ray, base colour, nearest-hit distance and two
orderings of the same samples for which the overlay yields different colours. -/
theorem snowOverlay_order_not_observable :
    ¬ ∃ (o d : Vec3 ℝ) (closest_t : ℝ) (base : Color) (l₁ l₂ : List (Vec3 ℝ)),
      l₁.Perm l₂ ∧ snowOverlay o d closest_t base l₁ ≠ snowOverlay o d closest_t base l₂ := by
  rintro ⟨o, d, t, base, l₁, l₂, hperm, hne⟩
  exact hne (snowOverlay_perm o d t base l₁ l₂ hperm)

/-- C16 (amended). The snow sample order is not observable in the pixel: for every ray,
base colour and nearest-hit distance, two orderings of the same samples yield the same
final colour (white if some sample qualifies, the base colour otherwise), although the
loop stops at the first match. -/
theorem snowOverlay_order_irrelevant (o d : Vec3 ℝ) (closest_t : ℝ) (base : Color)
    (l₁ l₂ : List (Vec3 ℝ)) (h : l₁.Perm l₂) :
    snowOverlay o d closest_t base l₁ = snowOverlay o d closest_t base l₂ ∧
      (snowOverlay o d closest_t base l₁ = ⟨255, 255, 255⟩ ∨
        snowOverlay o d closest_t base l₁ = base) := by
  refine ⟨snowOverlay_perm o d closest_t base l₁ l₂ h, ?_⟩
  rw [snowOverlay_eq_any]
  split_ifs
  · exact Or.inl rfl
  · exact Or.inr rfl

/-- C16 (amended) for the ray from the origin along `+z`, a sample on the ray and one
far from it, in both orders: the pixel is white either way. -/
theorem snowOverlay_order_irrelevant_witness :
    snowOverlay (⟨0, 0, 0⟩ : Vec3 ℝ) ⟨0, 0, 1⟩ 5 ⟨10, 20, 30⟩ [⟨0, 0, 1⟩, ⟨3, 0, 1⟩] =
        snowOverlay (⟨0, 0, 0⟩ : Vec3 ℝ) ⟨0, 0, 1⟩ 5 ⟨10, 20, 30⟩ [⟨3, 0, 1⟩, ⟨0, 0, 1⟩] ∧
      (snowOverlay (⟨0, 0, 0⟩ : Vec3 ℝ) ⟨0, 0, 1⟩ 5 ⟨10, 20, 30⟩ [⟨0, 0, 1⟩, ⟨3, 0, 1⟩] =
          ⟨255, 255, 255⟩ ∨
        snowOverlay (⟨0, 0, 0⟩ : Vec3 ℝ) ⟨0, 0, 1⟩ 5 ⟨10, 20, 30⟩ [⟨0, 0, 1⟩, ⟨3, 0, 1⟩] =
          ⟨10, 20, 30⟩) :=
  snowOverlay_order_irrelevant ⟨0, 0, 0⟩ ⟨0, 0, 1⟩ 5 ⟨10, 20, 30⟩ [⟨0, 0, 1⟩, ⟨3, 0, 1⟩]
    [⟨3, 0, 1⟩, ⟨0, 0, 1⟩] (List.Perm.swap _ _ _)

/-- C17. Over the reals the camera basis (forward, right, up) built from position
`(0, 2, 5)`, look-at `(0, 1, 0)` and world up `(0, 1, 0)` is orthonormal; for every pixel
of an image with positive width and height the ray direction has unit length, and the
pixel is traced from the origin `(0, 2, 5)`. -/
theorem camera_basis_orthonormal (width height x y : Int) (_hw : 0 < width)
    (_hh : 0 < height) (_hx : 0 ≤ x ∧ x < width) (_hy : 0 ≤ y ∧ y < height)
    (scene : Scene ℝ) (snowflakes : List (Vec3 ℝ)) :
    ((camera_dir Real.sqrt).dot (camera_dir Real.sqrt) = 1 ∧
      (camera_right Real.sqrt).dot (camera_right Real.sqrt) = 1 ∧
      (cam_up Real.sqrt).dot (cam_up Real.sqrt) = 1 ∧
      (camera_dir Real.sqrt).dot (camera_right Real.sqrt) = 0 ∧
      (camera_dir Real.sqrt).dot (cam_up Real.sqrt) = 0 ∧
      (camera_right Real.sqrt).dot (cam_up Real.sqrt) = 0) ∧
    (rayDir Real.sqrt Real.tan Real.pi width height x y).dot
      (rayDir Real.sqrt Real.tan Real.pi width height x y) = 1 ∧
    pixelColor Real.sqrt Real.tan Real.pi width height scene snowflakes x y =
      snowOverlay ⟨0, 2, 5⟩ (rayDir Real.sqrt Real.tan Real.pi width height x y)
        (basePixel Real.sqrt scene ⟨0, 2, 5⟩
          (rayDir Real.sqrt Real.tan Real.pi width height x y)).2
        (basePixel Real.sqrt scene ⟨0, 2, 5⟩
          (rayDir Real.sqrt Real.tan Real.pi width height x y)).1 snowflakes :=
  ⟨camera_orthonormal, rayDir_unit width height x y, rfl⟩

/-- C17 at pixel `(1, 2)` of a 4 x 3 image of the empty scene without snow. -/
theorem camera_basis_orthonormal_witness :
    (rayDir Real.sqrt Real.tan Real.pi 4 3 1 2).dot (rayDir Real.sqrt Real.tan Real.pi 4 3 1 2) =
      1 :=
  (camera_basis_orthonormal 4 3 1 2 (by decide) (by decide) (by decide) (by decide)
    ⟨[], []⟩ []).2.1

/-- C18 (as stated) fails: in the 2 x 2 image of the scene with the single
unit sphere at the origin (here of colour (200, 100, 50)), none of the four pixel rays
hits the sphere. -/
theorem example_rays_all_miss :
    intersect_sphere Real.sqrt camera_pos (rayDir Real.sqrt Real.tan Real.pi 2 2 0 0)
        ⟨⟨0, 0, 0⟩, 1, ⟨200, 100, 50⟩⟩ = none ∧
      intersect_sphere Real.sqrt camera_pos (rayDir Real.sqrt Real.tan Real.pi 2 2 1 0)
        ⟨⟨0, 0, 0⟩, 1, ⟨200, 100, 50⟩⟩ = none ∧
      intersect_sphere Real.sqrt camera_pos (rayDir Real.sqrt Real.tan Real.pi 2 2 0 1)
        ⟨⟨0, 0, 0⟩, 1, ⟨200, 100, 50⟩⟩ = none ∧
      intersect_sphere Real.sqrt camera_pos (rayDir Real.sqrt Real.tan Real.pi 2 2 1 1)
        ⟨⟨0, 0, 0⟩, 1, ⟨200, 100, 50⟩⟩ = none :=
  ⟨example_pixel_miss ⟨200, 100, 50⟩ 0 0 (Or.inl rfl) (Or.inl rfl),
    example_pixel_miss ⟨200, 100, 50⟩ 1 0 (Or.inr rfl) (Or.inl rfl),
    example_pixel_miss ⟨200, 100, 50⟩ 0 1 (Or.inl rfl) (Or.inr rfl),
    example_pixel_miss ⟨200, 100, 50⟩ 1 1 (Or.inr rfl) (Or.inr rfl)⟩

/-- C18 (amended). In the scene with the single unit sphere at the origin and no planes,
every pixel `(x, y)` of the 2 x 2 image has a ray that misses the sphere and gets the
sky-gradient colour as base colour (with `closest_t` left at `DBL_MAX`); every ray that
misses the sphere gets the sky colour, and every ray that hits it at some `t < DBL_MAX`
is shaded with the unshadowed diffuse term `max(0, normal . (-light))`. -/
theorem single_sphere_example (col : Color) (x y : Int) (hx : 0 ≤ x ∧ x < 2)
    (hy : 0 ≤ y ∧ y < 2) :
    intersect_sphere Real.sqrt camera_pos (rayDir Real.sqrt Real.tan Real.pi 2 2 x y)
        ⟨⟨0, 0, 0⟩, 1, col⟩ = none ∧
      basePixel Real.sqrt ⟨[⟨⟨0, 0, 0⟩, 1, col⟩], []⟩ camera_pos
          (rayDir Real.sqrt Real.tan Real.pi 2 2 x y) =
        (skyColor (rayDir Real.sqrt Real.tan Real.pi 2 2 x y), DBL_MAX) ∧
      (∀ o d : Vec3 ℝ, intersect_sphere Real.sqrt o d ⟨⟨0, 0, 0⟩, 1, col⟩ = none →
        basePixel Real.sqrt ⟨[⟨⟨0, 0, 0⟩, 1, col⟩], []⟩ o d = (skyColor d, DBL_MAX)) ∧
      (∀ (o d : Vec3 ℝ) (t : ℝ),
        intersect_sphere Real.sqrt o d ⟨⟨0, 0, 0⟩, 1, col⟩ = some t → t < DBL_MAX →
        basePixel Real.sqrt ⟨[⟨⟨0, 0, 0⟩, 1, col⟩], []⟩ o d =
          (shade col (ambient + (1 - ambient) *
            max 0 ((hitNormal Real.sqrt o d t ⟨⟨0, 0, 0⟩, 1, col⟩).dot
              (-sunlight_dir Real.sqrt))), t)) := by
  have hmiss := example_pixel_miss col x y (by omega) (by omega)
  exact ⟨hmiss, single_sphere_sky _ _ _ hmiss, fun o d h => single_sphere_sky _ o d h,
    fun o d t h ht => single_sphere_lit _ o d t h ht⟩

/-- C18 (amended) at pixel `(0, 1)` and at the ray from `(0, 0, 5)` along `-z`, which
hits the sphere at `t = 4`. -/
theorem single_sphere_example_witness :
    basePixel Real.sqrt ⟨[⟨⟨0, 0, 0⟩, 1, ⟨200, 100, 50⟩⟩], []⟩ camera_pos
          (rayDir Real.sqrt Real.tan Real.pi 2 2 0 1) =
        (skyColor (rayDir Real.sqrt Real.tan Real.pi 2 2 0 1), DBL_MAX) ∧
      basePixel Real.sqrt ⟨[⟨⟨0, 0, 0⟩, 1, ⟨200, 100, 50⟩⟩], []⟩ ⟨0, 0, 5⟩ ⟨0, 0, -1⟩ =
        (shade ⟨200, 100, 50⟩ (ambient + (1 - ambient) *
          max 0 ((hitNormal Real.sqrt ⟨0, 0, 5⟩ ⟨0, 0, -1⟩ 4 ⟨⟨0, 0, 0⟩, 1, ⟨200, 100, 50⟩⟩).dot
            (-sunlight_dir Real.sqrt))), 4) :=
  ⟨(single_sphere_example ⟨200, 100, 50⟩ 0 1 (by decide) (by decide)).2.1,
    (single_sphere_example ⟨200, 100, 50⟩ 0 1 (by decide) (by decide)).2.2.2 _ _ 4
      (example_hit _) four_lt_DBL_MAX⟩

/-- C19. Tile identifiers are list indices: for `N >= 1`, `T >= 1` and enough fuel the generation loops return a list of
exactly `c ^ 2` tiles with `c = ceil(N / T)`; the tile at position `i` has `id = i`,
`x0 = (i mod c) * T`, `y0 = (i div c) * T`, `w = min(T, N - x0)`, `h = min(T, N - y0)` and
`1 <= w, h <= T`; and in every coordinator run over these tiles the lookup
`tiles[tile_id]` of a dispatched tile is in range and returns that tile. -/
theorem generateTiles_ids_are_indices (fuel : Nat) (N T : Int) (hN : 1 ≤ N) (hT : 1 ≤ T)
    (hfuel : N.toNat ≤ fuel) :
    ∃ (tiles : List Tile) (c : Nat), generateTiles fuel N T = some tiles ∧
      (c : Int) = ⌈(N : ℚ) / (T : ℚ)⌉ ∧ tiles.length = c ^ 2 ∧
      (∀ (i : Nat) (h : i < tiles.length),
        (tiles[i]).id = (i : Int) ∧ (tiles[i]).x0 = ((i % c : Nat) : Int) * T ∧
          (tiles[i]).y0 = ((i / c : Nat) : Int) * T ∧
          (tiles[i]).w = min T (N - (tiles[i]).x0) ∧ (tiles[i]).h = min T (N - (tiles[i]).y0) ∧
          1 ≤ (tiles[i]).w ∧ (tiles[i]).w ≤ T ∧ 1 ≤ (tiles[i]).h ∧ (tiles[i]).h ≤ T) ∧
      (∀ (size : Nat) (order : List Nat) (s : Coord), masterRun tiles size order = some s →
        ∀ t ∈ s.sentTiles, 0 ≤ t.id ∧ tiles[t.id.toNat]? = some t) := by
  have hT0 : 0 < T := by omega
  obtain ⟨tiles, hgen, -, -⟩ :=
    tileRows_spec N T hT0 fuel hfuel fuel 0 0 (le_refl _) (by simpa using hfuel)
  obtain ⟨r, h1, h2, h3, h4⟩ :=
    tileRows_shape N T hT0 fuel ((N + T - 1) / T).toNat rfl fuel 0 0 tiles hgen
  have hr : r = ((N + T - 1) / T).toNat := by
    apply ceil_unique N T hT0
    · linarith
    · intro k hk
      have := h3 k hk
      linarith
  have hq : (1 : Int) ≤ (N + T - 1) / T := Int.le_ediv_of_mul_le hT0 (by linarith)
  rw [← hr] at h1 h4
  refine ⟨tiles, r, hgen, ?_, by rw [h1]; ring, ?_, ?_⟩
  · rw [ceil_div_eq N T hT0, hr, Int.toNat_of_nonneg (by omega)]
  · intro i hi
    have hrpos : 0 < r := by
      by_contra h0
      have : r = 0 := by omega
      subst this
      rw [Nat.mul_zero] at h1
      omega
    have hx := h3 (i % r) (Nat.mod_lt i hrpos)
    have hy := h3 (i / r) (Nat.div_lt_of_lt_mul (by rw [← h1]; exact hi))
    rw [h4 i hi]
    simp only [zero_add] at hx hy ⊢
    refine ⟨trivial, trivial, trivial, trivial, trivial, ?_, min_le_left _ _, ?_, min_le_left _ _⟩
    · exact le_min hT (by linarith)
    · exact le_min hT (by linarith)
  · intro size order s hrun t ht
    obtain ⟨inv0, -⟩ := initialDispatch_inv tiles size
    obtain ⟨inv, -⟩ := runLoop_inv tiles (size - 1) order _ s inv0 hrun
    have hmem : t ∈ tiles := by
      rw [inv.sent_eq] at ht
      exact List.mem_of_mem_take ht
    exact lookup_by_id tiles (generateTiles_ids fuel N T tiles hgen) t hmem

/-- C19 for a 3 x 3 image with tile edge 2 (two tiles per row, four tiles). -/
theorem generateTiles_ids_are_indices_witness :
    ∃ (tiles : List Tile) (c : Nat), generateTiles 3 3 2 = some tiles ∧
      (c : Int) = ⌈((3 : Int) : ℚ) / ((2 : Int) : ℚ)⌉ ∧ tiles.length = c ^ 2 ∧
      (∀ (i : Nat) (h : i < tiles.length),
        (tiles[i]).id = (i : Int) ∧ (tiles[i]).x0 = ((i % c : Nat) : Int) * 2 ∧
          (tiles[i]).y0 = ((i / c : Nat) : Int) * 2 ∧
          (tiles[i]).w = min 2 (3 - (tiles[i]).x0) ∧ (tiles[i]).h = min 2 (3 - (tiles[i]).y0) ∧
          1 ≤ (tiles[i]).w ∧ (tiles[i]).w ≤ 2 ∧ 1 ≤ (tiles[i]).h ∧ (tiles[i]).h ≤ 2) ∧
      (∀ (size : Nat) (order : List Nat) (s : Coord), masterRun tiles size order = some s →
        ∀ t ∈ s.sentTiles, 0 ≤ t.id ∧ tiles[t.id.toNat]? = some t) :=
  generateTiles_ids_are_indices 3 3 2 (by decide) (by decide) (by decide)

/-- C20. Seed injectivity in 32-bit arithmetic: for a fixed rank, two tile identifiers
that get the same generator seed `((tile_id * 10007 mod 2^32) XOR (rank + 12345 mod
2^32)) + 12345 mod 2^32` are congruent modulo `2^32`, hence equal when both lie in
`[0, 2^32)`; and for a fixed tile identifier, ranks that differ modulo `2^32` get different
generator seeds. -/
theorem rngSeed_injective :
    (∀ (rank : Nat) (t1 t2 : Int),
      rngSeed (workerSeed t1 rank) = rngSeed (workerSeed t2 rank) →
      t1 % 4294967296 = t2 % 4294967296 ∧
        (0 ≤ t1 → t1 < 4294967296 → 0 ≤ t2 → t2 < 4294967296 → t1 = t2)) ∧
    (∀ (tile_id : Int) (r1 r2 : Nat), r1 % 4294967296 ≠ r2 % 4294967296 →
      rngSeed (workerSeed tile_id r1) ≠ rngSeed (workerSeed tile_id r2)) := by
  have hrng : ∀ a b : Nat, a < 4294967296 → b < 4294967296 →
      rngSeed (a : Int) = rngSeed (b : Int) → a = b := by
    intro a b ha hb h
    unfold rngSeed at h
    omega
  constructor
  · intro rank t1 t2 h
    have hw := hrng _ _ (workerSeed_lt t1 rank) (workerSeed_lt t2 rank) h
    unfold workerSeed at hw
    have hx := Nat.xor_left_inj.mp hw
    have hmod : (t1 * 10007) % 4294967296 = (t2 * 10007) % 4294967296 := by
      have e1 := Int.emod_nonneg (t1 * 10007) (by norm_num : (4294967296 : Int) ≠ 0)
      have e2 := Int.emod_nonneg (t2 * 10007) (by norm_num : (4294967296 : Int) ≠ 0)
      clear h hw
      generalize (t1 * 10007) % 4294967296 = u at hx e1 ⊢
      generalize (t2 * 10007) % 4294967296 = v at hx e2 ⊢
      omega
    have hcong := mul_10007_injective t1 t2 hmod
    refine ⟨hcong, ?_⟩
    intro h1 h2 h3 h4
    clear h hw hx hmod
    omega
  · intro tile_id r1 r2 hne h
    have hw := hrng _ _ (workerSeed_lt tile_id r1) (workerSeed_lt tile_id r2) h
    unfold workerSeed at hw
    have hx := Nat.xor_right_inj.mp hw
    clear h hw
    omega

/-- C21. The tile path refines the whole-image path: for every scene (set or not), image
size, `size >= 1` and `rank` in `[0, size)`, the call
`renderTile(0, start_row, width, end_row - start_row, seed = rank)` on the band that
`render` computes for `(rank, size)` returns exactly what `render(rank, size)` returns
from the same output vector; both draw the snow samples from a generator seeded with
`(rank + 12345) mod 2^32`; and for `width, height >= 0` the call does return a buffer. -/
theorem renderTile_refines_render (width height : Int) (scene : Option (Scene ℝ))
    (snow : Nat → List (Vec3 ℝ)) (rank size : Int) (hs : 1 ≤ size) (hr0 : 0 ≤ rank)
    (hr1 : rank < size) (out : List Color) :
    renderTile Real.sqrt Real.tan Real.pi width height scene snow 0
        (start_row height rank size) width
        (end_row height rank size - start_row height rank size) rank.toNat out =
      render Real.sqrt Real.tan Real.pi width height scene snow rank size out ∧
    rngSeed ((rank.toNat : Nat) : Int) = rngSeed rank ∧
    (0 ≤ width → 0 ≤ height →
      ∃ res, render Real.sqrt Real.tan Real.pi width height scene snow rank size out =
        some res) := by
  cases scene with
  | none => exact ⟨rfl, rngSeed_toNat rank hr0, fun _ _ => ⟨out, rfl⟩⟩
  | some sc =>
    have hsz : size ≠ 0 := by omega
    refine ⟨?_, rngSeed_toNat rank hr0, ?_⟩
    · rw [render_band width height sc snow rank size hsz out, renderRow_eq_renderTileRow]
      simp only [renderTile, rngSeed_toNat rank hr0,
        mul_comm width (end_row height rank size - start_row height rank size)]
    · intro hw hh
      have hle := band_le height size rank hh hs hr0 hr1
      have hnn : ¬ (end_row height rank size - start_row height rank size) * width < 0 :=
        not_lt.mpr (mul_nonneg (by linarith) hw)
      rw [render_band width height sc snow rank size hsz out, if_neg hnn]
      exact ⟨_, rfl⟩

/-- C21 for rank 1 of 2 on a 2 x 3 image of the empty scene without snow. -/
theorem renderTile_refines_render_witness :
    renderTile Real.sqrt Real.tan Real.pi 2 3 (some ⟨[], []⟩) (fun _ => []) 0
        (start_row 3 1 2) 2 (end_row 3 1 2 - start_row 3 1 2) (1 : Int).toNat [] =
      render Real.sqrt Real.tan Real.pi 2 3 (some ⟨[], []⟩) (fun _ => []) 1 2 [] :=
  (renderTile_refines_render 2 3 (some ⟨[], []⟩) (fun _ => []) 1 2 (by decide) (by decide)
    (by decide) []).1

/-- C22 (as stated) fails: for a 40000 x 40000 image and 2 ranks the loop computes
`recvcounts[0] = -1894967296` in 32-bit `int` arithmetic, not
`(end_row_0 - start_row_0) * width * 3 = 2400000000`, and the counts do not sum to
`height * width * 3`. -/
theorem gatherLayout_overflow :
    gatherLayout 40000 2 = some ([-1894967296, -1894967296], [0, -1894967296]) ∧
      (end_row 40000 0 2 - start_row 40000 0 2) * 40000 * 3 = 2400000000 ∧
      ([-1894967296, -1894967296] : List Int).sum ≠ 40000 * 40000 * 3 := by
  refine ⟨?_, ?_, by decide⟩
  · decide
  · decide

/-- C22 (amended). Row bands of the whole-image path partition the image: for
`height >= 0` and `size >= 1` the ranges `[start_row, end_row)` of ranks `0 .. size-1`
start at 0, are consecutive and end at `height`; bands of different ranks share no row;
a row lies in `[0, height)` exactly when it lies in the band of some rank. Whenever
`height * width * 3` fits a 32-bit `int` (square image, `width = height = image_size`,
`size` an `int`), the gather layout agrees with the bands:
`recvcounts[i] = (end_row_i - start_row_i) * width * 3`,
`displs[i] = start_row_i * width * 3`, and the counts sum to `height * width * 3`. -/
theorem row_bands_partition (height size : Int) (hh : 0 ≤ height) (hs : 1 ≤ size) :
    (start_row height 0 size = 0 ∧ end_row height (size - 1) size = height ∧
      (∀ i, 0 ≤ i → i < size → start_row height i size ≤ end_row height i size) ∧
      (∀ i, 0 ≤ i → i + 1 < size → end_row height i size = start_row height (i + 1) size)) ∧
    (∀ i j y, 0 ≤ i → i < j → j < size →
      ¬ ((start_row height i size ≤ y ∧ y < end_row height i size) ∧
        (start_row height j size ≤ y ∧ y < end_row height j size))) ∧
    (∀ y, (0 ≤ y ∧ y < height) ↔
      ∃ i, 0 ≤ i ∧ i < size ∧ start_row height i size ≤ y ∧ y < end_row height i size) ∧
    (height * height * 3 ≤ 2147483647 → size ≤ 2147483647 →
      ∃ recvcounts displs, gatherLayout height size = some (recvcounts, displs) ∧
        (recvcounts.length : Int) = size ∧ (displs.length : Int) = size ∧
        (∀ i : Nat, (i : Int) < size →
          recvcounts[i]? =
              some ((end_row height i size - start_row height i size) * height * 3) ∧
            displs[i]? = some (start_row height i size * height * 3)) ∧
        recvcounts.sum = height * height * 3) := by
  refine ⟨⟨?_, ?_, ?_, ?_⟩, ?_, ?_, ?_⟩
  · simp [start_row]
  · simp [end_row]
  · intro i hi hi'
    exact band_le height size i hh hs hi hi'
  · intro i _ hi'
    exact band_next height size i hi'
  · rintro i j y _ hij hj ⟨⟨-, h1⟩, ⟨h2, -⟩⟩
    have := band_disjoint height size i j hh hs hij hj
    omega
  · intro y
    exact band_cover height size y hh hs
  · intro hb hs1
    obtain ⟨hq0, hq1, -⟩ := band_facts height size hh hs
    unfold rows_per_rank at hq0 hq1
    obtain ⟨rc, dp, hrun, hl1, hl2, hval⟩ :=
      gather_prefix height size (Int.tdiv height size) hh hb hs hs1 hq0 hq1 size.toNat
        (le_refl _)
    have hsum := gather_sum height size (Int.tdiv height size) hs rc hl1
      (fun j hj => (hval j hj).1)
    refine ⟨rc, dp, ?_, by omega, by omega, ?_, hsum⟩
    · simp only [gatherLayout, if_neg (not_le.mpr (by omega : 0 < size))]
      exact hrun
    · intro i hi
      obtain ⟨h1, h2⟩ := hval i (by omega)
      rw [h1, h2]
      simp only [end_row, start_row, rows_per_rank]
      constructor
      · congr 1
        split_ifs with hc
        · rw [hc]
          ring
        · ring
      · trivial

/-- C22 (amended) for an image of 5 rows rendered by 2 ranks: bands `[0, 2)` and
`[2, 5)`, counts 30 and 45 bytes. -/
theorem row_bands_partition_witness :
    (∀ y : Int, (0 ≤ y ∧ y < 5) ↔
      ∃ i, 0 ≤ i ∧ i < 2 ∧ start_row 5 i 2 ≤ y ∧ y < end_row 5 i 2) ∧
    (∃ recvcounts displs, gatherLayout 5 2 = some (recvcounts, displs) ∧
      (recvcounts.length : Int) = 2 ∧ (displs.length : Int) = 2 ∧
      (∀ i : Nat, (i : Int) < 2 →
        recvcounts[i]? = some ((end_row 5 i 2 - start_row 5 i 2) * 5 * 3) ∧
          displs[i]? = some (start_row 5 i 2 * 5 * 3)) ∧
      recvcounts.sum = 5 * 5 * 3) :=
  ⟨(row_bands_partition 5 2 (by decide) (by decide)).2.2.1,
    (row_bands_partition 5 2 (by decide) (by decide)).2.2.2 (by decide) (by decide)⟩

end HPCLab
